import Mathlib

/-!
BusTub: LRU replacer and hash-table bucket page.

A shallow embedding of `src/buffer/lru_replacer.cpp` and
`src/storage/page/hash_table_bucket_page.cpp`, followed by the theorems that
settle the specification's statements about them.

Conventions of the embedding.

* `std::list<frame_id_t>` is a Lean list of nodes, front of the list at the head.
  A list iterator is the identity of a node; every node therefore carries an
  address `addr`, and `push_front` takes the next unused address.
* `std::unordered_map<frame_id_t, iterator>` is an association list from frame id
  to node address; its iteration order is never observed by the code.
* Undefined behaviour of the C++ library (`back()` of an empty list, `erase` of an
  iterator that designates no node of the list) is the outcome `none`.
* The mutex is not modelled: every operation holds it from entry to exit, so the
  operations are atomic state transformers.
-/

namespace LRUReplacer

/-- One node of `list_unpinned_`: the frame id it stores and the address that an
iterator to it holds. -/
structure Node where
  addr : Nat
  frame : Int
deriving DecidableEq, Repr

/-- Map operation `map_frames_.count(frame_id)`. -/
def mapCount (m : List (Int × Nat)) (f : Int) : Nat :=
  (m.filter (fun e => e.1 == f)).length

/-- Map operation `map_frames_[frame_id]` for a key that is present. -/
def mapAt (m : List (Int × Nat)) (f : Int) : Option Nat :=
  (m.find? (fun e => e.1 == f)).map Prod.snd

/-- Map operation `map_frames_.erase(frame_id)`. -/
def mapErase (m : List (Int × Nat)) (f : Int) : List (Int × Nat) :=
  m.filter (fun e => e.1 != f)

/-- Map operation `map_frames_.emplace(frame_id, it)`: inserts only when the key is absent. -/
def mapEmplace (m : List (Int × Nat)) (f : Int) (p : Nat) : List (Int × Nat) :=
  if mapCount m f = 0 then (f, p) :: m else m

/-- List operation `list_unpinned_.erase(p)`: unlinks the node that iterator `p` designates;
undefined when `p` designates no node of the list. -/
def listErase (l : List Node) (p : Nat) : Option (List Node) :=
  if l.any (fun n => n.addr == p) then some (l.eraseP (fun n => n.addr == p)) else none

end LRUReplacer

/-- The members of `class LRUReplacer`, and the next unused node address. -/
structure LRUReplacer where
  pages_num_ : Nat
  list_unpinned_ : List LRUReplacer.Node
  map_frames_ : List (Int × Nat)
  fresh : Nat
deriving DecidableEq, Repr

namespace LRUReplacer

/-- Constructor `LRUReplacer::LRUReplacer(size_t num_pages)`. -/
def new (num_pages : Nat) : LRUReplacer :=
  { pages_num_ := num_pages, list_unpinned_ := [], map_frames_ := [], fresh := 0 }

/-- Member function `LRUReplacer::Victim`. The inner option is the out-parameter: `none` when the
function returns false, `some f` when it returns true with `*frame_id = f`. -/
def Victim (r : LRUReplacer) : Option (Option Int × LRUReplacer) :=
  if r.map_frames_.isEmpty then some (none, r)
  else
    match r.list_unpinned_.getLast? with
    | none => none
    | some n =>
      some (some n.frame,
        { r with list_unpinned_ := r.list_unpinned_.dropLast,
                 map_frames_ := mapErase r.map_frames_ n.frame })

/-- Member function `LRUReplacer::Pin`. -/
def Pin (r : LRUReplacer) (frame_id : Int) : Option LRUReplacer :=
  if mapCount r.map_frames_ frame_id = 0 then some r
  else
    match mapAt r.map_frames_ frame_id with
    | none => none
    | some p =>
      match listErase r.list_unpinned_ p with
      | none => none
      | some l => some { r with list_unpinned_ := l, map_frames_ := mapErase r.map_frames_ frame_id }

/-- Member function `LRUReplacer::Unpin`. -/
def Unpin (r : LRUReplacer) (frame_id : Int) : LRUReplacer :=
  if mapCount r.map_frames_ frame_id ≠ 0 then r
  else
    { r with list_unpinned_ := ⟨r.fresh, frame_id⟩ :: r.list_unpinned_,
             map_frames_ := mapEmplace r.map_frames_ frame_id r.fresh,
             fresh := r.fresh + 1 }

/-- Member function `LRUReplacer::Size`. -/
def Size (r : LRUReplacer) : Nat := r.map_frames_.length

/-- A call made by a client of the replacer. -/
inductive Op where
  | Pin (f : Int)
  | Unpin (f : Int)
  | Victim
deriving DecidableEq, Repr

/-- What a call was and, for `Victim`, what it returned. -/
inductive Event where
  | pin (f : Int)
  | unpin (f : Int)
  | victim (r : Option Int)
deriving DecidableEq, Repr

/-- One call on the replacer, with the event it leaves in the history. -/
def step (r : LRUReplacer) : Op → Option (LRUReplacer × Event)
  | .Pin f => (Pin r f).map (fun r' => (r', Event.pin f))
  | .Unpin f => some (Unpin r f, Event.unpin f)
  | .Victim => (Victim r).map (fun p => (p.2, Event.victim p.1))

/-- A sequence of calls started in state `r` with history `log`. -/
def runFrom : LRUReplacer → List Event → List Op → Option (LRUReplacer × List Event)
  | r, log, [] => some (r, log)
  | r, log, op :: ops =>
    match step r op with
    | none => none
    | some (r', e) => runFrom r' (log ++ [e]) ops

/-- A sequence of calls on a freshly constructed replacer. -/
def run (num_pages : Nat) (ops : List Op) : Option (LRUReplacer × List Event) :=
  runFrom (new num_pages) [] ops

/-- Whether event `e` is one of `Pin(f)`, `Unpin(f)`, "Victim returned `f`". -/
def Event.about (f : Int) : Event → Bool
  | .pin g => g == f
  | .unpin g => g == f
  | .victim (some g) => g == f
  | .victim none => false

/-- The most recent event of the history that is about frame `f`. -/
def lastAbout (log : List Event) (f : Int) : Option Event :=
  (log.filter (Event.about f)).getLast?

/-- Frame `f` is tracked according to the history: its most recent event is an
`Unpin(f)`. -/
def trackedBy (log : List Event) (f : Int) : Bool :=
  lastAbout log f == some (Event.unpin f)

/-- How one event changes the position of the effective unpin of `f`, where `i` is
the position of the event in the history. -/
def effStep (f : Int) (i : Nat) (acc : Option Nat) : Event → Option Nat
  | .pin g => if g = f then none else acc
  | .unpin g => if g = f then (if acc.isSome then acc else some i) else acc
  | .victim (some g) => if g = f then none else acc
  | .victim none => acc

/-- Scan of the history from position `i` on. -/
def effUnpinFrom (f : Int) : Nat → Option Nat → List Event → Option Nat
  | _, acc, [] => acc
  | i, acc, e :: rest => effUnpinFrom f (i + 1) (effStep f i acc e) rest

/-- Position in the history of the effective unpin of `f`: the `Unpin(f)` that made
`f` tracked, when `f` is tracked at the end of the history. -/
def effUnpin (log : List Event) (f : Int) : Option Nat :=
  effUnpinFrom f 0 none log

/-- The frame ids held by the recency list, front first. -/
def candidates (r : LRUReplacer) : List Int := r.list_unpinned_.map Node.frame

/-- Frame `f` is tracked by the replacer: it has an entry in `map_frames_`. -/
def tracks (r : LRUReplacer) (f : Int) : Bool := mapCount r.map_frames_ f != 0

/-- Repeated `Victim` calls until one returns false, at most `fuel` calls: the
frames returned, in order. `none` when the fuel runs out first or a call is
undefined. -/
def drain : Nat → LRUReplacer → Option (List Int)
  | 0, _ => none
  | fuel + 1, r =>
    match Victim r with
    | none => none
    | some (none, _) => some []
    | some (some f, r') => (drain fuel r').map (fun fs => f :: fs)

/-- Representation invariant of the list-plus-map pair: no address and no frame id
occurs twice in the list, no key occurs twice in the map, a map entry `(f, p)`
exists exactly when the node at address `p` of the list holds `f`, and every
address in use is below the next unused one. -/
structure Rep (r : LRUReplacer) : Prop where
  addr_nodup : (r.list_unpinned_.map Node.addr).Nodup
  frame_nodup : (r.list_unpinned_.map Node.frame).Nodup
  key_nodup : (r.map_frames_.map Prod.fst).Nodup
  entry_iff : ∀ f p, (f, p) ∈ r.map_frames_ ↔ (⟨p, f⟩ : Node) ∈ r.list_unpinned_
  addr_lt : ∀ n ∈ r.list_unpinned_, n.addr < r.fresh

/-- Frame `f` was made tracked later than frame `g`, according to the history. -/
def laterThan (log : List Event) (f g : Int) : Prop :=
  ∃ i j, effUnpin log f = some i ∧ effUnpin log g = some j ∧ j < i

/-- The state agrees with the history: the list holds exactly the frames that the
history says are tracked, most recently tracked first. -/
structure Agrees (r : LRUReplacer) (log : List Event) : Prop where
  rep : Rep r
  mem_iff : ∀ f, f ∈ candidates r ↔ (effUnpin log f).isSome = true
  bound : ∀ f i, effUnpin log f = some i → i < log.length
  order : (candidates r).Pairwise (laterThan log)

/-- The state with frame `f` unlinked from the list and erased from the map. -/
def removeFrame (r : LRUReplacer) (f : Int) : LRUReplacer :=
  { r with list_unpinned_ := r.list_unpinned_.filter (fun n => n.frame != f),
           map_frames_ := mapErase r.map_frames_ f }

/-- The history holds an `Unpin(f)` after which there is neither a `Pin(f)` nor a
`Victim` call that returned `f`. -/
def UnpinnedSince (log : List Event) (f : Int) : Prop :=
  ∃ j : Nat, log[j]? = some (Event.unpin f) ∧
    ∀ k : Nat, j < k → log[k]? ≠ some (Event.pin f) ∧ log[k]? ≠ some (Event.victim (some f))

/-- Position `i` of the history is the effective unpin of `f`: it is an `Unpin(f)` made
when `f` was not tracked, and no later event is a `Pin(f)` or a `Victim` call that
returned `f`. -/
def EffectiveUnpin (log : List Event) (f : Int) (i : Nat) : Prop :=
  log[i]? = some (Event.unpin f) ∧ trackedBy (log.take i) f = false ∧
    ∀ k : Nat, i < k → log[k]? ≠ some (Event.pin f) ∧ log[k]? ≠ some (Event.victim (some f))

end LRUReplacer

/-!
Hash-table bucket page.

`BUCKET_ARRAY_SIZE` is a macro of the header `storage/page/hash_table_bucket_page.h`;
it is the parameter `N` of every function that uses it. A bitmap byte is the natural
number of its bit pattern, 0 to 255. The byte arrays and the slot array are total maps
from index to content; `GetValue`, `Insert`, `Remove`, `IsFull`, `IsEmpty` and
`NumReadable` read and write bytes `0 .. (N - 1) / 8` and slots `0 .. N - 1` only. The
functions that take a slot index (`IsOccupied`, `SetOccupied`, `IsReadable`,
`SetReadable`, `SetUnreadable`, `RemoveAt`) check no range in the source: the
definitions describe them for `bucket_idx < N`. With `bucket_idx / 8 > (N - 1) / 8` the
source reads or writes outside the bitmap, past `readable_` into the slot array, which
the total maps do not describe; statements about calls of `RemoveAt` carry the bound
`bucket_idx < N`. A key comparator returns an integer, zero for equal keys.
-/

/-- The data members of `HashTableBucketPage`. -/
structure HashTableBucketPage (K V : Type) where
  occupied_ : Nat → Nat
  readable_ : Nat → Nat
  array_ : Nat → K × V

namespace HashTableBucketPage

variable {K V : Type}

/-- Member function `HashTableBucketPage::IsOccupied`. -/
def IsOccupied (b : HashTableBucketPage K V) (bucket_idx : Nat) : Bool :=
  (b.occupied_ (bucket_idx / 8) &&& (1 <<< (bucket_idx % 8))) != 0

/-- Member function `HashTableBucketPage::SetOccupied`; the result of `|=` is stored into a byte. -/
def SetOccupied (b : HashTableBucketPage K V) (bucket_idx : Nat) : HashTableBucketPage K V :=
  { b with occupied_ := Function.update b.occupied_ (bucket_idx / 8)
              ((b.occupied_ (bucket_idx / 8) ||| (1 <<< (bucket_idx % 8))) % 256) }

/-- Member function `HashTableBucketPage::IsReadable`. -/
def IsReadable (b : HashTableBucketPage K V) (bucket_idx : Nat) : Bool :=
  (b.readable_ (bucket_idx / 8) &&& (1 <<< (bucket_idx % 8))) != 0

/-- Member function `HashTableBucketPage::SetReadable`. -/
def SetReadable (b : HashTableBucketPage K V) (bucket_idx : Nat) : HashTableBucketPage K V :=
  { b with readable_ := Function.update b.readable_ (bucket_idx / 8)
              ((b.readable_ (bucket_idx / 8) ||| (1 <<< (bucket_idx % 8))) % 256) }

/-- Member function `HashTableBucketPage::SetUnreadable`. `~(1 << offset)` is the complement of a 32-bit
`int`; the result of `&=` is stored into a byte. -/
def SetUnreadable (b : HashTableBucketPage K V) (bucket_idx : Nat) : HashTableBucketPage K V :=
  { b with readable_ := Function.update b.readable_ (bucket_idx / 8)
              ((b.readable_ (bucket_idx / 8) &&& (0xFFFFFFFF ^^^ (1 <<< (bucket_idx % 8)))) % 256) }

/-- Member function `HashTableBucketPage::RemoveAt`, for `bucket_idx < N`: the source
checks no range, and the byte it writes for a larger index is not one of `readable_`. -/
def RemoveAt (b : HashTableBucketPage K V) (bucket_idx : Nat) : HashTableBucketPage K V :=
  SetUnreadable b bucket_idx

/-- The loop of `GetValue` from slot `i` on, with `fuel` slots left before
`array_size`; `flag` and `result` are the local flag and the caller's vector. -/
def GetValue.loop (b : HashTableBucketPage K V) (key : K) (cmp : K → K → Int) :
    Nat → Nat → Bool → List V → Bool × List V
  | 0, _, flag, result => (flag, result)
  | fuel + 1, i, flag, result =>
    if IsReadable b i = true ∧ cmp (b.array_ i).1 key = 0 then
      GetValue.loop b key cmp fuel (i + 1) true (result ++ [(b.array_ i).2])
    else if IsOccupied b i = false then (flag, result)
    else GetValue.loop b key cmp fuel (i + 1) flag result

/-- Member function `HashTableBucketPage::GetValue`: the returned flag and the caller's vector after
the call. The function writes to no member of the page. -/
def GetValue (N : Nat) (b : HashTableBucketPage K V) (key : K) (cmp : K → K → Int)
    (result : List V) : Bool × List V :=
  GetValue.loop b key cmp N 0 false result

/-- The loop of `Insert` from slot `i` on, with `fuel` slots left before `array_size`
(`N`) and `pos` the slot recorded so far. `none`: the loop returned false on a
duplicate pair; `some pos`: the loop ended with this value of `pos`. -/
def Insert.loop [DecidableEq V] (N : Nat) (b : HashTableBucketPage K V) (key : K) (value : V)
    (cmp : K → K → Int) : Nat → Nat → Nat → Option Nat
  | 0, _, pos => some pos
  | fuel + 1, i, pos =>
    if IsReadable b i = true ∧ cmp (b.array_ i).1 key = 0 ∧ (b.array_ i).2 = value then none
    else if IsReadable b i = false then
      if IsOccupied b i = false then some (if pos = N then i else pos)
      else Insert.loop N b key value cmp fuel (i + 1) (if pos = N then i else pos)
    else Insert.loop N b key value cmp fuel (i + 1) pos

/-- Member function `HashTableBucketPage::Insert`: the returned flag and the page after the call. -/
def Insert [DecidableEq V] (N : Nat) (b : HashTableBucketPage K V) (key : K) (value : V)
    (cmp : K → K → Int) : Bool × HashTableBucketPage K V :=
  match Insert.loop N b key value cmp N 0 N with
  | none => (false, b)
  | some pos =>
    if pos = N then (false, b)
    else
      (true, SetReadable (SetOccupied
        { b with array_ := Function.update b.array_ pos (key, value) } pos) pos)

/-- The loop of `Remove` from slot `i` on, with `fuel` slots left before `array_size`. -/
def Remove.loop [DecidableEq V] (b : HashTableBucketPage K V) (key : K) (value : V)
    (cmp : K → K → Int) : Nat → Nat → Bool × HashTableBucketPage K V
  | 0, _ => (false, b)
  | fuel + 1, i =>
    if IsReadable b i = true ∧ cmp (b.array_ i).1 key = 0 ∧ (b.array_ i).2 = value then
      (true, SetUnreadable b i)
    else if IsOccupied b i = false then (false, b)
    else Remove.loop b key value cmp fuel (i + 1)

/-- Member function `HashTableBucketPage::Remove`: the returned flag and the page after the call. -/
def Remove [DecidableEq V] (N : Nat) (b : HashTableBucketPage K V) (key : K) (value : V)
    (cmp : K → K → Int) : Bool × HashTableBucketPage K V :=
  Remove.loop b key value cmp N 0

/-- Data-model invariant: a readable slot is occupied. -/
def ReadableImpliesOccupied (N : Nat) (b : HashTableBucketPage K V) : Prop :=
  ∀ i, i < N → IsReadable b i = true → IsOccupied b i = true

/-- Data-model invariant: the occupied slots form a prefix of the slot array. -/
def OccupiedContiguous (N : Nat) (b : HashTableBucketPage K V) : Prop :=
  ∀ i, i < N → ∀ j, j < i → IsOccupied b i = true → IsOccupied b j = true

/-- Slot `i` is live and holds a key that compares equal to `key`. -/
def matchesKey (b : HashTableBucketPage K V) (key : K) (cmp : K → K → Int) (i : Nat) : Bool :=
  IsReadable b i && decide (cmp (b.array_ i).1 key = 0)

/-- Slot `i` is live and holds the pair `(key, value)` up to the comparator. -/
def holdsPair [DecidableEq V] (b : HashTableBucketPage K V) (key : K) (value : V)
    (cmp : K → K → Int) (i : Nat) : Bool :=
  IsReadable b i && decide (cmp (b.array_ i).1 key = 0) && decide ((b.array_ i).2 = value)

/-- A page of capacity 4 with pairs in slots 0 and 2 and a tombstone in slot 1:
occupied bits 0, 1, 2 and readable bits 0, 2. -/
def examplePage : HashTableBucketPage Int Int :=
  { occupied_ := fun i => if i = 0 then 7 else 0,
    readable_ := fun i => if i = 0 then 5 else 0,
    array_ := fun i => if i = 0 then (10, 100) else if i = 1 then (11, 110)
      else if i = 2 then (10, 120) else (0, 0) }

/-- The comparator of integer keys. -/
def intCmp (a b : Int) : Int := if a < b then -1 else if b < a then 1 else 0

/-- What the loop of `Insert` knows about `pos` when it is at slot `i`: either no slot
before `i` is free and `pos` is still `N`, or `pos` is the first free slot. -/
def firstFree (N : Nat) (b : HashTableBucketPage K V) (i pos : Nat) : Prop :=
  (pos = N ∧ ∀ j, j < i → IsReadable b j = true) ∨
  (pos < i ∧ IsReadable b pos = false ∧ ∀ j, j < pos → IsReadable b j = true)

/-- The page after a successful `Insert` that chose slot `pos`. -/
def stored (b : HashTableBucketPage K V) (pos : Nat) (key : K) (value : V) :
    HashTableBucketPage K V :=
  SetReadable (SetOccupied { b with array_ := Function.update b.array_ pos (key, value) } pos) pos

/-- The first loop of `IsFull` from byte `i` on, with `fuel` bytes left before
`exact_div_size`: false when the loop returns false, true when it runs to its end.
A byte of `readable_` is an `unsigned char`, as the comment in the source says. -/
def IsFull.loop (b : HashTableBucketPage K V) : Nat → Nat → Bool
  | 0, _ => true
  | fuel + 1, i =>
    if b.readable_ i % 256 ≠ 0xff then false else IsFull.loop b fuel (i + 1)

/-- Member function `HashTableBucketPage::IsFull`. -/
def IsFull (N : Nat) (b : HashTableBucketPage K V) : Bool :=
  if IsFull.loop b (N / 8) 0 = false then false
  else
    !(decide (N - N / 8 * 8 ≠ 0) &&
      decide (b.readable_ ((N - 1) / 8) % 256 ≠ ((1 <<< (N - N / 8 * 8)) - 1) % 256))

/-- The inner loop of `NumReadable` on the byte `n`: `n &= n - 1` clears the lowest
set bit and `cnt` counts the rounds. At most `fuel` rounds; `none` when the byte is
not yet zero after them. -/
def NumReadable.countBits : Nat → Nat → Nat → Option Nat
  | 0, n, cnt => if n = 0 then some cnt else none
  | fuel + 1, n, cnt =>
    if n ≠ 0 then NumReadable.countBits fuel ((n &&& (n - 1)) % 256) (cnt + 1) else some cnt

/-- The outer loop of `NumReadable` from byte `i` on, with `fuel` bytes left before
`array_size`; eight rounds of the inner loop are allowed for each byte. -/
def NumReadable.loop (b : HashTableBucketPage K V) : Nat → Nat → Nat → Option Nat
  | 0, _, cnt => some cnt
  | fuel + 1, i, cnt =>
    match NumReadable.countBits 8 (b.readable_ i % 256) cnt with
    | none => none
    | some cnt' => NumReadable.loop b fuel (i + 1) cnt'

/-- Member function `HashTableBucketPage::NumReadable`, for a capacity `N ≥ 1`. -/
def NumReadable (N : Nat) (b : HashTableBucketPage K V) : Option Nat :=
  NumReadable.loop b ((N - 1) / 8 + 1) 0 0

/-- The loop of `IsEmpty` from byte `i` on, with `fuel` bytes left before `array_size`. -/
def IsEmpty.loop (b : HashTableBucketPage K V) : Nat → Nat → Bool
  | 0, _ => true
  | fuel + 1, i =>
    if b.readable_ i % 256 ≠ 0 then false else IsEmpty.loop b fuel (i + 1)

/-- Member function `HashTableBucketPage::IsEmpty`, for a capacity `N ≥ 1`. -/
def IsEmpty (N : Nat) (b : HashTableBucketPage K V) : Bool :=
  IsEmpty.loop b ((N - 1) / 8 + 1) 0

/-- Member function `HashTableBucketPage::Size`. -/
def Size (N : Nat) (_b : HashTableBucketPage K V) : Nat := N

/-- A call that changes a bucket page. -/
inductive BucketOp (K V : Type) where
  | insert (key : K) (value : V)
  | remove (key : K) (value : V)
  | removeAt (bucket_idx : Nat)

/-- The page after one call. -/
def applyOp [DecidableEq V] (N : Nat) (cmp : K → K → Int) (b : HashTableBucketPage K V) :
    BucketOp K V → HashTableBucketPage K V
  | .insert key value => (Insert N b key value cmp).2
  | .remove key value => (Remove N b key value cmp).2
  | .removeAt bucket_idx => RemoveAt b bucket_idx

/-- The page after a sequence of calls. -/
def applyOps [DecidableEq V] (N : Nat) (cmp : K → K → Int) (b : HashTableBucketPage K V)
    (ops : List (BucketOp K V)) : HashTableBucketPage K V :=
  ops.foldl (applyOp N cmp) b

/-- An all-zero bucket page: both bitmaps are zero; `a` is what the zero bytes of the
slot array denote as keys and values. -/
def zeroPage (a : Nat → K × V) : HashTableBucketPage K V :=
  { occupied_ := fun _ => 0, readable_ := fun _ => 0, array_ := a }

/-- The page after inserting the pairs of a list one after the other. -/
def insertAll [DecidableEq V] (N : Nat) (cmp : K → K → Int) (b : HashTableBucketPage K V)
    (kvs : List (K × V)) : HashTableBucketPage K V :=
  kvs.foldl (fun p kv => (Insert N p kv.1 kv.2 cmp).2) b

/-- The flags returned by inserting the pairs of a list one after the other. -/
def insertFlags [DecidableEq V] (N : Nat) (cmp : K → K → Int) :
    HashTableBucketPage K V → List (K × V) → List Bool
  | _, [] => []
  | b, kv :: kvs =>
    (Insert N b kv.1 kv.2 cmp).1 :: insertFlags N cmp (Insert N b kv.1 kv.2 cmp).2 kvs

/-- The number of bit positions below `M` whose readable bit is set. -/
def readableCount (b : HashTableBucketPage K V) (M : Nat) : Nat :=
  ((List.range M).filter (IsReadable b)).length

/-- A page of capacity 4 whose readable byte has the bits 0 to 4 set: bit 4 lies
beyond the last slot. -/
def strayBitPage : HashTableBucketPage Int Int :=
  { occupied_ := fun i => if i = 0 then 31 else 0,
    readable_ := fun i => if i = 0 then 31 else 0,
    array_ := fun i => ((i : Int), 0) }

/-- The page holds pairs of `l` in exactly the slots below `k`: these slots, and no
other bit position, are readable and occupied. -/
def FilledTo (k : Nat) (l : List (K × V)) (b : HashTableBucketPage K V) : Prop :=
  (∀ i, IsReadable b i = decide (i < k)) ∧ (∀ i, IsOccupied b i = decide (i < k)) ∧
    ∀ i, i < k → b.array_ i ∈ l

/-- An all-zero page with integer keys and values. -/
def exampleZero : HashTableBucketPage Int Int := zeroPage (fun _ => (0, 0))

/-- Four pairs with distinct keys. -/
def examplePairs : List (Int × Int) := [(1, 1), (2, 2), (3, 3), (4, 4)]

/-- A short sequence of calls on a page of capacity 4. -/
def exampleOps : List (BucketOp Int Int) :=
  [BucketOp.insert 1 1, BucketOp.insert 2 2, BucketOp.removeAt 0, BucketOp.remove 2 2,
    BucketOp.insert 3 3]

end HashTableBucketPage

/-!
Query executors.

The tuple, value, schema and expression classes, the catalog and the lock manager are
collaborators whose code is elsewhere. Tuples, record ids, values and expressions are
type parameters `T`, `R`, `V`, `E`; a schema is the list of its columns; the operations
the executors call on the collaborators are the fields of `TupleOps`. A table is the
finite sequence of tuples that its iterator visits, and an iterator is the list of the
tuples from its position to the end. The calls to the lock manager change no state of
the executor and are left out.
-/

/-- What the executor reads of a column: its name, its offset and its expression. -/
structure Column (E : Type) where
  name : String
  offset : Nat
  expr : E

/-- The operations of the collaborators: `Tuple::GetRid`, `AbstractExpression::Evaluate`,
`Value::GetAs<bool>` and the constructor `Tuple(values, schema)`. -/
structure TupleOps (T R V E : Type) where
  GetRid : T → R
  Evaluate : E → T → List (Column E) → V
  GetAsBool : V → Bool
  mkTuple : List V → List (Column E) → T

/-- The members of `SeqScanExecutor` after `Init`, with what it reads of the plan and
of the table: the predicate (`none` for a null pointer), the output schema and the
table schema. -/
structure SeqScanExecutor (T E : Type) where
  predicate : Option E
  table_schema : List (Column E)
  output_schema : List (Column E)
  table_iter_ : List T
  is_same_schema_ : Bool

namespace SeqScanExecutor

variable {T R V E : Type}

/-- The loop of `SchemaEqual` over the columns of both schemas. -/
def SchemaEqual.loop : List (Column E) → List (Column E) → Bool
  | c1 :: table_colums, c2 :: output_colums =>
    if c1.name ≠ c2.name ∨ c1.offset ≠ c2.offset then false
    else SchemaEqual.loop table_colums output_colums
  | _, _ => true

/-- Member function `SeqScanExecutor::SchemaEqual`. -/
def SchemaEqual (table_schema output_schema : List (Column E)) : Bool :=
  if table_schema.length ≠ output_schema.length then false
  else SchemaEqual.loop table_schema output_schema

/-- Member function `SeqScanExecutor::TupleSchemaTranformUseEvaluate`: the tuple
assigned to `*dest_tuple`. -/
def TupleSchemaTranformUseEvaluate (ops : TupleOps T R V E) (table_tuple : T)
    (table_schema dest_schema : List (Column E)) : T :=
  ops.mkTuple (dest_schema.map (fun col => ops.Evaluate col.expr table_tuple table_schema))
    dest_schema

/-- Member function `SeqScanExecutor::Init` for a plan with this predicate and output
schema over a table with this schema and these tuples. -/
def Init (predicate : Option E) (table_schema output_schema : List (Column E))
    (table : List T) : SeqScanExecutor T E :=
  { predicate := predicate, table_schema := table_schema, output_schema := output_schema,
    table_iter_ := table, is_same_schema_ := SchemaEqual table_schema output_schema }

/-- The local `res` of `Next` for the tuple under the iterator: true when the predicate
is null, otherwise the predicate evaluated on the tuple. -/
def Next.res (ops : TupleOps T R V E) (e : SeqScanExecutor T E) (p_tuple : T) : Bool :=
  match e.predicate with
  | none => true
  | some predicate => ops.GetAsBool (ops.Evaluate predicate p_tuple e.table_schema)

/-- The loop of `Next` with the iterator at the head of the list: the tuple and record
id written to the out-parameters when it returns true (`none` when it returns false),
and the iterator afterwards. -/
def Next.loop (ops : TupleOps T R V E) (e : SeqScanExecutor T E) :
    List T → Option (T × R) × List T
  | [] => (none, [])
  | p_tuple :: rest =>
    if Next.res ops e p_tuple = true then
      (some (if e.is_same_schema_ = false then
               TupleSchemaTranformUseEvaluate ops p_tuple e.table_schema e.output_schema
             else p_tuple,
             ops.GetRid p_tuple), rest)
    else Next.loop ops e rest

/-- Member function `SeqScanExecutor::Next`. -/
def Next (ops : TupleOps T R V E) (e : SeqScanExecutor T E) :
    Option (T × R) × SeqScanExecutor T E :=
  ((Next.loop ops e e.table_iter_).1, { e with table_iter_ := (Next.loop ops e e.table_iter_).2 })

/-- The results of `k` successive calls of `Next`. -/
def nextCalls (ops : TupleOps T R V E) : Nat → SeqScanExecutor T E → List (Option (T × R))
  | 0, _ => []
  | k + 1, e => (Next ops e).1 :: nextCalls ops k (Next ops e).2

end SeqScanExecutor

/-- A child executor that yields a finite sequence of tuples (each with its record id):
the tuples it has not yielded yet, and how often its `Next` was called. -/
structure ChildExecutor (T : Type) where
  remaining : List T
  calls : Nat

namespace ChildExecutor

variable {T : Type}

/-- The child after `Init`. -/
def Init (tuples : List T) : ChildExecutor T := { remaining := tuples, calls := 0 }

/-- The child's `Next`: the next tuple while there is one, then false for ever. -/
def Next (c : ChildExecutor T) : Option T × ChildExecutor T :=
  match c.remaining with
  | [] => (none, { c with calls := c.calls + 1 })
  | t :: rest => (some t, { remaining := rest, calls := c.calls + 1 })

end ChildExecutor

/-- The members of `LimitExecutor`. -/
structure LimitExecutor (T : Type) where
  child_executor_ : ChildExecutor T
  count_ : Nat
  limit_ : Nat

namespace LimitExecutor

variable {T : Type}

/-- Member function `LimitExecutor::Init` for a plan with this limit over a child that
yields these tuples. -/
def Init (limit : Nat) (tuples : List T) : LimitExecutor T :=
  { child_executor_ := ChildExecutor.Init tuples, count_ := 0, limit_ := limit }

/-- Member function `LimitExecutor::Next`. -/
def Next (e : LimitExecutor T) : Option T × LimitExecutor T :=
  if e.count_ < e.limit_ then
    ((ChildExecutor.Next e.child_executor_).1,
      { e with child_executor_ := (ChildExecutor.Next e.child_executor_).2,
               count_ := e.count_ + 1 })
  else (none, e)

/-- The results of `k` successive calls of `Next`, and the executor after them. -/
def nextCalls : Nat → LimitExecutor T → List (Option T) × LimitExecutor T
  | 0, e => ([], e)
  | k + 1, e =>
    ((Next e).1 :: (nextCalls k (Next e).2).1, (nextCalls k (Next e).2).2)

end LimitExecutor

namespace SeqScanExecutor

variable {T R V E : Type}

/-- The table tuple satisfies the plan's predicate; every tuple does when the
predicate is null. -/
def satisfies (ops : TupleOps T R V E) (predicate : Option E) (table_schema : List (Column E))
    (t : T) : Bool :=
  match predicate with
  | none => true
  | some p => ops.GetAsBool (ops.Evaluate p t table_schema)

/-- What a scan outputs for a table tuple: the tuple itself when the output schema
equals the table schema, that is, when both have as many columns and, column by column,
the same name and the same offset; otherwise the tuple built from the output columns'
expressions evaluated on it; and the record id of the table tuple. -/
def outputOf (ops : TupleOps T R V E) (table_schema output_schema : List (Column E))
    (t : T) : T × R :=
  (if table_schema.map (fun col => (col.name, col.offset))
      = output_schema.map (fun col => (col.name, col.offset)) then t
   else ops.mkTuple (output_schema.map (fun col => ops.Evaluate col.expr t table_schema))
     output_schema,
   ops.GetRid t)

/-- Example collaborators: a tuple is a pair of a record id and a number, an
expression is a function on tuples, a value is a number, true when not zero. -/
def exampleTupleOps : TupleOps (Nat × Nat) Nat Nat (Nat × Nat → Nat) :=
  { GetRid := fun t => t.1, Evaluate := fun e t _ => e t, GetAsBool := fun v => v != 0,
    mkTuple := fun vs _ => (0, vs.sum) }

end SeqScanExecutor

/-!
Trie of `primer/p0_trie.h`.

A key is the list of its characters. The trie stores values of several types: `Ty` is
the set of value types and `val t` the values of type `t`. The dynamic class of a node is
its field `value_`: `none` for a plain `TrieNode`, `some ⟨t, v⟩` for a
`TrieNodeWithValue<T>` with `T = t` and `value_ = v`. The map `children_` is an
association list; its iteration order is never observed. The code works on the nodes
in place through pointers; here a function returns the node after the change, and a
null pointer dereference is the outcome `none`.
-/

/-- The members of `TrieNode` and, for a `TrieNodeWithValue<T>`, of its extension. -/
inductive TrieNode (Ty : Type) (val : Ty → Type) where
  | mk (key_char_ : Char) (is_end_ : Bool) (value_ : Option (Sigma val))
      (children_ : List (Char × TrieNode Ty val))

namespace TrieNode

variable {Ty : Type} {val : Ty → Type}

/-- Member function `TrieNode::GetKeyChar`. -/
def GetKeyChar : TrieNode Ty val → Char
  | mk key_char_ _ _ _ => key_char_

/-- Member function `TrieNode::IsEndNode`. -/
def IsEndNode : TrieNode Ty val → Bool
  | mk _ is_end_ _ _ => is_end_

/-- The value and its type when the node is a `TrieNodeWithValue`. -/
def value_ : TrieNode Ty val → Option (Sigma val)
  | mk _ _ value_ _ => value_

/-- Member function `TrieNode::GetChildren`. -/
def GetChildren : TrieNode Ty val → List (Char × TrieNode Ty val)
  | mk _ _ _ children_ => children_

/-- Member function `TrieNode::HasChild`; also `children_.count(key_char) != 0`. -/
def HasChild (n : TrieNode Ty val) (key_char : Char) : Bool :=
  (n.GetChildren.find? (fun e => e.1 == key_char)).isSome

/-- Member function `TrieNode::HasChildren`. -/
def HasChildren (n : TrieNode Ty val) : Bool := !n.GetChildren.isEmpty

/-- Member function `TrieNode::GetChildNode`: the child, `none` for a null pointer. -/
def GetChildNode (n : TrieNode Ty val) (key_char : Char) : Option (TrieNode Ty val) :=
  (n.GetChildren.find? (fun e => e.1 == key_char)).map Prod.snd

/-- Member function `TrieNode::InsertChildNode`: the node after the call; it is as before
when the function returns a null pointer. -/
def InsertChildNode (n : TrieNode Ty val) (key_char : Char) (child : TrieNode Ty val) :
    TrieNode Ty val :=
  if n.HasChild key_char = true ∨ child.GetKeyChar ≠ key_char then n
  else
    match n with
    | mk key_char_ is_end_ value_ children_ =>
      mk key_char_ is_end_ value_ ((key_char, child) :: children_)

/-- Member function `TrieNode::RemoveChildNode`: the node after the call. -/
def RemoveChildNode (n : TrieNode Ty val) (key_char : Char) : TrieNode Ty val :=
  if n.HasChild key_char = false then n
  else
    match n with
    | mk key_char_ is_end_ value_ children_ =>
      mk key_char_ is_end_ value_ (children_.filter (fun e => e.1 != key_char))

/-- The node after its child under `key_char` was changed in place, through the pointer
that `GetChildNode` returned, into `child`. -/
def setChild (n : TrieNode Ty val) (key_char : Char) (child : TrieNode Ty val) :
    TrieNode Ty val :=
  match n with
  | mk key_char_ is_end_ value_ children_ =>
    mk key_char_ is_end_ value_
      (children_.map (fun e => if e.1 == key_char then (e.1, child) else e))

/-- Constructor `TrieNode(char key_char)`. -/
def new (key_char : Char) : TrieNode Ty val := mk key_char false none []

/-- Constructor `TrieNodeWithValue(TrieNode &&trieNode, T value)` for `T = t`. -/
def withValue (trieNode : TrieNode Ty val) (t : Ty) (value : val t) : TrieNode Ty val :=
  mk trieNode.GetKeyChar true (some ⟨t, value⟩) trieNode.GetChildren

end TrieNode

/-- The member of `Trie`. -/
structure Trie (Ty : Type) (val : Ty → Type) where
  root_ : TrieNode Ty val

namespace Trie

variable {Ty : Type} {val : Ty → Type}

/-- Constructor `Trie()`: the root is `TrieNode('\0')`. -/
def new : Trie Ty val := { root_ := TrieNode.new (Char.ofNat 0) }

/-- The first statement of the loop body of `Insert`: the node after a plain child for
`c` was inserted when it had none. -/
def Insert.ensureChild (node : TrieNode Ty val) (c : Char) : TrieNode Ty val :=
  if (node.GetChildNode c).isNone then node.InsertChildNode c (TrieNode.new c) else node

/-- The loop of `Insert` with `matched_node` at `node` and the rest of the key still to
read: the returned flag and `node` after the call. -/
def Insert.loop (t : Ty) (value : val t) :
    List Char → TrieNode Ty val → Option (Bool × TrieNode Ty val)
  | [], node => some (false, node)
  | c :: rest, node =>
    match (Insert.ensureChild node c).GetChildNode c with
    | none => none
    | some matched_node =>
      match rest with
      | [] =>
        if matched_node.IsEndNode = true then some (false, Insert.ensureChild node c)
        else
          some (true, ((Insert.ensureChild node c).RemoveChildNode c).InsertChildNode c
            (matched_node.withValue t value))
      | _ :: _ =>
        match Insert.loop t value rest matched_node with
        | none => none
        | some (res, matched_node') =>
          some (res, (Insert.ensureChild node c).setChild c matched_node')

/-- Member function `Trie::Insert<T>` for `T = t`: the returned flag and the trie after
the call. -/
def Insert (t : Ty) (key : List Char) (value : val t) (trie : Trie Ty val) :
    Option (Bool × Trie Ty val) :=
  if key.isEmpty then some (false, trie)
  else (Insert.loop t value key trie.root_).map (fun r => (r.1, { root_ := r.2 }))

/-- The loop of `Remove` with `matched_node` at `node` and the rest of the key still to
read. The result is the returned flag, whether the pruning loop is still running with
`node` now on top of the stack, and `node` after the call. -/
def Remove.loop : List Char → TrieNode Ty val → Bool × Bool × TrieNode Ty val
  | [], node => (false, false, node)
  | key_char :: rest, node =>
    match node.GetChildNode key_char with
    | none => (false, false, node)
    | some matched_node =>
      match rest with
      | [] =>
        if matched_node.IsEndNode = false then (false, false, node)
        else if matched_node.HasChildren = true then (true, false, node)
        else (true, true, node.RemoveChildNode key_char)
      | _ :: _ =>
        match Remove.loop rest matched_node with
        | (res, pruning, matched_node') =>
          if pruning = true then
            if matched_node'.HasChildren = true ∨ matched_node'.IsEndNode = true then
              (res, false, node.setChild key_char matched_node')
            else
              (res, true,
                (node.setChild key_char matched_node').RemoveChildNode matched_node'.GetKeyChar)
          else (res, false, node.setChild key_char matched_node')

/-- Member function `Trie::Remove`: the returned flag and the trie after the call. The
pruning loop stops at the root, which is never removed. -/
def Remove (key : List Char) (trie : Trie Ty val) : Bool × Trie Ty val :=
  ((Remove.loop key trie.root_).1, { root_ := (Remove.loop key trie.root_).2.2 })

/-- The loop of `GetValue<T>` for `T = t` with `cur_node` at `node`: the returned value
when `*success` is set to true, `none` when it is set to false. -/
def GetValue.loop [DecidableEq Ty] (t : Ty) : List Char → TrieNode Ty val → Option (val t)
  | [], _ => none
  | cur_char :: rest, node =>
    match node.GetChildNode cur_char with
    | none => none
    | some cur_node =>
      match rest with
      | [] =>
        if cur_node.IsEndNode = true then
          match cur_node.value_ with
          | some ⟨t', v⟩ => if h : t' = t then some (h ▸ v) else none
          | none => none
        else none
      | _ :: _ => GetValue.loop t rest cur_node

/-- Member function `Trie::GetValue<T>` for `T = t`: `some v` when `*success` is true and
`v` is returned, `none` when `*success` is false. -/
def GetValue [DecidableEq Ty] (t : Ty) (key : List Char) (trie : Trie Ty val) :
    Option (val t) :=
  GetValue.loop t key trie.root_

/-- A call that changes the trie. -/
inductive TrieOp (Ty : Type) (val : Ty → Type) where
  | insert (t : Ty) (key : List Char) (value : val t)
  | remove (key : List Char)

/-- The trie after a sequence of calls, `none` when one of them is undefined. -/
def applyOps : Trie Ty val → List (TrieOp Ty val) → Option (Trie Ty val)
  | trie, [] => some trie
  | trie, TrieOp.insert t key value :: ops =>
    match Insert t key value trie with
    | none => none
    | some (_, trie') => applyOps trie' ops
  | trie, TrieOp.remove key :: ops => applyOps (Remove key trie).2 ops

end Trie

namespace TrieNode

variable {Ty : Type} {val : Ty → Type}

/-- The node reached from `n` along the characters of a path, following `GetChildNode`. -/
def walk : List Char → TrieNode Ty val → Option (TrieNode Ty val)
  | [], n => some n
  | c :: p, n =>
    match n.GetChildNode c with
    | none => none
    | some child => walk p child

/-- Every node below `n` carries the character under which its parent holds it. -/
def KeyOk (n : TrieNode Ty val) : Prop :=
  ∀ (p : List Char) (c : Char) (m : TrieNode Ty val), walk (p ++ [c]) n = some m → m.GetKeyChar = c

/-- The path `key` from `n` ends in a node that is an end node. -/
def EndsAt (n : TrieNode Ty val) (key : List Char) : Prop :=
  ∃ m, walk key n = some m ∧ m.IsEndNode = true

end TrieNode

namespace Trie

variable {Ty : Type} {val : Ty → Type}

/-- The key is currently stored in the trie: it is not empty and the node that it leads
to from the root is an end node. -/
def Stored (trie : Trie Ty val) (key : List Char) : Prop :=
  key ≠ [] ∧ TrieNode.EndsAt trie.root_ key

end Trie

namespace Trie

/-- The trie after `Insert<int>("ab", 1); Insert<int>("a", 2)` on an empty trie with one
value type. -/
def exampleOps : List (TrieOp Unit (fun _ => Nat)) :=
  [TrieOp.insert () ['a', 'b'] 1, TrieOp.insert () ['a'] 2]

end Trie

namespace HashTableBucketPage

variable {K V : Type}

/-- Data-model invariant: no two readable slots below `N` hold the same pair, keys
compared with the comparator and values with `==`. -/
def NoDuplicatePair (N : Nat) (cmp : K → K → Int) (b : HashTableBucketPage K V) : Prop :=
  ∀ i j, i < N → j < N → i ≠ j → IsReadable b i = true → IsReadable b j = true →
    ¬ (cmp (b.array_ i).1 (b.array_ j).1 = 0 ∧ (b.array_ i).2 = (b.array_ j).2)

end HashTableBucketPage


namespace LRUReplacer

theorem effUnpinFrom_append (f : Int) (l : List Event) (e : Event) :
    ∀ (i : Nat) (acc : Option Nat),
      effUnpinFrom f i acc (l ++ [e]) = effStep f (i + l.length) (effUnpinFrom f i acc l) e := by
  induction l with
  | nil => intro i acc; simp [effUnpinFrom]
  | cons x xs ih =>
    intro i acc
    show effUnpinFrom f (i + 1) (effStep f i acc x) (xs ++ [e]) = _
    rw [ih]
    simp only [List.length_cons, effUnpinFrom]
    congr 1
    omega

theorem effUnpin_append (log : List Event) (e : Event) (f : Int) :
    effUnpin (log ++ [e]) f = effStep f log.length (effUnpin log f) e := by
  unfold effUnpin
  rw [effUnpinFrom_append]
  simp

theorem lastAbout_append (log : List Event) (e : Event) (f : Int) :
    lastAbout (log ++ [e]) f = if Event.about f e then some e else lastAbout log f := by
  unfold lastAbout
  by_cases h : Event.about f e = true
  · simp [List.filter_append, h, List.filter_cons]
  · simp [List.filter_append, h, List.filter_cons]

theorem trackedBy_iff_effUnpin (log : List Event) (f : Int) :
    trackedBy log f = true ↔ (effUnpin log f).isSome = true := by
  induction log using List.reverseRecOn with
  | nil => simp [trackedBy, lastAbout, effUnpin, effUnpinFrom]
  | append_singleton l e ih =>
    unfold trackedBy at ih ⊢
    rw [lastAbout_append, effUnpin_append]
    cases e with
    | pin g =>
      by_cases hg : g = f
      · subst hg; simp [Event.about, effStep]
      · simpa [Event.about, effStep, hg] using ih
    | unpin g =>
      by_cases hg : g = f
      · subst hg
        simp only [Event.about, beq_self_eq_true, if_true, effStep]
        cases h : (effUnpin l g).isSome <;> simp [h]
      · simpa [Event.about, effStep, hg] using ih
    | victim r =>
      cases r with
      | none => simpa [Event.about, effStep] using ih
      | some g =>
        by_cases hg : g = f
        · subst hg; simp [Event.about, effStep]
        · simpa [Event.about, effStep, hg] using ih

theorem mapCount_eq_zero_iff (m : List (Int × Nat)) (f : Int) :
    mapCount m f = 0 ↔ ∀ p, (f, p) ∉ m := by
  unfold mapCount
  rw [List.length_eq_zero, List.filter_eq_nil_iff]
  constructor
  · intro h p hp
    exact h (f, p) hp (by simp)
  · rintro h ⟨g, p⟩ hp hg
    have : g = f := by simpa using hg
    subst this
    exact h p hp

theorem mem_candidates_iff (r : LRUReplacer) (f : Int) :
    f ∈ candidates r ↔ ∃ p, (⟨p, f⟩ : Node) ∈ r.list_unpinned_ := by
  unfold candidates
  rw [List.mem_map]
  constructor
  · rintro ⟨⟨p, g⟩, hn, rfl⟩
    exact ⟨p, hn⟩
  · rintro ⟨p, hp⟩
    exact ⟨⟨p, f⟩, hp, rfl⟩

theorem Rep.mapCount_zero_iff_not_mem {r : LRUReplacer} (h : Rep r) (f : Int) :
    mapCount r.map_frames_ f = 0 ↔ f ∉ candidates r := by
  rw [LRUReplacer.mapCount_eq_zero_iff, mem_candidates_iff]
  constructor
  · rintro h0 ⟨p, hp⟩
    exact h0 p ((h.entry_iff f p).2 hp)
  · intro h0 p hp
    exact h0 ⟨p, (h.entry_iff f p).1 hp⟩

theorem Rep.tracks_iff {r : LRUReplacer} (h : Rep r) (f : Int) :
    tracks r f = true ↔ f ∈ candidates r := by
  unfold tracks
  rw [bne_iff_ne, ne_eq, h.mapCount_zero_iff_not_mem, not_not]

theorem Rep.map_nodup {r : LRUReplacer} (h : Rep r) : r.map_frames_.Nodup :=
  List.Nodup.of_map _ h.key_nodup

theorem Rep.map_perm {r : LRUReplacer} (h : Rep r) :
    r.map_frames_.Perm (r.list_unpinned_.map (fun n => (n.frame, n.addr))) := by
  have h2 : (r.list_unpinned_.map (fun n => (n.frame, n.addr))).Nodup := by
    have : (r.list_unpinned_.map (fun n => (n.frame, n.addr))).map Prod.fst
        = r.list_unpinned_.map Node.frame := by
      simp [List.map_map, Function.comp_def]
    exact List.Nodup.of_map Prod.fst (this ▸ h.frame_nodup)
  rw [List.perm_ext_iff_of_nodup h.map_nodup h2]
  rintro ⟨f, p⟩
  rw [h.entry_iff, List.mem_map]
  constructor
  · intro hn
    exact ⟨⟨p, f⟩, hn, rfl⟩
  · rintro ⟨⟨q, g⟩, hn, he⟩
    simp only [Prod.mk.injEq] at he
    obtain ⟨rfl, rfl⟩ := he
    exact hn

theorem Rep.size_eq {r : LRUReplacer} (h : Rep r) : Size r = (candidates r).length := by
  unfold Size candidates
  rw [h.map_perm.length_eq]
  simp

theorem Rep.map_isEmpty_iff {r : LRUReplacer} (h : Rep r) :
    r.map_frames_.isEmpty = true ↔ r.list_unpinned_ = [] := by
  rw [List.isEmpty_iff]
  constructor
  · intro h0
    have := h.map_perm.length_eq
    rw [h0] at this
    simpa using this.symm
  · intro h0
    have := h.map_perm.length_eq
    rw [h0] at this
    simpa using this

theorem rep_new (F : Nat) : Rep (new F) := by
  constructor <;> simp [new]

theorem Rep.unpin_rep {r : LRUReplacer} (h : Rep r) (f : Int) : Rep (Unpin r f) := by
  unfold Unpin
  by_cases hc : mapCount r.map_frames_ f = 0
  · have hf : f ∉ candidates r := (h.mapCount_zero_iff_not_mem f).1 hc
    simp only [hc, ne_eq, not_true_eq_false, if_false, mapEmplace, if_true]
    constructor
    · simp only [List.map_cons, List.nodup_cons]
      refine ⟨?_, h.addr_nodup⟩
      intro hm
      obtain ⟨n, hn, he⟩ := List.mem_map.1 hm
      have := h.addr_lt n hn
      omega
    · simp only [List.map_cons, List.nodup_cons]
      exact ⟨hf, h.frame_nodup⟩
    · simp only [List.map_cons, List.nodup_cons]
      refine ⟨?_, h.key_nodup⟩
      intro hm
      obtain ⟨⟨g, p⟩, he, hg⟩ := List.mem_map.1 hm
      simp only at hg
      subst hg
      exact (LRUReplacer.mapCount_eq_zero_iff _ _).1 hc p he
    · intro g p
      simp only [List.mem_cons, Prod.mk.injEq, Node.mk.injEq]
      rw [h.entry_iff]
      tauto
    · intro n hn
      simp only [List.mem_cons] at hn
      rcases hn with rfl | hn
      · show r.fresh < r.fresh + 1
        omega
      · have := h.addr_lt n hn
        show n.addr < r.fresh + 1
        omega
  · simpa [hc] using h

theorem Rep.removeFrame_rep {r : LRUReplacer} (h : Rep r) (f : Int) : Rep (removeFrame r f) := by
  unfold LRUReplacer.removeFrame mapErase
  constructor
  · exact (List.Nodup.sublist (List.Sublist.map _ (List.filter_sublist _)) h.addr_nodup)
  · exact (List.Nodup.sublist (List.Sublist.map _ (List.filter_sublist _)) h.frame_nodup)
  · exact (List.Nodup.sublist (List.Sublist.map _ (List.filter_sublist _)) h.key_nodup)
  · intro g p
    simp only [List.mem_filter, bne_iff_ne, ne_eq]
    rw [h.entry_iff]
  · intro n hn
    exact h.addr_lt n (List.mem_filter.1 hn).1

theorem candidates_removeFrame (r : LRUReplacer) (f : Int) :
    candidates (removeFrame r f) = (candidates r).filter (fun g => g != f) := by
  unfold candidates removeFrame
  simp only [List.filter_map]
  rfl

theorem eraseP_addr_eq_filter_frame (p : Nat) (f : Int) :
    ∀ (l : List Node), (l.map Node.addr).Nodup → (l.map Node.frame).Nodup →
      (⟨p, f⟩ : Node) ∈ l →
      l.eraseP (fun n => n.addr == p) = l.filter (fun n => n.frame != f) := by
  intro l
  induction l with
  | nil => intro _ _ h; simp at h
  | cons x xs ih =>
    intro ha hf hm
    simp only [List.map_cons, List.nodup_cons] at ha hf
    rw [List.eraseP_cons, List.filter_cons]
    by_cases hx : x.addr = p
    · have hxe : x = ⟨p, f⟩ := by
        rcases List.mem_cons.1 hm with h | h
        · exact h.symm
        · exact absurd (List.mem_map.2 ⟨_, h, hx.symm ▸ rfl⟩) ha.1
      subst hxe
      have hall : ∀ a ∈ xs, (fun n : Node => n.frame != f) a = true := by
        intro a ha'
        simp only [bne_iff_ne, ne_eq]
        intro he
        exact hf.1 (List.mem_map.2 ⟨a, ha', he⟩)
      simp [List.filter_eq_self.2 hall]
    · have hm' : (⟨p, f⟩ : Node) ∈ xs := by
        rcases List.mem_cons.1 hm with h | h
        · exact absurd (by rw [← h]) hx
        · exact h
      have hxf : x.frame ≠ f := by
        intro he
        exact hf.1 (List.mem_map.2 ⟨_, hm', he.symm⟩)
      have hb : (x.addr == p) = false := by simpa using hx
      have hb2 : (x.frame != f) = true := by simpa using hxf
      rw [hb, hb2, ih ha.2 hf.2 hm']
      rfl

theorem Pin_of_not_mem {r : LRUReplacer} (h : Rep r) {f : Int} (hf : f ∉ candidates r) :
    Pin r f = some r := by
  unfold Pin
  rw [if_pos ((h.mapCount_zero_iff_not_mem f).2 hf)]

theorem Pin_of_mem {r : LRUReplacer} (h : Rep r) {f : Int} (hf : f ∈ candidates r) :
    Pin r f = some (removeFrame r f) := by
  unfold Pin
  have hc : ¬ mapCount r.map_frames_ f = 0 := by
    rw [h.mapCount_zero_iff_not_mem]; exact not_not.2 hf
  rw [if_neg hc]
  have hex : ∃ p, (f, p) ∈ r.map_frames_ := by
    by_contra hno
    exact hc ((LRUReplacer.mapCount_eq_zero_iff _ _).2 (fun p hp => hno ⟨p, hp⟩))
  obtain ⟨p0, hp0⟩ := hex
  have hfind : ∃ p, mapAt r.map_frames_ f = some p ∧ (f, p) ∈ r.map_frames_ := by
    unfold mapAt
    cases hfe : r.map_frames_.find? (fun e => e.1 == f) with
    | none =>
      rw [List.find?_eq_none] at hfe
      exact absurd (by simp) (hfe (f, p0) hp0)
    | some e =>
      have h1 := List.find?_some hfe
      have h2 := List.mem_of_find?_eq_some hfe
      have h3 : e.1 = f := by simpa using h1
      refine ⟨e.2, rfl, ?_⟩
      rw [← h3]
      exact h2
  obtain ⟨p, hp, hmem⟩ := hfind
  have hnode : (⟨p, f⟩ : Node) ∈ r.list_unpinned_ := (h.entry_iff f p).1 hmem
  have hany : r.list_unpinned_.any (fun n => n.addr == p) = true := by
    rw [List.any_eq_true]
    exact ⟨_, hnode, by simp⟩
  simp only [hp, listErase, hany, if_true]
  rw [eraseP_addr_eq_filter_frame p f _ h.addr_nodup h.frame_nodup hnode]
  rfl

theorem Victim_of_nil {r : LRUReplacer} (h : Rep r) (hc : candidates r = []) :
    Victim r = some (none, r) := by
  unfold Victim
  have : r.list_unpinned_ = [] := by
    unfold candidates at hc
    simpa using hc
  rw [if_pos (h.map_isEmpty_iff.2 this)]

theorem Victim_of_concat {r : LRUReplacer} (h : Rep r) {cs : List Int} {f : Int}
    (hc : candidates r = cs ++ [f]) :
    Victim r = some (some f, removeFrame r f) ∧ candidates (removeFrame r f) = cs := by
  have hne : r.list_unpinned_ ≠ [] := by
    intro h0
    unfold candidates at hc
    rw [h0] at hc
    simp at hc
  have hnd : (cs ++ [f]).Nodup := by
    rw [← hc]; exact h.frame_nodup
  have hfcs : f ∉ cs := by
    intro hm
    have := (List.nodup_append.1 hnd).2.2
    exact this hm (List.mem_singleton.2 rfl) 
  have hcs : candidates (removeFrame r f) = cs := by
    rw [candidates_removeFrame, hc, List.filter_append]
    have hall : ∀ a ∈ cs, (fun g : Int => g != f) a = true := by
      intro a ha
      simp only [bne_iff_ne, ne_eq]
      rintro rfl
      exact hfcs ha
    simp [List.filter_eq_self.2 hall]
  refine ⟨?_, hcs⟩
  unfold Victim
  have hemp : ¬ r.map_frames_.isEmpty = true := by
    rw [h.map_isEmpty_iff]; exact hne
  rw [if_neg hemp]
  cases hl : r.list_unpinned_.getLast? with
  | none => exact absurd (List.getLast?_eq_none_iff.1 hl) hne
  | some n =>
    obtain ⟨ys, hys⟩ := List.getLast?_eq_some_iff.1 hl
    have hnf : n.frame = f := by
      unfold candidates at hc
      rw [hys, List.map_append] at hc
      have := congrArg List.getLast? hc
      simpa using this
    have hys' : ys.map Node.frame = cs := by
      unfold candidates at hc
      rw [hys, List.map_append] at hc
      have := congrArg List.dropLast hc
      simpa using this
    simp only [hnf]
    congr 2
    unfold removeFrame
    congr 1
    rw [hys, List.dropLast_concat, List.filter_append]
    have hall : ∀ a ∈ ys, (fun m : Node => m.frame != f) a = true := by
      intro a ha
      simp only [bne_iff_ne, ne_eq]
      intro he
      apply hfcs
      rw [← hys']
      exact List.mem_map.2 ⟨a, ha, he⟩
    simp [List.filter_eq_self.2 hall, hnf]

theorem agrees_new (F : Nat) : Agrees (new F) [] := by
  refine ⟨rep_new F, ?_, ?_, ?_⟩
  · intro f; simp [candidates, new, effUnpin, effUnpinFrom]
  · intro f i h; simp [effUnpin, effUnpinFrom] at h
  · simp [candidates, new]

theorem laterThan_congr {log log' : List Event} {f g : Int}
    (hf : effUnpin log' f = effUnpin log f) (hg : effUnpin log' g = effUnpin log g)
    (h : laterThan log f g) : laterThan log' f g := by
  obtain ⟨i, j, h1, h2, h3⟩ := h
  exact ⟨i, j, hf.trans h1, hg.trans h2, h3⟩

theorem Agrees.of_eff_eq {r : LRUReplacer} {log log' : List Event} (h : Agrees r log)
    (he : ∀ g, effUnpin log' g = effUnpin log g) (hl : log.length ≤ log'.length) :
    Agrees r log' := by
  refine ⟨h.rep, ?_, ?_, ?_⟩
  · intro f; rw [he]; exact h.mem_iff f
  · intro f i hi
    rw [he] at hi
    exact lt_of_lt_of_le (h.bound f i hi) hl
  · exact h.order.imp (fun hab => laterThan_congr (he _) (he _) hab)

theorem Agrees.unpin_agrees {r : LRUReplacer} {log : List Event} (h : Agrees r log) (f : Int) :
    Agrees (Unpin r f) (log ++ [Event.unpin f]) := by
  by_cases hf : f ∈ candidates r
  · have hu : Unpin r f = r := by
      unfold Unpin
      have : mapCount r.map_frames_ f ≠ 0 := by
        rw [ne_eq, h.rep.mapCount_zero_iff_not_mem]; exact not_not.2 hf
      rw [if_pos this]
    rw [hu]
    apply h.of_eff_eq
    · intro g
      rw [effUnpin_append]
      by_cases hg : f = g
      · subst hg
        have := (h.mem_iff f).1 hf
        simp [effStep, this]
      · simp [effStep, hg]
    · simp
  · have hc : mapCount r.map_frames_ f = 0 := (h.rep.mapCount_zero_iff_not_mem f).2 hf
    have hcand : candidates (Unpin r f) = f :: candidates r := by
      unfold Unpin candidates
      simp [hc]
    have hnone : effUnpin log f = none := by
      have := (h.mem_iff f).not.1 hf
      simpa using this
    have hf' : effUnpin (log ++ [Event.unpin f]) f = some log.length := by
      rw [effUnpin_append, hnone]; simp [effStep]
    have hg' : ∀ g, g ≠ f → effUnpin (log ++ [Event.unpin f]) g = effUnpin log g := by
      intro g hg
      rw [effUnpin_append]
      simp [effStep, Ne.symm hg]
    refine ⟨h.rep.unpin_rep f, ?_, ?_, ?_⟩
    · intro g
      rw [hcand, List.mem_cons]
      by_cases hg : g = f
      · subst hg; simp [hf']
      · rw [hg' g hg, ← h.mem_iff]; simp [hg]
    · intro g i hi
      rw [List.length_append]
      by_cases hg : g = f
      · subst hg
        rw [hf'] at hi
        simp only [Option.some.injEq] at hi
        subst hi
        simp
      · rw [hg' g hg] at hi
        have := h.bound g i hi
        omega
    · rw [hcand, List.pairwise_cons]
      constructor
      · intro g hg
        have hgf : g ≠ f := fun e => hf (e ▸ hg)
        have hs := (h.mem_iff g).1 hg
        obtain ⟨j, hj⟩ := Option.isSome_iff_exists.1 hs
        exact ⟨log.length, j, hf', (hg' g hgf).trans hj, h.bound g j hj⟩
      · apply h.order.imp_of_mem
        intro a b ha hb hab
        have haf : a ≠ f := fun e => hf (e ▸ ha)
        have hbf : b ≠ f := fun e => hf (e ▸ hb)
        exact laterThan_congr (hg' a haf) (hg' b hbf) hab

theorem Agrees.remove_agrees {r : LRUReplacer} {log : List Event} (h : Agrees r log) (f : Int)
    (e : Event) (he : e = Event.pin f ∨ e = Event.victim (some f)) :
    Agrees (removeFrame r f) (log ++ [e]) := by
  have hf' : effUnpin (log ++ [e]) f = none := by
    rw [effUnpin_append]
    rcases he with rfl | rfl <;> simp [effStep]
  have hg' : ∀ g, g ≠ f → effUnpin (log ++ [e]) g = effUnpin log g := by
    intro g hg
    rw [effUnpin_append]
    rcases he with rfl | rfl <;> simp [effStep, Ne.symm hg]
  refine ⟨h.rep.removeFrame_rep f, ?_, ?_, ?_⟩
  · intro g
    rw [candidates_removeFrame, List.mem_filter]
    by_cases hg : g = f
    · subst hg; simp [hf']
    · rw [hg' g hg, ← h.mem_iff]; simp [hg]
  · intro g i hi
    rw [List.length_append]
    by_cases hg : g = f
    · subst hg
      rw [hf'] at hi
      simp at hi
    · rw [hg' g hg] at hi
      have := h.bound g i hi
      omega
  · rw [candidates_removeFrame]
    apply (h.order.filter _).imp_of_mem
    intro a b ha hb hab
    have haf : a ≠ f := by simpa using (List.mem_filter.1 ha).2
    have hbf : b ≠ f := by simpa using (List.mem_filter.1 hb).2
    exact laterThan_congr (hg' a haf) (hg' b hbf) hab

theorem Agrees.pin_untracked {r : LRUReplacer} {log : List Event} (h : Agrees r log) {f : Int}
    (hf : f ∉ candidates r) : Agrees r (log ++ [Event.pin f]) := by
  apply h.of_eff_eq
  · intro g
    rw [effUnpin_append]
    by_cases hg : f = g
    · subst hg
      have := (h.mem_iff f).not.1 hf
      simp only [Bool.not_eq_true, Option.not_isSome, Option.isNone_iff_eq_none] at this
      simp [effStep, this]
    · simp [effStep, hg]
  · simp

theorem Agrees.victim_none {r : LRUReplacer} {log : List Event} (h : Agrees r log) :
    Agrees r (log ++ [Event.victim none]) := by
  apply h.of_eff_eq
  · intro g
    rw [effUnpin_append]
    simp [effStep]
  · simp

/-- No call is undefined on a state that agrees with its history, and the state
after the call agrees with the extended history. -/
theorem Agrees.step_total {r : LRUReplacer} {log : List Event} (h : Agrees r log) (op : Op) :
    ∃ r' e, LRUReplacer.step r op = some (r', e) ∧ Agrees r' (log ++ [e]) := by
  cases op with
  | Pin f =>
    by_cases hf : f ∈ candidates r
    · exact ⟨removeFrame r f, Event.pin f, by simp [LRUReplacer.step, Pin_of_mem h.rep hf],
        h.remove_agrees f _ (Or.inl rfl)⟩
    · exact ⟨r, Event.pin f, by simp [LRUReplacer.step, Pin_of_not_mem h.rep hf],
        h.pin_untracked hf⟩
  | Unpin f => exact ⟨Unpin r f, Event.unpin f, rfl, h.unpin_agrees f⟩
  | Victim =>
    rcases List.eq_nil_or_concat (candidates r) with hc | ⟨cs, f, hc⟩
    rotate_left
    · rw [List.concat_eq_append] at hc
      exact ⟨removeFrame r f, Event.victim (some f),
        by simp [LRUReplacer.step, (Victim_of_concat h.rep hc).1], h.remove_agrees f _ (Or.inr rfl)⟩
    · exact ⟨r, Event.victim none, by simp [LRUReplacer.step, Victim_of_nil h.rep hc],
        h.victim_none⟩

theorem runFrom_invariant (P : LRUReplacer → List Event → Prop)
    (hstep : ∀ r log op r' e, P r log → step r op = some (r', e) → P r' (log ++ [e])) :
    ∀ (ops : List Op) (r : LRUReplacer) (log : List Event) (r' : LRUReplacer)
      (log' : List Event), P r log → runFrom r log ops = some (r', log') → P r' log' := by
  intro ops
  induction ops with
  | nil =>
    intro r log r' log' hP h
    simp only [runFrom, Option.some.injEq, Prod.mk.injEq] at h
    obtain ⟨rfl, rfl⟩ := h
    exact hP
  | cons op ops ih =>
    intro r log r' log' hP h
    simp only [runFrom] at h
    cases hs : step r op with
    | none => rw [hs] at h; simp at h
    | some p =>
      obtain ⟨r1, e⟩ := p
      rw [hs] at h
      exact ih r1 (log ++ [e]) r' log' (hstep r log op r1 e hP hs) h

theorem Agrees.runFrom_agrees {r : LRUReplacer} {log : List Event} (h : Agrees r log) {ops : List Op}
    {r' : LRUReplacer} {log' : List Event} (hr : LRUReplacer.runFrom r log ops = some (r', log')) :
    Agrees r' log' := by
  refine runFrom_invariant Agrees ?_ ops r log r' log' h hr
  intro r log op r' e hP hs
  obtain ⟨r2, e2, hs2, hA⟩ := hP.step_total op
  rw [hs] at hs2
  simp only [Option.some.injEq, Prod.mk.injEq] at hs2
  obtain ⟨rfl, rfl⟩ := hs2
  exact hA

theorem Agrees.runFromTotal (ops : List Op) :
    ∀ {r : LRUReplacer} {log : List Event}, Agrees r log →
      ∃ r' log', LRUReplacer.runFrom r log ops = some (r', log') := by
  induction ops with
  | nil => intro r log _; exact ⟨r, log, rfl⟩
  | cons op ops ih =>
    intro r log h
    obtain ⟨r1, e, hs, hA⟩ := h.step_total op
    obtain ⟨r2, l2, h2⟩ := ih hA
    exact ⟨r2, l2, by simp [LRUReplacer.runFrom, hs, h2]⟩

theorem agrees_of_run {F : Nat} {ops : List Op} {r : LRUReplacer} {log : List Event}
    (h : run F ops = some (r, log)) : Agrees r log :=
  (agrees_new F).runFrom_agrees h

theorem unpinnedSince_append (l : List Event) (e : Event) (f : Int) :
    UnpinnedSince (l ++ [e]) f ↔
      e = Event.unpin f ∨
        (UnpinnedSince l f ∧ e ≠ Event.pin f ∧ e ≠ Event.victim (some f)) := by
  constructor
  · rintro ⟨j, hj, hk⟩
    rcases Nat.lt_trichotomy j l.length with hlt | heq | hgt
    · right
      rw [List.getElem?_append_left hlt] at hj
      have hlast := hk l.length hlt
      rw [List.getElem?_concat_length] at hlast
      refine ⟨⟨j, hj, ?_⟩, ?_, ?_⟩
      · intro k hjk
        by_cases hkl : k < l.length
        · have := hk k hjk
          rwa [List.getElem?_append_left hkl] at this
        · rw [List.getElem?_eq_none (by omega)]
          simp
      · intro he; exact hlast.1 (by rw [he])
      · intro he; exact hlast.2 (by rw [he])
    · left
      subst heq
      rw [List.getElem?_concat_length] at hj
      exact Option.some.inj hj
    · rw [List.getElem?_eq_none (by simp; omega)] at hj
      simp at hj
  · rintro (rfl | ⟨⟨j, hj, hk⟩, h1, h2⟩)
    · refine ⟨l.length, List.getElem?_concat_length _ _, ?_⟩
      intro k hk
      rw [List.getElem?_eq_none (by simp; omega)]
      simp
    · have hjl : j < l.length := by
        by_contra hn
        rw [List.getElem?_eq_none (by omega)] at hj
        simp at hj
      refine ⟨j, by rw [List.getElem?_append_left hjl]; exact hj, ?_⟩
      intro k hjk
      rcases Nat.lt_trichotomy k l.length with hlt | heq | hgt
      · rw [List.getElem?_append_left hlt]
        exact hk k hjk
      · subst heq
        rw [List.getElem?_concat_length]
        exact ⟨fun h => h1 (Option.some.inj h), fun h => h2 (Option.some.inj h)⟩
      · rw [List.getElem?_eq_none (by simp; omega)]
        simp

theorem trackedBy_iff_unpinnedSince (log : List Event) (f : Int) :
    trackedBy log f = true ↔ UnpinnedSince log f := by
  induction log using List.reverseRecOn with
  | nil =>
    simp [trackedBy, lastAbout, UnpinnedSince]
  | append_singleton l e ih =>
    rw [unpinnedSince_append, ← ih]
    unfold trackedBy
    rw [lastAbout_append]
    cases e with
    | pin g =>
      by_cases hg : g = f
      · subst hg; simp [Event.about]
      · simp [Event.about, hg]
    | unpin g =>
      by_cases hg : g = f
      · subst hg; simp [Event.about]
      · simp [Event.about, hg]
    | victim r =>
      cases r with
      | none => simp [Event.about]
      | some g =>
        by_cases hg : g = f
        · subst hg; simp [Event.about]
        · simp [Event.about, hg]

theorem Agrees.mem_iff_trackedBy {r : LRUReplacer} {log : List Event} (h : Agrees r log)
    (f : Int) : f ∈ candidates r ↔ trackedBy log f = true := by
  rw [trackedBy_iff_effUnpin]; exact h.mem_iff f

theorem Agrees.tracks_iff_trackedBy {r : LRUReplacer} {log : List Event} (h : Agrees r log)
    (f : Int) : tracks r f = true ↔ trackedBy log f = true := by
  rw [h.rep.tracks_iff]; exact h.mem_iff_trackedBy f

/-- What one call does to a state that satisfies the representation invariant. -/
theorem Rep.step_spec {r r' : LRUReplacer} {op : Op} {e : Event} (h : Rep r)
    (hs : LRUReplacer.step r op = some (r', e)) :
    Rep r' ∧ (∀ g, e = Event.victim (some g) → g ∈ candidates r) ∧
      (∀ g, g ∈ candidates r' → g ∈ candidates r ∨ op = Op.Unpin g) := by
  cases op with
  | Pin f =>
    by_cases hf : f ∈ candidates r
    · simp only [LRUReplacer.step, Pin_of_mem h hf, Option.map_some', Option.some.injEq,
        Prod.mk.injEq] at hs
      obtain ⟨rfl, rfl⟩ := hs
      refine ⟨h.removeFrame_rep f, by simp, ?_⟩
      intro g hg
      rw [candidates_removeFrame] at hg
      exact Or.inl (List.mem_filter.1 hg).1
    · simp only [LRUReplacer.step, Pin_of_not_mem h hf, Option.map_some', Option.some.injEq,
        Prod.mk.injEq] at hs
      obtain ⟨rfl, rfl⟩ := hs
      exact ⟨h, by simp, fun g hg => Or.inl hg⟩
  | Unpin f =>
    simp only [LRUReplacer.step, Option.some.injEq, Prod.mk.injEq] at hs
    obtain ⟨rfl, rfl⟩ := hs
    refine ⟨h.unpin_rep f, by simp, ?_⟩
    intro g hg
    unfold Unpin at hg
    by_cases hc : mapCount r.map_frames_ f = 0
    · simp only [hc, ne_eq, not_true_eq_false, if_false, candidates, List.map_cons,
        List.mem_cons] at hg
      rcases hg with rfl | hg
      · exact Or.inr rfl
      · exact Or.inl hg
    · simp only [ne_eq, hc, not_false_eq_true, if_true] at hg
      exact Or.inl hg
  | Victim =>
    rcases List.eq_nil_or_concat (candidates r) with hc | ⟨cs, f, hc⟩
    · simp only [LRUReplacer.step, Victim_of_nil h hc, Option.map_some', Option.some.injEq,
        Prod.mk.injEq] at hs
      obtain ⟨rfl, rfl⟩ := hs
      exact ⟨h, by simp, fun g hg => Or.inl hg⟩
    · rw [List.concat_eq_append] at hc
      simp only [LRUReplacer.step, (Victim_of_concat h hc).1, Option.map_some',
        Option.some.injEq, Prod.mk.injEq] at hs
      obtain ⟨rfl, rfl⟩ := hs
      refine ⟨h.removeFrame_rep f, ?_, ?_⟩
      · intro g hg
        simp only [Event.victim.injEq, Option.some.injEq] at hg
        subst hg
        rw [hc]; simp
      · intro g hg
        rw [candidates_removeFrame] at hg
        exact Or.inl (List.mem_filter.1 hg).1

theorem drain_eq {n : Nat} : ∀ {r : LRUReplacer}, Rep r → (candidates r).length < n →
    drain n r = some (candidates r).reverse := by
  induction n with
  | zero => intro r _ h; omega
  | succ n ih =>
    intro r h hl
    rcases List.eq_nil_or_concat (candidates r) with hc | ⟨cs, f, hc⟩
    · simp [drain, Victim_of_nil h hc, hc]
    · rw [List.concat_eq_append] at hc
      have hv := Victim_of_concat h hc
      have hlen : (candidates (removeFrame r f)).length < n := by
        rw [hv.2]; rw [hc] at hl; simp at hl; omega
      simp [drain, hv.1, ih (h.removeFrame_rep f) hlen, hv.2, hc]

theorem effectiveUnpin_append (l : List Event) (e : Event) (f : Int) (i : Nat) :
    EffectiveUnpin (l ++ [e]) f i ↔
      (i = l.length ∧ e = Event.unpin f ∧ trackedBy l f = false) ∨
        (EffectiveUnpin l f i ∧ e ≠ Event.pin f ∧ e ≠ Event.victim (some f)) := by
  constructor
  · rintro ⟨hi, ht, hk⟩
    rcases Nat.lt_trichotomy i l.length with hlt | heq | hgt
    · right
      rw [List.getElem?_append_left hlt] at hi
      rw [List.take_append_of_le_length (le_of_lt hlt)] at ht
      have hlast := hk l.length hlt
      rw [List.getElem?_concat_length] at hlast
      refine ⟨⟨hi, ht, ?_⟩, ?_, ?_⟩
      · intro k hik
        by_cases hkl : k < l.length
        · have := hk k hik
          rwa [List.getElem?_append_left hkl] at this
        · rw [List.getElem?_eq_none (by omega)]
          simp
      · intro he; exact hlast.1 (by rw [he])
      · intro he; exact hlast.2 (by rw [he])
    · left
      subst heq
      rw [List.getElem?_concat_length] at hi
      rw [List.take_left' rfl] at ht
      exact ⟨rfl, Option.some.inj hi, ht⟩
    · rw [List.getElem?_eq_none (by simp; omega)] at hi
      simp at hi
  · rintro (⟨rfl, rfl, ht⟩ | ⟨⟨hi, ht, hk⟩, h1, h2⟩)
    · refine ⟨List.getElem?_concat_length _ _, by rw [List.take_left' rfl]; exact ht, ?_⟩
      intro k hk
      rw [List.getElem?_eq_none (by simp; omega)]
      simp
    · have hil : i < l.length := by
        by_contra hn
        rw [List.getElem?_eq_none (by omega)] at hi
        simp at hi
      refine ⟨by rw [List.getElem?_append_left hil]; exact hi,
        by rw [List.take_append_of_le_length (le_of_lt hil)]; exact ht, ?_⟩
      intro k hik
      rcases Nat.lt_trichotomy k l.length with hlt | heq | hgt
      · rw [List.getElem?_append_left hlt]
        exact hk k hik
      · subst heq
        rw [List.getElem?_concat_length]
        exact ⟨fun h => h1 (Option.some.inj h), fun h => h2 (Option.some.inj h)⟩
      · rw [List.getElem?_eq_none (by simp; omega)]
        simp

theorem trackedBy_eq_false_iff (log : List Event) (f : Int) :
    trackedBy log f = false ↔ effUnpin log f = none := by
  have := (trackedBy_iff_effUnpin log f).not
  simpa using this

/-- The scan `effUnpin` computes the effective unpin of the declarative definition. -/
theorem effUnpin_eq_some_iff (log : List Event) (f : Int) (i : Nat) :
    effUnpin log f = some i ↔ EffectiveUnpin log f i := by
  induction log using List.reverseRecOn generalizing i with
  | nil => simp [effUnpin, effUnpinFrom, EffectiveUnpin]
  | append_singleton l e ih =>
    rw [effectiveUnpin_append, effUnpin_append, ← ih, trackedBy_eq_false_iff]
    cases e with
    | pin g =>
      by_cases hg : g = f
      · subst hg; simp [effStep]
      · simp [effStep, hg]
    | unpin g =>
      by_cases hg : g = f
      · subst hg
        cases h : effUnpin l g with
        | none =>
          simp only [effStep, if_true, Option.isSome_none, Bool.false_eq_true, if_false,
            Option.some.injEq, true_and, reduceCtorEq, false_and, or_false, and_true]
          exact eq_comm
        | some a => simp [effStep]
      · simp [effStep, hg]
    | victim r =>
      cases r with
      | none => simp [effStep]
      | some g =>
        by_cases hg : g = f
        · subst hg; simp [effStep]
        · simp [effStep, hg]

theorem run_total (F : Nat) (ops : List Op) :
    ∃ r log, run F ops = some (r, log) ∧ Agrees r log := by
  obtain ⟨r, log, h⟩ := (agrees_new F).runFromTotal ops
  exact ⟨r, log, h, agrees_of_run h⟩

theorem Agrees.last_is_oldest {r : LRUReplacer} {log : List Event} (h : Agrees r log)
    {cs : List Int} {f : Int} (hc : candidates r = cs ++ [f]) :
    ∃ i, EffectiveUnpin log f i ∧ ∀ g j, EffectiveUnpin log g j → i ≤ j := by
  simp only [← effUnpin_eq_some_iff]
  have hf : f ∈ candidates r := by rw [hc]; simp
  obtain ⟨i, hi⟩ := Option.isSome_iff_exists.1 ((h.mem_iff f).1 hf)
  refine ⟨i, hi, ?_⟩
  intro g j hj
  have hg : g ∈ candidates r := (h.mem_iff g).2 (by rw [hj]; rfl)
  rw [hc, List.mem_append, List.mem_singleton] at hg
  rcases hg with hg | rfl
  · have hord := h.order
    rw [hc, List.pairwise_append] at hord
    obtain ⟨a, b, ha, hb, hlt⟩ := hord.2.2 g hg f (List.mem_singleton.2 rfl)
    rw [hj] at ha
    rw [hi] at hb
    cases ha; cases hb
    omega
  · rw [hi] at hj
    cases hj
    exact le_refl _

/-- C1: after any sequence of Pin/Unpin/Victim calls on a fresh replacer, Victim is
defined; it returns false, leaving the state as it is, exactly when the history
tracks no frame; otherwise it returns a tracked frame whose effective unpin (the
Unpin that made it tracked) is the oldest of all tracked frames and removes that
frame, and no other, from the candidates. In particular Unpin(1); Unpin(2); Victim returns frame 1. -/
theorem C1_victim_returns_least_recently_unpinned (F : Nat) (ops : List Op) :
    (∃ r log, run F ops = some (r, log) ∧
      ∃ res r', Victim r = some (res, r') ∧
        (res = none ↔ ∀ f, trackedBy log f = false) ∧
        (res = none → r' = r) ∧
        (∀ f, res = some f →
          trackedBy log f = true ∧
          (∃ i, EffectiveUnpin log f i ∧ ∀ g j, EffectiveUnpin log g j → i ≤ j) ∧
          (∀ g, tracks r' g = true ↔ (tracks r g = true ∧ g ≠ f)) ∧
          candidates r' = (candidates r).filter (fun g => g != f))) ∧
    (run F [Op.Unpin 1, Op.Unpin 2, Op.Victim]).map Prod.snd
      = some [Event.unpin 1, Event.unpin 2, Event.victim (some 1)] := by
  refine ⟨?_, rfl⟩
  obtain ⟨r, log, hrun, hA⟩ := run_total F ops
  refine ⟨r, log, hrun, ?_⟩
  rcases List.eq_nil_or_concat (candidates r) with hc | ⟨cs, f, hc⟩
  · refine ⟨none, r, Victim_of_nil hA.rep hc, ?_, fun _ => rfl, ?_⟩
    · simp only [true_iff]
      intro f
      have := (hA.mem_iff_trackedBy f).not.1 (by rw [hc]; simp)
      simpa using this
    · intro f hf; cases hf
  · rw [List.concat_eq_append] at hc
    have hv := Victim_of_concat hA.rep hc
    have hf : f ∈ candidates r := by rw [hc]; simp
    refine ⟨some f, removeFrame r f, hv.1, ?_, ?_, ?_⟩
    · simp only [false_iff, not_forall, reduceCtorEq]
      exact ⟨f, by rw [(hA.mem_iff_trackedBy f).1 hf]; simp⟩
    · intro h; cases h
    · intro f' hf'
      cases hf'
      refine ⟨(hA.mem_iff_trackedBy f).1 hf, hA.last_is_oldest hc, ?_,
        candidates_removeFrame r f⟩
      intro g
      rw [(hA.rep.removeFrame_rep f).tracks_iff, hA.rep.tracks_iff, candidates_removeFrame,
        List.mem_filter]
      simp

/-- C2: after any sequence of Pin/Unpin/Victim calls on a fresh replacer, Size()
is the number of distinct frame ids whose most recent event among Pin(f), Unpin(f)
and "Victim returned f" is an Unpin(f). -/
theorem C2_size_counts_unpinned_frames (F : Nat) (ops : List Op) :
    ∃ r log, run F ops = some (r, log) ∧
      Size r = Set.ncard {f : Int | trackedBy log f = true} := by
  obtain ⟨r, log, hrun, hA⟩ := run_total F ops
  refine ⟨r, log, hrun, ?_⟩
  have hset : {f : Int | trackedBy log f = true} = ↑(candidates r).toFinset := by
    ext f
    simp only [Set.mem_setOf_eq, List.coe_toFinset]
    exact (hA.mem_iff_trackedBy f).symm
  have hnd : (candidates r).Nodup := hA.rep.frame_nodup
  rw [hset, Set.ncard_coe_Finset, List.toFinset_card_of_nodup hnd, hA.rep.size_eq]

theorem step_deterministic_agrees {r r' : LRUReplacer} {log : List Event} {op : Op} {e : Event}
    (h : Agrees r log) (hs : step r op = some (r', e)) : Agrees r' (log ++ [e]) := by
  obtain ⟨r2, e2, hs2, hA⟩ := h.step_total op
  rw [hs] at hs2
  simp only [Option.some.injEq, Prod.mk.injEq] at hs2
  obtain ⟨rfl, rfl⟩ := hs2
  exact hA

/-- C3: in every sequence of Pin/Unpin/Victim calls on a fresh replacer, whenever a
Victim call returns frame f, the history before that call holds an Unpin(f) after
which f was neither pinned nor returned by Victim; and a frame id is tracked by the
final state iff the history holds an Unpin of it with no later Pin of it and no
later Victim call returning it. -/
theorem C3_victim_returns_only_unpinned_frames (F : Nat) (ops : List Op) :
    ∃ r log, run F ops = some (r, log) ∧
      (∀ (i : Nat) (f : Int), log[i]? = some (Event.victim (some f)) →
        UnpinnedSince (log.take i) f) ∧
      (∀ f, tracks r f = true ↔ UnpinnedSince log f) := by
  obtain ⟨r, log, hrun, hA⟩ := run_total F ops
  refine ⟨r, log, hrun, ?_, ?_⟩
  · have key := runFrom_invariant
      (fun r log => Agrees r log ∧ ∀ (i : Nat) (f : Int),
        log[i]? = some (Event.victim (some f)) → UnpinnedSince (log.take i) f)
      ?_ ops (new F) [] r log ⟨agrees_new F, by simp⟩ hrun
    · exact key.2
    · rintro r0 l0 op r1 e ⟨hA0, hG⟩ hs
      refine ⟨step_deterministic_agrees hA0 hs, ?_⟩
      intro i f hi
      rcases Nat.lt_trichotomy i l0.length with hlt | heq | hgt
      · rw [List.getElem?_append_left hlt] at hi
        rw [List.take_append_of_le_length (le_of_lt hlt)]
        exact hG i f hi
      · subst heq
        rw [List.getElem?_concat_length] at hi
        have he : e = Event.victim (some f) := Option.some.inj hi
        have hmem := (hA0.rep.step_spec hs).2.1 f he
        rw [List.take_left']
        · exact (trackedBy_iff_unpinnedSince l0 f).1 ((hA0.mem_iff_trackedBy f).1 hmem)
        · rfl
      · rw [List.getElem?_eq_none (by simp; omega)] at hi
        simp at hi
  · intro f
    rw [hA.tracks_iff_trackedBy, trackedBy_iff_unpinnedSince]

theorem runFrom_invariant_of (A : Op → Prop) (P : LRUReplacer → List Event → Prop)
    (hstep : ∀ r log op r' e, A op → P r log → step r op = some (r', e) → P r' (log ++ [e])) :
    ∀ (ops : List Op) (r : LRUReplacer) (log : List Event) (r' : LRUReplacer)
      (log' : List Event), (∀ op ∈ ops, A op) → P r log →
      runFrom r log ops = some (r', log') → P r' log' := by
  intro ops
  induction ops with
  | nil =>
    intro r log r' log' _ hP h
    simp only [runFrom, Option.some.injEq, Prod.mk.injEq] at h
    obtain ⟨rfl, rfl⟩ := h
    exact hP
  | cons op ops ih =>
    intro r log r' log' hA hP h
    simp only [runFrom] at h
    cases hs : step r op with
    | none => rw [hs] at h; simp at h
    | some p =>
      obtain ⟨r1, e⟩ := p
      rw [hs] at h
      exact ih r1 (log ++ [e]) r' log' (fun o ho => hA o (List.mem_cons_of_mem _ ho))
        (hstep r log op r1 e (hA op (List.mem_cons_self _ _)) hP hs) h

theorem tracks_eq_false_iff {r : LRUReplacer} (h : Rep r) (f : Int) :
    tracks r f = false ↔ f ∉ candidates r := by
  rw [← h.tracks_iff]; simp

theorem candidates_unpin_of_not_mem {r : LRUReplacer} (h : Rep r) {f : Int}
    (hf : f ∉ candidates r) : candidates (Unpin r f) = f :: candidates r := by
  have hc : mapCount r.map_frames_ f = 0 := (h.mapCount_zero_iff_not_mem f).2 hf
  unfold Unpin candidates
  simp [hc]

/-- An example history: `Unpin(1); Unpin(2)` on a fresh replacer for two frames. -/
theorem run_example :
    run 2 [Op.Unpin 1, Op.Unpin 2]
      = some (⟨2, [⟨1, 2⟩, ⟨0, 1⟩], [(2, 1), (1, 0)], 2⟩, [Event.unpin 1, Event.unpin 2]) := by
  decide

/-- C4: in a state reached from a fresh replacer, Unpin(f) of a tracked frame leaves
the whole state as it is (so Size and the order in which Victim returns the
candidates are the same, and the recency of f is not refreshed); Unpin(f) of a frame
that is not tracked makes Size grow by one, makes f tracked, and Victim returns f
only after every frame that was tracked before the call, in their former order. -/
theorem C4_unpin_appends_or_keeps (F : Nat) (ops : List Op) (r : LRUReplacer)
    (log : List Event) (h : run F ops = some (r, log)) (f : Int) :
    (tracks r f = true → Unpin r f = r) ∧
    (tracks r f = false →
      Size (Unpin r f) = Size r + 1 ∧ tracks (Unpin r f) f = true ∧
      ∃ order, drain (Size r + 1) r = some order ∧
        (∀ g, g ∈ order ↔ tracks r g = true) ∧
        drain (Size (Unpin r f) + 1) (Unpin r f) = some (order ++ [f])) := by
  have hA := agrees_of_run h
  have hR := hA.rep
  constructor
  · intro ht
    unfold Unpin
    have : mapCount r.map_frames_ f ≠ 0 := by simpa [tracks] using ht
    rw [if_pos this]
  · intro ht
    have hf : f ∉ candidates r := (tracks_eq_false_iff hR f).1 ht
    have hc := candidates_unpin_of_not_mem hR hf
    have hR' := hR.unpin_rep f
    refine ⟨?_, ?_, (candidates r).reverse, ?_, ?_, ?_⟩
    · rw [hR'.size_eq, hR.size_eq, hc]; simp
    · rw [hR'.tracks_iff, hc]; simp
    · exact drain_eq hR (by rw [hR.size_eq]; omega)
    · intro g; rw [List.mem_reverse, hR.tracks_iff]
    · rw [drain_eq hR' (by rw [hR'.size_eq]; omega), hc]; simp

theorem C4_unpin_appends_or_keeps_witness :
    run 2 [Op.Unpin 1, Op.Unpin 2]
      = some (⟨2, [⟨1, 2⟩, ⟨0, 1⟩], [(2, 1), (1, 0)], 2⟩, [Event.unpin 1, Event.unpin 2]) ∧
    Size (Unpin ⟨2, [⟨1, 2⟩, ⟨0, 1⟩], [(2, 1), (1, 0)], 2⟩ 3)
      = Size ⟨2, [⟨1, 2⟩, ⟨0, 1⟩], [(2, 1), (1, 0)], 2⟩ + 1 :=
  ⟨run_example,
   ((C4_unpin_appends_or_keeps 2 [Op.Unpin 1, Op.Unpin 2] _ _ run_example 3).2
      (by decide)).1⟩

/-- C5: in a state reached from a fresh replacer, Pin(f) of a frame that is not
tracked leaves the state as it is; Pin(f) of a tracked frame is defined, makes Size
one smaller, makes f untracked, keeps the order in which Victim returns the other
candidates, and no Victim call returns f in any later sequence of calls that does
not unpin f. -/
theorem C5_pin_removes_or_keeps (F : Nat) (ops : List Op) (r : LRUReplacer)
    (log : List Event) (h : run F ops = some (r, log)) (f : Int) :
    (tracks r f = false → Pin r f = some r) ∧
    (tracks r f = true →
      ∃ r', Pin r f = some r' ∧ Size r' + 1 = Size r ∧ tracks r' f = false ∧
        (∃ order, drain (Size r + 1) r = some order ∧ f ∈ order ∧
          drain (Size r' + 1) r' = some (order.filter (fun g => g != f))) ∧
        (∀ (ops' : List Op) (r'' : LRUReplacer) (log'' : List Event),
          (∀ op ∈ ops', op ≠ Op.Unpin f) → runFrom r' [] ops' = some (r'', log'') →
          Event.victim (some f) ∉ log'')) := by
  have hA := agrees_of_run h
  have hR := hA.rep
  constructor
  · intro ht
    exact Pin_of_not_mem hR ((tracks_eq_false_iff hR f).1 ht)
  · intro ht
    have hf : f ∈ candidates r := (hR.tracks_iff f).1 ht
    have hR' := hR.removeFrame_rep f
    have hnot : f ∉ candidates (removeFrame r f) := by
      rw [candidates_removeFrame, List.mem_filter]; simp
    refine ⟨removeFrame r f, Pin_of_mem hR hf, ?_, ?_, ?_, ?_⟩
    · rw [hR'.size_eq, hR.size_eq, candidates_removeFrame]
      have hnd : (candidates r).Nodup := hR.frame_nodup
      have : (candidates r).filter (fun g => g != f) = (candidates r).erase f :=
        (hnd.erase_eq_filter f).symm
      rw [this, List.length_erase_of_mem hf]
      have : 0 < (candidates r).length := List.length_pos_of_mem hf
      omega
    · exact (tracks_eq_false_iff hR' f).2 hnot
    · refine ⟨(candidates r).reverse, drain_eq hR (by rw [hR.size_eq]; omega),
        List.mem_reverse.2 hf, ?_⟩
      rw [drain_eq hR' (by rw [hR'.size_eq]; omega), candidates_removeFrame,
        List.filter_reverse]
    · intro ops' r'' log'' hops hrun
      have key := runFrom_invariant_of (fun op => op ≠ Op.Unpin f)
        (fun r l => Rep r ∧ f ∉ candidates r ∧ Event.victim (some f) ∉ l)
        ?_ ops' (removeFrame r f) [] r'' log'' hops ⟨hR', hnot, by simp⟩ hrun
      · exact key.2.2
      · rintro r0 l0 op r1 e hop ⟨hR0, hf0, hl0⟩ hs
        obtain ⟨hR1, hv, hsub⟩ := hR0.step_spec hs
        refine ⟨hR1, ?_, ?_⟩
        · intro hm
          rcases hsub f hm with h1 | h1
          · exact hf0 h1
          · exact hop h1
        · rw [List.mem_append, List.mem_singleton]
          rintro (h1 | h1)
          · exact hl0 h1
          · exact hf0 (hv f h1.symm)

theorem C5_pin_removes_or_keeps_witness :
    run 2 [Op.Unpin 1, Op.Unpin 2]
      = some (⟨2, [⟨1, 2⟩, ⟨0, 1⟩], [(2, 1), (1, 0)], 2⟩, [Event.unpin 1, Event.unpin 2]) ∧
    ∃ r', Pin ⟨2, [⟨1, 2⟩, ⟨0, 1⟩], [(2, 1), (1, 0)], 2⟩ 1 = some r' ∧
      Size r' + 1 = Size ⟨2, [⟨1, 2⟩, ⟨0, 1⟩], [(2, 1), (1, 0)], 2⟩ ∧ tracks r' 1 = false :=
  ⟨run_example,
   match (C5_pin_removes_or_keeps 2 [Op.Unpin 1, Op.Unpin 2] _ _ run_example 1).2
      (by decide) with
   | ⟨r', h1, h2, h3, _⟩ => ⟨r', h1, h2, h3⟩⟩

end LRUReplacer

namespace HashTableBucketPage

variable {K V : Type}

theorem and_one_shiftLeft_ne_zero (x o : Nat) : ((x &&& (1 <<< o)) != 0) = x.testBit o := by
  rw [Nat.one_shiftLeft]
  cases h : x.testBit o with
  | true =>
    rw [bne_iff_ne]
    intro h0
    have := Nat.testBit_and x (2 ^ o) o
    rw [h0, Nat.zero_testBit, h, Nat.testBit_two_pow_self] at this
    simp at this
  | false =>
    have : x &&& 2 ^ o = 0 := by
      apply Nat.eq_of_testBit_eq
      intro j
      rw [Nat.testBit_and, Nat.zero_testBit, Nat.testBit_two_pow]
      by_cases hj : o = j
      · subst hj; simp [h]
      · simp [hj]
    rw [this]
    rfl

theorem testBit_set_byte (x o p : Nat) (hp : p < 8) :
    ((x ||| (1 <<< o)) % 256).testBit p = (x.testBit p || decide (p = o)) := by
  have h256 : (256 : Nat) = 2 ^ 8 := by norm_num
  rw [h256, Nat.testBit_mod_two_pow, Nat.testBit_or, Nat.one_shiftLeft, Nat.testBit_two_pow]
  simp only [hp, decide_True, Bool.true_and]
  congr 1
  by_cases h : o = p
  · subst h; simp
  · have h' : ¬ p = o := fun e => h e.symm
    simp [h, h']

theorem testBit_clear_byte (x o p : Nat) (hp : p < 8) :
    ((x &&& (0xFFFFFFFF ^^^ (1 <<< o))) % 256).testBit p = (x.testBit p && decide (p ≠ o)) := by
  have h256 : (256 : Nat) = 2 ^ 8 := by norm_num
  have hff : (0xFFFFFFFF : Nat) = 2 ^ 32 - 1 := by norm_num
  have hp32 : p < 32 := by omega
  rw [h256, Nat.testBit_mod_two_pow, Nat.testBit_and, Nat.testBit_xor, hff,
    Nat.testBit_two_pow_sub_one, Nat.one_shiftLeft, Nat.testBit_two_pow]
  simp only [hp, hp32, decide_True, Bool.true_and]
  congr 1
  by_cases h : o = p
  · subst h; simp
  · have h' : ¬ p = o := fun e => h e.symm
    simp [h, h']

theorem IsReadable_eq (b : HashTableBucketPage K V) (i : Nat) :
    IsReadable b i = (b.readable_ (i / 8)).testBit (i % 8) :=
  and_one_shiftLeft_ne_zero _ _

theorem IsOccupied_eq (b : HashTableBucketPage K V) (i : Nat) :
    IsOccupied b i = (b.occupied_ (i / 8)).testBit (i % 8) :=
  and_one_shiftLeft_ne_zero _ _

theorem eq_iff_div_mod_eight (i j : Nat) (h : j / 8 = i / 8) : j % 8 = i % 8 ↔ j = i := by
  omega

theorem IsReadable_SetReadable (b : HashTableBucketPage K V) (i j : Nat) :
    IsReadable (SetReadable b i) j = (IsReadable b j || decide (j = i)) := by
  rw [IsReadable_eq, IsReadable_eq]
  unfold SetReadable
  by_cases h : j / 8 = i / 8
  · rw [h]
    simp only [Function.update_same]
    rw [testBit_set_byte _ _ _ (Nat.mod_lt _ (by norm_num))]
    congr 1
    exact decide_eq_decide.2 (eq_iff_div_mod_eight i j h)
  · have hne : j ≠ i := fun e => h (by rw [e])
    simp only [Function.update_noteq h]
    simp [hne]

theorem IsOccupied_SetOccupied (b : HashTableBucketPage K V) (i j : Nat) :
    IsOccupied (SetOccupied b i) j = (IsOccupied b j || decide (j = i)) := by
  rw [IsOccupied_eq, IsOccupied_eq]
  unfold SetOccupied
  by_cases h : j / 8 = i / 8
  · rw [h]
    simp only [Function.update_same]
    rw [testBit_set_byte _ _ _ (Nat.mod_lt _ (by norm_num))]
    congr 1
    exact decide_eq_decide.2 (eq_iff_div_mod_eight i j h)
  · have hne : j ≠ i := fun e => h (by rw [e])
    simp only [Function.update_noteq h]
    simp [hne]

theorem IsReadable_SetUnreadable (b : HashTableBucketPage K V) (i j : Nat) :
    IsReadable (SetUnreadable b i) j = (IsReadable b j && decide (j ≠ i)) := by
  rw [IsReadable_eq, IsReadable_eq]
  unfold SetUnreadable
  by_cases h : j / 8 = i / 8
  · rw [h]
    simp only [Function.update_same]
    rw [testBit_clear_byte _ _ _ (Nat.mod_lt _ (by norm_num))]
    congr 1
    exact decide_eq_decide.2 (not_congr (eq_iff_div_mod_eight i j h))
  · have hne : j ≠ i := fun e => h (by rw [e])
    simp only [Function.update_noteq h]
    simp [hne]

theorem IsOccupied_SetReadable (b : HashTableBucketPage K V) (i j : Nat) :
    IsOccupied (SetReadable b i) j = IsOccupied b j := rfl

theorem IsReadable_SetOccupied (b : HashTableBucketPage K V) (i j : Nat) :
    IsReadable (SetOccupied b i) j = IsReadable b j := rfl

theorem IsOccupied_SetUnreadable (b : HashTableBucketPage K V) (i j : Nat) :
    IsOccupied (SetUnreadable b i) j = IsOccupied b j := rfl

theorem not_readable_of_not_occupied {N : Nat} {b : HashTableBucketPage K V}
    (h1 : ReadableImpliesOccupied N b) (h2 : OccupiedContiguous N b) {i j : Nat}
    (hij : i ≤ j) (hj : j < N) (hi : IsOccupied b i = false) : IsReadable b j = false := by
  by_contra hr
  have hr' : IsReadable b j = true := by simpa using hr
  have ho := h1 j hj hr'
  rcases Nat.eq_or_lt_of_le hij with rfl | hlt
  · rw [ho] at hi; cases hi
  · have := h2 j hj i hlt ho
    rw [this] at hi; cases hi

theorem matchesKey_eq_true_iff (b : HashTableBucketPage K V) (key : K) (cmp : K → K → Int)
    (i : Nat) :
    matchesKey b key cmp i = true ↔ (IsReadable b i = true ∧ cmp (b.array_ i).1 key = 0) := by
  simp [matchesKey]

theorem GetValue_loop_eq {N : Nat} {b : HashTableBucketPage K V} (key : K) (cmp : K → K → Int)
    (h1 : ReadableImpliesOccupied N b) (h2 : OccupiedContiguous N b) :
    ∀ (fuel i : Nat) (flag : Bool) (result : List V), i + fuel = N →
      GetValue.loop b key cmp fuel i flag result =
        (flag || !((List.range' i fuel).filter (matchesKey b key cmp)).isEmpty,
         result ++ ((List.range' i fuel).filter (matchesKey b key cmp)).map
           (fun s => (b.array_ s).2)) := by
  intro fuel
  induction fuel with
  | zero => intro i flag result _; simp [GetValue.loop]
  | succ fuel ih =>
    intro i flag result hN
    rw [GetValue.loop, List.range'_succ, List.filter_cons]
    by_cases hm : IsReadable b i = true ∧ cmp (b.array_ i).1 key = 0
    · rw [if_pos hm, if_pos ((matchesKey_eq_true_iff b key cmp i).2 hm),
        ih (i + 1) true _ (by omega)]
      simp
    · rw [if_neg hm]
      have hmk : ¬ matchesKey b key cmp i = true := by
        rw [matchesKey_eq_true_iff]; exact hm
      rw [if_neg hmk]
      by_cases ho : IsOccupied b i = false
      · rw [if_pos ho]
        have hnil : (List.range' (i + 1) fuel).filter (matchesKey b key cmp) = [] := by
          rw [List.filter_eq_nil_iff]
          intro j hj
          rw [List.mem_range'_1] at hj
          rw [matchesKey_eq_true_iff]
          rintro ⟨hr, _⟩
          have := not_readable_of_not_occupied h1 h2 (by omega : i ≤ j) (by omega) ho
          rw [this] at hr; cases hr
        rw [hnil]
        simp
      · rw [if_neg ho, ih (i + 1) flag result (by omega)]

theorem holdsPair_eq_true_iff [DecidableEq V] (b : HashTableBucketPage K V) (key : K)
    (value : V) (cmp : K → K → Int) (i : Nat) :
    holdsPair b key value cmp i = true ↔
      (IsReadable b i = true ∧ cmp (b.array_ i).1 key = 0 ∧ (b.array_ i).2 = value) := by
  simp [holdsPair, and_assoc]

theorem firstFree_succ_of_free {N : Nat} {b : HashTableBucketPage K V} {i pos : Nat}
    (hi : i < N) (h : firstFree N b i pos) (hr : IsReadable b i = false) :
    (if pos = N then i else pos) < i + 1 ∧
      IsReadable b (if pos = N then i else pos) = false ∧
      ∀ j, j < (if pos = N then i else pos) → IsReadable b j = true := by
  rcases h with ⟨hp, hall⟩ | ⟨hp, hfree, hall⟩
  · rw [if_pos hp]
    exact ⟨by omega, hr, hall⟩
  · have : pos ≠ N := by omega
    rw [if_neg this]
    exact ⟨by omega, hfree, hall⟩

theorem firstFree_succ_of_readable {N : Nat} {b : HashTableBucketPage K V} {i pos : Nat}
    (h : firstFree N b i pos) (hr : IsReadable b i = true) : firstFree N b (i + 1) pos := by
  rcases h with ⟨hp, hall⟩ | ⟨hp, hfree, hall⟩
  · left
    refine ⟨hp, ?_⟩
    intro j hj
    rcases Nat.eq_or_lt_of_le (Nat.lt_succ_iff.1 hj) with rfl | hlt
    · exact hr
    · exact hall j hlt
  · right
    exact ⟨by omega, hfree, hall⟩

theorem Insert_loop_spec [DecidableEq V] {N : Nat} {b : HashTableBucketPage K V} (key : K)
    (value : V) (cmp : K → K → Int)
    (h1 : ReadableImpliesOccupied N b) (h2 : OccupiedContiguous N b) :
    ∀ (fuel i pos : Nat), i + fuel = N → firstFree N b i pos →
      (Insert.loop N b key value cmp fuel i pos = none ↔
        ∃ j, i ≤ j ∧ j < N ∧ holdsPair b key value cmp j = true) ∧
      (∀ p, Insert.loop N b key value cmp fuel i pos = some p → firstFree N b N p) := by
  intro fuel
  induction fuel with
  | zero =>
    intro i pos hN hpos
    have hi : i = N := by omega
    subst hi
    constructor
    · simp only [Insert.loop, reduceCtorEq, false_iff, not_exists, not_and]
      intro j h1 h2; omega
    · intro p hp
      simp only [Insert.loop, Option.some.injEq] at hp
      subst hp; exact hpos
  | succ fuel ih =>
    intro i pos hN hpos
    have hiN : i < N := by omega
    rw [Insert.loop]
    by_cases hd : IsReadable b i = true ∧ cmp (b.array_ i).1 key = 0 ∧ (b.array_ i).2 = value
    · rw [if_pos hd]
      refine ⟨⟨fun _ => ⟨i, le_refl _, hiN, (holdsPair_eq_true_iff b key value cmp i).2 hd⟩,
        fun _ => rfl⟩, ?_⟩
      intro p hp; cases hp
    · rw [if_neg hd]
      have hshift : (∃ j, i ≤ j ∧ j < N ∧ holdsPair b key value cmp j = true) ↔
          (∃ j, i + 1 ≤ j ∧ j < N ∧ holdsPair b key value cmp j = true) := by
        constructor
        · rintro ⟨j, hij, hjN, hj⟩
          rcases Nat.eq_or_lt_of_le hij with rfl | hlt
          · exact absurd ((holdsPair_eq_true_iff b key value cmp i).1 hj) hd
          · exact ⟨j, hlt, hjN, hj⟩
        · rintro ⟨j, hij, hjN, hj⟩
          exact ⟨j, by omega, hjN, hj⟩
      by_cases hr : IsReadable b i = false
      · rw [if_pos hr]
        have hnew := firstFree_succ_of_free hiN hpos hr
        by_cases ho : IsOccupied b i = false
        · rw [if_pos ho]
          constructor
          · simp only [reduceCtorEq, false_iff, not_exists, not_and]
            intro j hij hjN hj
            have hrj := ((holdsPair_eq_true_iff b key value cmp j).1 hj).1
            have := not_readable_of_not_occupied h1 h2 hij hjN ho
            rw [this] at hrj; cases hrj
          · intro p hp
            simp only [Option.some.injEq] at hp
            subst hp
            right
            exact ⟨by omega, hnew.2.1, hnew.2.2⟩
        · rw [if_neg ho]
          have := ih (i + 1) (if pos = N then i else pos) (by omega) (Or.inr hnew)
          exact ⟨this.1.trans hshift.symm, this.2⟩
      · rw [if_neg hr]
        have hr' : IsReadable b i = true := by simpa using hr
        have := ih (i + 1) pos (by omega) (firstFree_succ_of_readable hpos hr')
        exact ⟨this.1.trans hshift.symm, this.2⟩

theorem Insert_cases [DecidableEq V] {N : Nat} {b : HashTableBucketPage K V} (key : K)
    (value : V) (cmp : K → K → Int)
    (h1 : ReadableImpliesOccupied N b) (h2 : OccupiedContiguous N b) :
    (Insert N b key value cmp = (false, b) ∧
      ((∃ j, j < N ∧ holdsPair b key value cmp j = true) ∨
        ∀ j, j < N → IsReadable b j = true)) ∨
    (∃ pos, pos < N ∧ IsReadable b pos = false ∧ (∀ j, j < pos → IsReadable b j = true) ∧
      (¬ ∃ j, j < N ∧ holdsPair b key value cmp j = true) ∧
      Insert N b key value cmp = (true, stored b pos key value)) := by
  have spec := Insert_loop_spec key value cmp h1 h2 N 0 N (by simp) (Or.inl ⟨rfl, by simp⟩)
  cases hl : Insert.loop N b key value cmp N 0 N with
  | none =>
    left
    obtain ⟨j, _, hjN, hj⟩ := spec.1.1 hl
    exact ⟨by simp [Insert, hl], Or.inl ⟨j, hjN, hj⟩⟩
  | some p =>
    have hnodup : ¬ ∃ j, j < N ∧ holdsPair b key value cmp j = true := by
      rintro ⟨j, hjN, hj⟩
      have := spec.1.2 ⟨j, Nat.zero_le _, hjN, hj⟩
      rw [hl] at this; cases this
    rcases spec.2 p hl with ⟨hp, hall⟩ | ⟨hp, hfree, hall⟩
    · left
      exact ⟨by simp [Insert, hl, hp], Or.inr hall⟩
    · right
      have hne : p ≠ N := by omega
      exact ⟨p, hp, hfree, hall, hnodup, by simp [Insert, hl, hne, stored]⟩

theorem IsReadable_stored (b : HashTableBucketPage K V) (pos : Nat) (key : K) (value : V)
    (j : Nat) : IsReadable (stored b pos key value) j = (IsReadable b j || decide (j = pos)) := by
  unfold stored
  rw [IsReadable_SetReadable, IsReadable_SetOccupied]
  rfl

theorem IsOccupied_stored (b : HashTableBucketPage K V) (pos : Nat) (key : K) (value : V)
    (j : Nat) : IsOccupied (stored b pos key value) j = (IsOccupied b j || decide (j = pos)) := by
  unfold stored
  rw [IsOccupied_SetReadable, IsOccupied_SetOccupied]
  rfl

theorem array_stored (b : HashTableBucketPage K V) (pos : Nat) (key : K) (value : V) :
    (stored b pos key value).array_ = Function.update b.array_ pos (key, value) := rfl

theorem stored_invariants {N : Nat} {b : HashTableBucketPage K V} {pos : Nat} (key : K)
    (value : V) (h1 : ReadableImpliesOccupied N b) (h2 : OccupiedContiguous N b)
    (hpos : pos < N) (hall : ∀ j, j < pos → IsReadable b j = true) :
    ReadableImpliesOccupied N (stored b pos key value) ∧
      OccupiedContiguous N (stored b pos key value) := by
  constructor
  · intro i hi hr
    rw [IsReadable_stored] at hr
    rw [IsOccupied_stored]
    rcases Bool.or_eq_true_iff.1 hr with h | h
    · rw [h1 i hi h]; rfl
    · rw [h]; simp
  · intro i hi j hji ho
    rw [IsOccupied_stored] at ho
    rw [IsOccupied_stored]
    rcases Bool.or_eq_true_iff.1 ho with h | h
    · rw [h2 i hi j hji h]; rfl
    · have hip : i = pos := by simpa using h
      subst hip
      rw [h1 j (by omega) (hall j hji)]; rfl

/-- C6: on a bucket page that satisfies the data-model invariants, with a comparator
for which `cmp(k,k) == 0`, if `Insert(k,v,cmp)` returns true then `GetValue(k,cmp)` on
the page after the insert returns true and its result vector contains `v`. -/
theorem C6_insert_then_getvalue_contains [DecidableEq V] (N : Nat) (b : HashTableBucketPage K V)
    (k : K) (v : V) (cmp : K → K → Int) (result : List V)
    (h1 : ReadableImpliesOccupied N b) (h2 : OccupiedContiguous N b) (hcmp : cmp k k = 0)
    (hins : (Insert N b k v cmp).1 = true) :
    (GetValue N (Insert N b k v cmp).2 k cmp result).1 = true ∧
      v ∈ (GetValue N (Insert N b k v cmp).2 k cmp result).2 := by
  rcases Insert_cases k v cmp h1 h2 with ⟨hf, _⟩ | ⟨pos, hpos, _, hall, _, hI⟩
  · rw [hf] at hins; cases hins
  · rw [hI]
    obtain ⟨h1', h2'⟩ := stored_invariants k v h1 h2 hpos hall
    have hG := GetValue_loop_eq k cmp h1' h2' N 0 false result (by simp)
    have hmem : pos ∈ (List.range' 0 N).filter (matchesKey (stored b pos k v) k cmp) := by
      rw [List.mem_filter, List.mem_range'_1, matchesKey_eq_true_iff, IsReadable_stored,
        array_stored]
      simp [hpos, hcmp]
    unfold GetValue
    rw [hG]
    constructor
    · simp only [Bool.false_or, Bool.not_eq_true', List.isEmpty_eq_false]
      exact List.ne_nil_of_mem hmem
    · apply List.mem_append_right
      rw [List.mem_map]
      exact ⟨pos, hmem, by simp [array_stored]⟩

theorem examplePage_invariants :
    ReadableImpliesOccupied 4 examplePage ∧ OccupiedContiguous 4 examplePage := by
  unfold ReadableImpliesOccupied OccupiedContiguous
  decide

theorem C6_insert_then_getvalue_contains_witness :
    (ReadableImpliesOccupied 4 examplePage ∧ OccupiedContiguous 4 examplePage ∧
      intCmp 12 12 = 0 ∧ (Insert 4 examplePage 12 7 intCmp).1 = true) ∧
    ((GetValue 4 (Insert 4 examplePage 12 7 intCmp).2 12 intCmp []).1 = true ∧
      7 ∈ (GetValue 4 (Insert 4 examplePage 12 7 intCmp).2 12 intCmp []).2) :=
  ⟨⟨examplePage_invariants.1, examplePage_invariants.2, by decide, by decide⟩,
   C6_insert_then_getvalue_contains 4 examplePage 12 7 intCmp []
     examplePage_invariants.1 examplePage_invariants.2 (by decide) (by decide)⟩

/-- C7: on a bucket page that satisfies the data-model invariants, `GetValue` appends
to the caller's vector the values of exactly the slots `i < N` that are readable and
whose key compares equal to the key, in increasing slot order, and returns true iff it
appended at least one value; it has no page as output, as it writes to none. -/
theorem C7_getvalue_collects_live_matches (N : Nat) (b : HashTableBucketPage K V) (key : K)
    (cmp : K → K → Int) (result : List V)
    (h1 : ReadableImpliesOccupied N b) (h2 : OccupiedContiguous N b) :
    GetValue N b key cmp result =
      (!((List.range N).filter
          (fun i => IsReadable b i && decide (cmp (b.array_ i).1 key = 0))).isEmpty,
       result ++ ((List.range N).filter
          (fun i => IsReadable b i && decide (cmp (b.array_ i).1 key = 0))).map
            (fun i => (b.array_ i).2)) := by
  unfold GetValue
  rw [GetValue_loop_eq key cmp h1 h2 N 0 false result (by simp), List.range_eq_range']
  simp only [Bool.false_or]
  rfl

theorem C7_getvalue_collects_live_matches_witness :
    (ReadableImpliesOccupied 4 examplePage ∧ OccupiedContiguous 4 examplePage) ∧
    GetValue 4 examplePage 10 intCmp [1] =
      (!((List.range 4).filter
          (fun i => IsReadable examplePage i &&
            decide (intCmp (examplePage.array_ i).1 10 = 0))).isEmpty,
       [1] ++ ((List.range 4).filter
          (fun i => IsReadable examplePage i &&
            decide (intCmp (examplePage.array_ i).1 10 = 0))).map
            (fun i => (examplePage.array_ i).2)) :=
  ⟨examplePage_invariants,
   C7_getvalue_collects_live_matches 4 examplePage 10 intCmp [1]
     examplePage_invariants.1 examplePage_invariants.2⟩

/-- C8: on a bucket page that satisfies the data-model invariants, `Insert(k,v,cmp)`
returns false exactly when some readable slot below `N` holds a pair whose key compares
equal to `k` and whose value equals `v`, or every slot below `N` is readable; in every
other case it returns true. Nothing is assumed about bitmap bits beyond slot `N-1`. -/
theorem C8_insert_fails_iff_duplicate_or_full [DecidableEq V] (N : Nat)
    (b : HashTableBucketPage K V) (k : K) (v : V) (cmp : K → K → Int)
    (h1 : ReadableImpliesOccupied N b) (h2 : OccupiedContiguous N b) :
    (Insert N b k v cmp).1 = false ↔
      ((∃ i, i < N ∧ IsReadable b i = true ∧ cmp (b.array_ i).1 k = 0 ∧ (b.array_ i).2 = v) ∨
        ∀ i, i < N → IsReadable b i = true) := by
  have hdup : (∃ i, i < N ∧ IsReadable b i = true ∧ cmp (b.array_ i).1 k = 0 ∧
      (b.array_ i).2 = v) ↔ ∃ j, j < N ∧ holdsPair b k v cmp j = true := by
    constructor
    · rintro ⟨i, hi, h⟩
      exact ⟨i, hi, (holdsPair_eq_true_iff b k v cmp i).2 h⟩
    · rintro ⟨i, hi, h⟩
      exact ⟨i, hi, (holdsPair_eq_true_iff b k v cmp i).1 h⟩
  rw [hdup]
  rcases Insert_cases k v cmp h1 h2 with ⟨hf, hor⟩ | ⟨pos, hpos, hfree, _, hnodup, hI⟩
  · rw [hf]
    exact ⟨fun _ => hor, fun _ => rfl⟩
  · rw [hI]
    constructor
    · intro h; cases h
    · rintro (h | h)
      · exact absurd h hnodup
      · have := h pos hpos
        rw [hfree] at this; cases this

theorem C8_insert_fails_iff_duplicate_or_full_witness :
    (ReadableImpliesOccupied 4 examplePage ∧ OccupiedContiguous 4 examplePage) ∧
    ((Insert 4 examplePage 10 120 intCmp).1 = false ↔
      ((∃ i, i < 4 ∧ IsReadable examplePage i = true ∧
          intCmp (examplePage.array_ i).1 10 = 0 ∧ (examplePage.array_ i).2 = 120) ∨
        ∀ i, i < 4 → IsReadable examplePage i = true)) :=
  ⟨examplePage_invariants,
   C8_insert_fails_iff_duplicate_or_full 4 examplePage 10 120 intCmp
     examplePage_invariants.1 examplePage_invariants.2⟩

theorem Remove_loop_absent [DecidableEq V] (b : HashTableBucketPage K V) (key : K) (value : V)
    (cmp : K → K → Int) :
    ∀ (fuel i : Nat), (∀ j, i ≤ j → j < i + fuel → holdsPair b key value cmp j = false) →
      Remove.loop b key value cmp fuel i = (false, b) := by
  intro fuel
  induction fuel with
  | zero => intro i _; rfl
  | succ fuel ih =>
    intro i habs
    rw [Remove.loop]
    have hi : ¬ (IsReadable b i = true ∧ cmp (b.array_ i).1 key = 0 ∧ (b.array_ i).2 = value) := by
      rw [← holdsPair_eq_true_iff, habs i (le_refl _) (by omega)]
      simp
    rw [if_neg hi]
    by_cases ho : IsOccupied b i = false
    · rw [if_pos ho]
    · rw [if_neg ho]
      exact ih (i + 1) (fun j h1 h2 => habs j (by omega) (by omega))

theorem Remove_loop_present [DecidableEq V] {N : Nat} {b : HashTableBucketPage K V} (key : K)
    (value : V) (cmp : K → K → Int)
    (h1 : ReadableImpliesOccupied N b) (h2 : OccupiedContiguous N b) {m : Nat} (hm : m < N)
    (hpair : holdsPair b key value cmp m = true) :
    ∀ (fuel i : Nat), i + fuel = N → i ≤ m →
      (∀ j, i ≤ j → j < m → holdsPair b key value cmp j = false) →
      Remove.loop b key value cmp fuel i = (true, SetUnreadable b m) := by
  have hom : IsOccupied b m = true :=
    h1 m hm ((holdsPair_eq_true_iff b key value cmp m).1 hpair).1
  intro fuel
  induction fuel with
  | zero => intro i hN him _; omega
  | succ fuel ih =>
    intro i hN him hmin
    rw [Remove.loop]
    rcases Nat.eq_or_lt_of_le him with rfl | hlt
    · rw [if_pos ((holdsPair_eq_true_iff b key value cmp i).1 hpair)]
    · have hi : ¬ (IsReadable b i = true ∧ cmp (b.array_ i).1 key = 0 ∧
          (b.array_ i).2 = value) := by
        rw [← holdsPair_eq_true_iff, hmin i (le_refl _) hlt]
        simp
      have ho : ¬ IsOccupied b i = false := by
        rw [h2 m hm i hlt hom]; simp
      rw [if_neg hi, if_neg ho]
      exact ih (i + 1) (by omega) hlt (fun j hj1 hj2 => hmin j (by omega) hj2)

/-- C9: on a bucket page that satisfies the data-model invariants, if some readable
slot below `N` holds a pair with key comparing equal to `k` and value equal to `v`,
then `Remove(k,v,cmp)` returns true and clears the readable bit of the lowest such
slot only: the occupied bitmap (with that slot's occupied bit, which stays 1), the
slot array, every other readable bit and every other byte of the readable bitmap are
as before. -/
theorem C9_remove_present_clears_one_readable_bit [DecidableEq V] (N : Nat)
    (b : HashTableBucketPage K V) (k : K) (v : V) (cmp : K → K → Int)
    (h1 : ReadableImpliesOccupied N b) (h2 : OccupiedContiguous N b)
    (hex : ∃ i, i < N ∧ IsReadable b i = true ∧ cmp (b.array_ i).1 k = 0 ∧
      (b.array_ i).2 = v) :
    (Remove N b k v cmp).1 = true ∧
    ∃ m, m < N ∧
      (IsReadable b m = true ∧ cmp (b.array_ m).1 k = 0 ∧ (b.array_ m).2 = v) ∧
      (∀ j, j < m →
        ¬ (IsReadable b j = true ∧ cmp (b.array_ j).1 k = 0 ∧ (b.array_ j).2 = v)) ∧
      IsReadable (Remove N b k v cmp).2 m = false ∧
      IsOccupied (Remove N b k v cmp).2 m = true ∧
      (∀ j, j ≠ m → IsReadable (Remove N b k v cmp).2 j = IsReadable b j) ∧
      (∀ x, x ≠ m / 8 → (Remove N b k v cmp).2.readable_ x = b.readable_ x) ∧
      (Remove N b k v cmp).2.occupied_ = b.occupied_ ∧
      (Remove N b k v cmp).2.array_ = b.array_ := by
  classical
  have hex' : ∃ i, i < N ∧ holdsPair b k v cmp i = true := by
    obtain ⟨i, hi, h⟩ := hex
    exact ⟨i, hi, (holdsPair_eq_true_iff b k v cmp i).2 h⟩
  have hm := Nat.find_spec hex'
  have hmin : ∀ j, j < Nat.find hex' → holdsPair b k v cmp j = false := by
    intro j hj
    have := Nat.find_min hex' hj
    have hjN : j < N := by omega
    simpa [hjN] using this
  have hR : Remove N b k v cmp = (true, SetUnreadable b (Nat.find hex')) :=
    Remove_loop_present k v cmp h1 h2 hm.1 hm.2 N 0 (by simp) (Nat.zero_le _)
      (fun j _ hj => hmin j hj)
  rw [hR]
  refine ⟨rfl, Nat.find hex', hm.1, (holdsPair_eq_true_iff b k v cmp _).1 hm.2, ?_, ?_, ?_,
    ?_, ?_, rfl, rfl⟩
  · intro j hj
    rw [← holdsPair_eq_true_iff, hmin j hj]
    simp
  · rw [IsReadable_SetUnreadable]; simp
  · rw [IsOccupied_SetUnreadable]
    exact h1 _ hm.1 ((holdsPair_eq_true_iff b k v cmp _).1 hm.2).1
  · intro j hj
    rw [IsReadable_SetUnreadable]; simp [hj]
  · intro x hx
    show Function.update b.readable_ _ _ x = _
    rw [Function.update_noteq hx]

theorem C9_remove_present_clears_one_readable_bit_witness :
    (ReadableImpliesOccupied 4 examplePage ∧ OccupiedContiguous 4 examplePage ∧
      ∃ i, i < 4 ∧ IsReadable examplePage i = true ∧
        intCmp (examplePage.array_ i).1 10 = 0 ∧ (examplePage.array_ i).2 = 120) ∧
    (Remove 4 examplePage 10 120 intCmp).1 = true :=
  ⟨⟨examplePage_invariants.1, examplePage_invariants.2, 2, by decide⟩,
   (C9_remove_present_clears_one_readable_bit 4 examplePage 10 120 intCmp
     examplePage_invariants.1 examplePage_invariants.2 ⟨2, by decide⟩).1⟩

/-- C10: on any bucket page, if no readable slot below `N` holds a pair with key
comparing equal to `k` and value equal to `v`, then `Remove(k,v,cmp)` returns false and
the page after the call is the page before it, readable bitmap included. -/
theorem C10_remove_absent_returns_false_unchanged [DecidableEq V] (N : Nat)
    (b : HashTableBucketPage K V) (k : K) (v : V) (cmp : K → K → Int)
    (habs : ∀ i, i < N →
      ¬ (IsReadable b i = true ∧ cmp (b.array_ i).1 k = 0 ∧ (b.array_ i).2 = v)) :
    Remove N b k v cmp = (false, b) := by
  unfold Remove
  apply Remove_loop_absent
  intro j _ hj
  have := habs j (by omega)
  rw [← holdsPair_eq_true_iff] at this
  simpa using this

theorem C10_remove_absent_returns_false_unchanged_witness :
    (∀ i, i < 4 →
      ¬ (IsReadable examplePage i = true ∧ intCmp (examplePage.array_ i).1 11 = 0 ∧
        (examplePage.array_ i).2 = 110)) ∧
    Remove 4 examplePage 11 110 intCmp = (false, examplePage) :=
  ⟨by decide,
   C10_remove_absent_returns_false_unchanged 4 examplePage 11 110 intCmp (by decide)⟩

theorem countBits_shift (fuel : Nat) :
    ∀ (n cnt : Nat), NumReadable.countBits fuel n cnt
      = (NumReadable.countBits fuel n 0).map (fun c => c + cnt) := by
  induction fuel with
  | zero =>
    intro n cnt
    by_cases h : n = 0 <;> simp [NumReadable.countBits, h]
  | succ fuel ih =>
    intro n cnt
    by_cases h : n = 0
    · simp [NumReadable.countBits, h]
    · simp only [NumReadable.countBits, ne_eq, h, not_false_eq_true, if_true]
      rw [ih _ (cnt + 1), ih _ (0 + 1), Option.map_map]
      congr 1
      funext c
      simp only [Function.comp_apply]
      omega

set_option maxRecDepth 100000 in
theorem countBits_byte_zero : ∀ n, n < 256 →
    NumReadable.countBits 8 n 0
      = some ((List.range 8).filter (fun j => n.testBit j)).length := by
  decide

theorem countBits_byte (n cnt : Nat) (h : n < 256) :
    NumReadable.countBits 8 n cnt
      = some (cnt + ((List.range 8).filter (fun j => n.testBit j)).length) := by
  rw [countBits_shift, countBits_byte_zero n h]
  simp [Nat.add_comm]

theorem readable_byte_count (b : HashTableBucketPage K V) (i : Nat) :
    ((List.range' (8 * i) 8).filter (IsReadable b)).length
      = ((List.range 8).filter (fun j => (b.readable_ i % 256).testBit j)).length := by
  rw [List.range'_eq_map_range, List.filter_map, List.length_map]
  congr 1
  apply List.filter_congr
  intro j hj
  have hj8 : j < 8 := List.mem_range.1 hj
  have h256 : (256 : Nat) = 2 ^ 8 := by norm_num
  simp only [Function.comp_apply]
  rw [IsReadable_eq, h256, Nat.testBit_mod_two_pow]
  have h1 : (8 * i + j) / 8 = i := by omega
  have h2 : (8 * i + j) % 8 = j := by omega
  rw [h1, h2]
  simp [hj8]

theorem NumReadable_loop_eq (b : HashTableBucketPage K V) (fuel : Nat) :
    ∀ (i cnt : Nat), NumReadable.loop b fuel i cnt
      = some (cnt + ((List.range' (8 * i) (8 * fuel)).filter (IsReadable b)).length) := by
  induction fuel with
  | zero => intro i cnt; simp [NumReadable.loop]
  | succ fuel ih =>
    intro i cnt
    have hlt : b.readable_ i % 256 < 256 := Nat.mod_lt _ (by norm_num)
    have hsplit : List.range' (8 * i) (8 * (fuel + 1))
        = List.range' (8 * i) 8 ++ List.range' (8 * (i + 1)) (8 * fuel) := by
      have := List.range'_append_1 (8 * i) 8 (8 * fuel)
      rw [show 8 * i + 8 = 8 * (i + 1) by ring] at this
      rw [this]
      congr 1
    rw [NumReadable.loop, countBits_byte _ _ hlt]
    simp only
    rw [ih, hsplit, List.filter_append, List.length_append, readable_byte_count]
    congr 1
    omega

theorem NumReadable_eq (N : Nat) (b : HashTableBucketPage K V) :
    NumReadable N b = some (readableCount b (8 * ((N - 1) / 8 + 1))) := by
  unfold NumReadable readableCount
  rw [NumReadable_loop_eq, List.range_eq_range']
  simp

theorem readableCount_eq_of_clear (b : HashTableBucketPage K V) {N M : Nat} (h : N ≤ M)
    (hclear : ∀ i, N ≤ i → i < M → IsReadable b i = false) :
    readableCount b M = readableCount b N := by
  unfold readableCount
  obtain ⟨d, rfl⟩ := Nat.exists_eq_add_of_le h
  rw [List.range_add, List.filter_append, List.length_append]
  have : ((List.range d).map (fun x => N + x)).filter (IsReadable b) = [] := by
    rw [List.filter_eq_nil_iff]
    intro a ha
    obtain ⟨x, hx, rfl⟩ := List.mem_map.1 ha
    have hx' := List.mem_range.1 hx
    rw [hclear (N + x) (by omega) (by omega)]
    simp
  rw [this]
  simp

theorem readableCount_le (b : HashTableBucketPage K V) (N : Nat) : readableCount b N ≤ N := by
  unfold readableCount
  have := List.length_filter_le (IsReadable b) (List.range N)
  simpa using this

/-- C11, as the code has it: for a capacity `N ≥ 1`, `NumReadable()` returns the number
of bit positions below `8 * ceil(N / 8)` whose readable bit is set, i.e. it counts every
bit of every bitmap byte without masking the final partial byte; when no readable bit
is set at a position from `N` on, this is the number of slots `i < N` whose readable
bit is set, and then `NumReadable() ≤ N`. -/
theorem C11_numreadable_counts_all_bits_of_the_bytes (N : Nat) (b : HashTableBucketPage K V)
    (hN : 0 < N) :
    NumReadable N b = some (readableCount b (8 * ((N - 1) / 8 + 1))) ∧
    ((∀ i, N ≤ i → i < 8 * ((N - 1) / 8 + 1) → IsReadable b i = false) →
      NumReadable N b = some (readableCount b N) ∧ readableCount b N ≤ N) := by
  refine ⟨NumReadable_eq N b, ?_⟩
  intro hclear
  have hle : N ≤ 8 * ((N - 1) / 8 + 1) := by omega
  rw [NumReadable_eq, readableCount_eq_of_clear b hle hclear]
  exact ⟨rfl, readableCount_le b N⟩

theorem C11_numreadable_counts_all_bits_of_the_bytes_witness :
    0 < 4 ∧
    (NumReadable 4 examplePage = some (readableCount examplePage (8 * ((4 - 1) / 8 + 1))) ∧
    ((∀ i, 4 ≤ i → i < 8 * ((4 - 1) / 8 + 1) → IsReadable examplePage i = false) →
      NumReadable 4 examplePage = some (readableCount examplePage 4) ∧
        readableCount examplePage 4 ≤ 4)) :=
  ⟨by decide, C11_numreadable_counts_all_bits_of_the_bytes 4 examplePage (by decide)⟩

/-- C11 as stated fails: on a page of capacity 4 whose readable byte is `0x1F`,
`NumReadable()` returns 5, while 4 slots below `N = 4` have their readable bit set,
and 5 exceeds the capacity. -/
theorem C11_numreadable_unmasked_counterexample :
    NumReadable 4 strayBitPage = some 5 ∧ readableCount strayBitPage 4 = 4 ∧
      ¬ (NumReadable 4 strayBitPage = some (readableCount strayBitPage 4)) ∧
      ¬ (∃ n, NumReadable 4 strayBitPage = some n ∧ n ≤ 4) := by
  decide

theorem byte_eq_iff_testBit (x y : Nat) :
    x % 256 = y % 256 ↔ ∀ j, j < 8 → x.testBit j = y.testBit j := by
  have h256 : (256 : Nat) = 2 ^ 8 := by norm_num
  rw [h256]
  constructor
  · intro h j hj
    have := congrArg (fun z => Nat.testBit z j) h
    simp only [Nat.testBit_mod_two_pow] at this
    simpa [hj] using this
  · intro h
    apply Nat.eq_of_testBit_eq
    intro j
    rw [Nat.testBit_mod_two_pow, Nat.testBit_mod_two_pow]
    by_cases hj : j < 8
    · simp [hj, h j hj]
    · simp [hj]

theorem IsFull_loop_iff (b : HashTableBucketPage K V) (fuel : Nat) :
    ∀ i, IsFull.loop b fuel i = true ↔
      ∀ j, i ≤ j → j < i + fuel → b.readable_ j % 256 = 255 := by
  induction fuel with
  | zero =>
    intro i
    simp only [IsFull.loop, true_iff]
    intro j h1 h2; omega
  | succ fuel ih =>
    intro i
    rw [IsFull.loop]
    by_cases h : b.readable_ i % 256 = 255
    · rw [if_neg (by simpa using h), ih]
      constructor
      · intro hall j h1 h2
        rcases Nat.eq_or_lt_of_le h1 with rfl | hlt
        · exact h
        · exact hall j hlt (by omega)
      · intro hall j h1 h2
        exact hall j (by omega) (by omega)
    · rw [if_pos (by simpa using h)]
      simp only [Bool.false_eq_true, false_iff, not_forall]
      exact ⟨i, le_refl _, by omega, h⟩

theorem byte_full_iff (b : HashTableBucketPage K V) (i : Nat) :
    b.readable_ i % 256 = 255 ↔ ∀ j, j < 8 → IsReadable b (8 * i + j) = true := by
  have h255 : (255 : Nat) = 255 % 256 := by norm_num
  have hbits : ∀ j, j < 8 → (255 : Nat).testBit j = true := by decide
  rw [h255, byte_eq_iff_testBit]
  constructor
  · intro h j hj
    rw [IsReadable_eq]
    have h1 : (8 * i + j) / 8 = i := by omega
    have h2 : (8 * i + j) % 8 = j := by omega
    rw [h1, h2, h j hj, hbits j hj]
  · intro h j hj
    have := h j hj
    rw [IsReadable_eq] at this
    have h1 : (8 * i + j) / 8 = i := by omega
    have h2 : (8 * i + j) % 8 = j := by omega
    rw [h1, h2] at this
    rw [this, hbits j hj]

theorem last_byte_iff (b : HashTableBucketPage K V) (i r : Nat) :
    b.readable_ i % 256 = ((1 <<< r) - 1) % 256 ↔
      ∀ j, j < 8 → IsReadable b (8 * i + j) = decide (j < r) := by
  rw [byte_eq_iff_testBit, Nat.one_shiftLeft]
  have key : ∀ j, j < 8 → IsReadable b (8 * i + j) = (b.readable_ i).testBit j := by
    intro j hj
    rw [IsReadable_eq]
    have h1 : (8 * i + j) / 8 = i := by omega
    have h2 : (8 * i + j) % 8 = j := by omega
    rw [h1, h2]
  constructor
  · intro h j hj
    rw [key j hj, h j hj, Nat.testBit_two_pow_sub_one]
  · intro h j hj
    rw [← key j hj, h j hj, Nat.testBit_two_pow_sub_one]

theorem IsFull_eq_false_of_free {N : Nat} (b : HashTableBucketPage K V) {i : Nat}
    (hi : i < N) (hfree : IsReadable b i = false) : IsFull N b = false := by
  unfold IsFull
  by_cases hl : IsFull.loop b (N / 8) 0 = false
  · rw [if_pos hl]
  · rw [if_neg hl]
    have hl' : IsFull.loop b (N / 8) 0 = true := by simpa using hl
    rw [IsFull_loop_iff] at hl'
    have hbyte : ¬ i / 8 < N / 8 := by
      intro hlt
      have := (byte_full_iff b (i / 8)).1 (hl' (i / 8) (Nat.zero_le _) (by omega)) (i % 8)
        (Nat.mod_lt _ (by norm_num))
      rw [Nat.div_add_mod] at this
      rw [this] at hfree; cases hfree
    have hrest : N - N / 8 * 8 ≠ 0 := by omega
    have hidx : (N - 1) / 8 = i / 8 := by omega
    have hne : b.readable_ ((N - 1) / 8) % 256 ≠ ((1 <<< (N - N / 8 * 8)) - 1) % 256 := by
      intro heq
      rw [hidx] at heq
      have := (last_byte_iff b (i / 8) (N - N / 8 * 8)).1 heq (i % 8)
        (Nat.mod_lt _ (by norm_num))
      rw [Nat.div_add_mod, hfree] at this
      have hlt : i % 8 < N - N / 8 * 8 := by omega
      simp [hlt] at this
    simp [hrest, hne]

theorem IsFull_eq_true_of_full {N : Nat} (b : HashTableBucketPage K V) (hN : 0 < N)
    (hall : ∀ i, i < N → IsReadable b i = true)
    (hclear : ∀ i, N ≤ i → i < 8 * ((N - 1) / 8 + 1) → IsReadable b i = false) :
    IsFull N b = true := by
  unfold IsFull
  have hl : IsFull.loop b (N / 8) 0 = true := by
    rw [IsFull_loop_iff]
    intro j _ hj
    rw [byte_full_iff]
    intro x hx
    exact hall _ (by omega)
  rw [if_neg (by simp [hl])]
  by_cases hrest : N - N / 8 * 8 = 0
  · simp [hrest]
  · have hidx : (N - 1) / 8 = N / 8 := by omega
    have heq : b.readable_ ((N - 1) / 8) % 256 = ((1 <<< (N - N / 8 * 8)) - 1) % 256 := by
      rw [last_byte_iff b _ _]
      intro j hj
      by_cases hjr : j < N - N / 8 * 8
      · rw [hall _ (by omega)]; simp [hjr]
      · rw [hclear _ (by omega) (by omega)]; simp [hjr]
    simp [heq]

theorem IsReadable_zeroPage (a : Nat → K × V) (i : Nat) : IsReadable (zeroPage a) i = false := by
  rw [IsReadable_eq]; simp [zeroPage]

theorem IsOccupied_zeroPage (a : Nat → K × V) (i : Nat) : IsOccupied (zeroPage a) i = false := by
  rw [IsOccupied_eq]; simp [zeroPage]

theorem filledTo_zeroPage (a : Nat → K × V) : FilledTo 0 [] (zeroPage a) := by
  refine ⟨?_, ?_, ?_⟩
  · intro i; rw [IsReadable_zeroPage]; simp
  · intro i; rw [IsOccupied_zeroPage]; simp
  · intro i hi; omega

theorem FilledTo.invariants {k : Nat} {l : List (K × V)} {b : HashTableBucketPage K V}
    (h : FilledTo k l b) (N : Nat) :
    ReadableImpliesOccupied N b ∧ OccupiedContiguous N b := by
  constructor
  · intro i _ hr
    rw [h.1] at hr
    rw [h.2.1]; exact hr
  · intro i _ j hji ho
    rw [h.2.1] at ho ⊢
    have : i < k := by simpa using ho
    simp; omega

theorem FilledTo.insert [DecidableEq V] {N k : Nat} {l : List (K × V)}
    {b : HashTableBucketPage K V} (cmp : K → K → Int) (h : FilledTo k l b) (hk : k < N)
    (kv : K × V) (hnew : ∀ p ∈ l, cmp p.1 kv.1 ≠ 0) :
    Insert N b kv.1 kv.2 cmp = (true, stored b k kv.1 kv.2) ∧
      FilledTo (k + 1) (l ++ [kv]) (stored b k kv.1 kv.2) := by
  obtain ⟨h1, h2⟩ := h.invariants N
  constructor
  · rcases Insert_cases kv.1 kv.2 cmp h1 h2 with ⟨_, hor⟩ | ⟨pos, hpos, hfree, hall, _, hI⟩
    · exfalso
      rcases hor with ⟨j, hj, hp⟩ | hfull
      · have hp' := (holdsPair_eq_true_iff b kv.1 kv.2 cmp j).1 hp
        have hjk : j < k := by
          have := hp'.1
          rw [h.1] at this
          simpa using this
        exact hnew _ (h.2.2 j hjk) hp'.2.1
      · have := hfull k hk
        rw [h.1] at this
        simp at this
    · have hge : k ≤ pos := by
        rw [h.1] at hfree
        simpa using hfree
      have hle : pos ≤ k := by
        by_contra hgt
        have := hall k (by omega)
        rw [h.1] at this
        simp at this
      have : pos = k := by omega
      subst this
      exact hI
  · refine ⟨?_, ?_, ?_⟩
    · intro i
      rw [IsReadable_stored, h.1]
      by_cases hi : i < k
      · have : i < k + 1 := by omega
        simp [hi, this]
      · by_cases hik : i = k
        · simp [hik]
        · have : ¬ i < k + 1 := by omega
          simp [hi, hik, this]
    · intro i
      rw [IsOccupied_stored, h.2.1]
      by_cases hi : i < k
      · have : i < k + 1 := by omega
        simp [hi, this]
      · by_cases hik : i = k
        · simp [hik]
        · have : ¬ i < k + 1 := by omega
          simp [hi, hik, this]
    · intro i hi
      rw [array_stored]
      by_cases hik : i = k
      · subst hik
        simp
      · rw [Function.update_noteq hik]
        exact List.mem_append_left _ (h.2.2 i (by omega))

theorem FilledTo.insertAll [DecidableEq V] {N : Nat} (cmp : K → K → Int) (kvs : List (K × V)) :
    ∀ {k : Nat} {l : List (K × V)} {b : HashTableBucketPage K V}, FilledTo k l b →
      k + kvs.length ≤ N → (l ++ kvs).Pairwise (fun p q => cmp p.1 q.1 ≠ 0) →
      insertFlags N cmp b kvs = List.replicate kvs.length true ∧
        FilledTo (k + kvs.length) (l ++ kvs) (HashTableBucketPage.insertAll N cmp b kvs) := by
  induction kvs with
  | nil =>
    intro k l b h _ _
    simpa [insertFlags, HashTableBucketPage.insertAll] using h
  | cons kv kvs ih =>
    intro k l b h hlen hpw
    simp only [List.length_cons] at hlen
    have hnew : ∀ p ∈ l, cmp p.1 kv.1 ≠ 0 := by
      intro p hp
      rw [List.pairwise_append] at hpw
      exact hpw.2.2 p hp kv (List.mem_cons_self _ _)
    obtain ⟨hI, hF⟩ := h.insert cmp (by omega : k < N) kv hnew
    have hpw' : ((l ++ [kv]) ++ kvs).Pairwise (fun p q => cmp p.1 q.1 ≠ 0) := by
      simpa using hpw
    obtain ⟨hfl, hF'⟩ := ih hF (by omega) hpw'
    constructor
    · simp only [insertFlags, hI, List.length_cons, List.replicate_succ]
      rw [hfl]
    · have e1 : k + (kv :: kvs).length = k + 1 + kvs.length := by
        simp only [List.length_cons]; omega
      have e2 : l ++ kv :: kvs = (l ++ [kv]) ++ kvs := by simp
      rw [e1, e2]
      simpa [HashTableBucketPage.insertAll, hI] using hF'

theorem FilledTo.readableCount {k : Nat} {l : List (K × V)} {b : HashTableBucketPage K V}
    (h : FilledTo k l b) : readableCount b k = k := by
  unfold HashTableBucketPage.readableCount
  have : (List.range k).filter (IsReadable b) = List.range k := by
    rw [List.filter_eq_self]
    intro i hi
    rw [h.1]
    simpa using List.mem_range.1 hi
  rw [this, List.length_range]

/-- C12: for every capacity `N ≥ 1`, starting from an all-zero bucket page, `N`
successive `Insert` calls whose keys are pairwise distinct for the comparator all
return true; after them `IsFull()` is true and `NumReadable()` is `N`; one more
`Insert`, of any pair, returns false; and after fewer than `N` of the inserts, so
before the `N`-th one, `IsFull()` is false. -/
theorem C12_filling_a_bucket [DecidableEq V] (N : Nat) (cmp : K → K → Int)
    (a : Nat → K × V) (kvs : List (K × V)) (hN : 0 < N) (hlen : kvs.length = N)
    (hdistinct : kvs.Pairwise (fun p q => cmp p.1 q.1 ≠ 0)) :
    insertFlags N cmp (zeroPage a) kvs = List.replicate N true ∧
    IsFull N (insertAll N cmp (zeroPage a) kvs) = true ∧
    NumReadable N (insertAll N cmp (zeroPage a) kvs) = some N ∧
    (∀ k v, (Insert N (insertAll N cmp (zeroPage a) kvs) k v cmp).1 = false) ∧
    (∀ m, m < N → IsFull N (insertAll N cmp (zeroPage a) (kvs.take m)) = false) := by
  obtain ⟨hfl, hF⟩ := FilledTo.insertAll (N := N) cmp kvs (filledTo_zeroPage a)
    (by omega) (by simpa using hdistinct)
  simp only [Nat.zero_add, List.nil_append, hlen] at hfl hF
  have hall : ∀ i, i < N → IsReadable (insertAll N cmp (zeroPage a) kvs) i = true := by
    intro i hi; rw [hF.1]; simpa using hi
  have hclear : ∀ i, N ≤ i → i < 8 * ((N - 1) / 8 + 1) →
      IsReadable (insertAll N cmp (zeroPage a) kvs) i = false := by
    intro i hi _; rw [hF.1]; simpa using hi
  refine ⟨hfl, IsFull_eq_true_of_full _ hN hall hclear, ?_, ?_, ?_⟩
  · rw [NumReadable_eq, readableCount_eq_of_clear _ (by omega) hclear, hF.readableCount]
  · intro k v
    obtain ⟨h1, h2⟩ := hF.invariants N
    rcases Insert_cases k v cmp h1 h2 with ⟨hf, _⟩ | ⟨pos, hpos, hfree, _, _, _⟩
    · rw [hf]
    · rw [hall pos hpos] at hfree; cases hfree
  · intro m hm
    have hpw : (kvs.take m).Pairwise (fun p q => cmp p.1 q.1 ≠ 0) :=
      hdistinct.sublist (List.take_sublist _ _)
    have hlen' : (kvs.take m).length = m := by
      rw [List.length_take]; omega
    obtain ⟨_, hF'⟩ := FilledTo.insertAll (N := N) cmp (kvs.take m) (filledTo_zeroPage a)
      (by omega) (by simpa using hpw)
    simp only [Nat.zero_add, List.nil_append, hlen'] at hF'
    apply IsFull_eq_false_of_free _ hm
    rw [hF'.1]; simp

theorem C12_filling_a_bucket_witness :
    (0 < 4 ∧ examplePairs.length = 4 ∧
      examplePairs.Pairwise (fun p q => intCmp p.1 q.1 ≠ 0)) ∧
    (insertFlags 4 intCmp exampleZero examplePairs = List.replicate 4 true ∧
     IsFull 4 (insertAll 4 intCmp exampleZero examplePairs) = true ∧
     NumReadable 4 (insertAll 4 intCmp exampleZero examplePairs) = some 4 ∧
     (∀ k v, (Insert 4 (insertAll 4 intCmp exampleZero examplePairs) k v intCmp).1 = false) ∧
     (∀ m, m < 4 → IsFull 4 (insertAll 4 intCmp exampleZero (examplePairs.take m)) = false)) :=
  ⟨⟨by decide, by decide, by decide⟩,
   C12_filling_a_bucket 4 intCmp (fun _ => (0, 0)) examplePairs
     (by decide) (by decide) (by decide)⟩

theorem Insert_result [DecidableEq V] (N : Nat) (b : HashTableBucketPage K V) (key : K)
    (value : V) (cmp : K → K → Int) :
    Insert N b key value cmp = (false, b) ∨
      ∃ pos, Insert N b key value cmp = (true, stored b pos key value) := by
  unfold Insert
  cases Insert.loop N b key value cmp N 0 N with
  | none => exact Or.inl rfl
  | some pos =>
    by_cases hp : pos = N
    · left; simp [hp]
    · right; exact ⟨pos, by simp [hp, stored]⟩

theorem Remove_loop_result [DecidableEq V] (b : HashTableBucketPage K V) (key : K) (value : V)
    (cmp : K → K → Int) (fuel : Nat) :
    ∀ i, Remove.loop b key value cmp fuel i = (false, b) ∨
      ∃ m, Remove.loop b key value cmp fuel i = (true, SetUnreadable b m) := by
  induction fuel with
  | zero => intro i; exact Or.inl rfl
  | succ fuel ih =>
    intro i
    rw [Remove.loop]
    by_cases hd : IsReadable b i = true ∧ cmp (b.array_ i).1 key = 0 ∧ (b.array_ i).2 = value
    · rw [if_pos hd]; exact Or.inr ⟨i, rfl⟩
    · rw [if_neg hd]
      by_cases ho : IsOccupied b i = false
      · rw [if_pos ho]; exact Or.inl rfl
      · rw [if_neg ho]; exact ih (i + 1)

theorem Remove_result [DecidableEq V] (N : Nat) (b : HashTableBucketPage K V) (key : K)
    (value : V) (cmp : K → K → Int) :
    Remove N b key value cmp = (false, b) ∨
      ∃ m, Remove N b key value cmp = (true, SetUnreadable b m) :=
  Remove_loop_result b key value cmp N 0

theorem subset_stored (b : HashTableBucketPage K V) (pos : Nat) (key : K) (value : V)
    (h : ∀ i, IsReadable b i = true → IsOccupied b i = true) :
    ∀ i, IsReadable (stored b pos key value) i = true →
      IsOccupied (stored b pos key value) i = true := by
  intro i hr
  rw [IsReadable_stored] at hr
  rw [IsOccupied_stored]
  rcases Bool.or_eq_true_iff.1 hr with h' | h'
  · rw [h i h']; rfl
  · rw [h']; simp

theorem subset_SetUnreadable (b : HashTableBucketPage K V) (m : Nat)
    (h : ∀ i, IsReadable b i = true → IsOccupied b i = true) :
    ∀ i, IsReadable (SetUnreadable b m) i = true → IsOccupied (SetUnreadable b m) i = true := by
  intro i hr
  rw [IsReadable_SetUnreadable] at hr
  rw [IsOccupied_SetUnreadable]
  exact h i (Bool.and_eq_true_iff.1 hr).1

theorem subset_applyOp [DecidableEq V] (N : Nat) (cmp : K → K → Int)
    (b : HashTableBucketPage K V) (op : BucketOp K V)
    (h : ∀ i, IsReadable b i = true → IsOccupied b i = true) :
    ∀ i, IsReadable (applyOp N cmp b op) i = true → IsOccupied (applyOp N cmp b op) i = true := by
  cases op with
  | insert key value =>
    rcases Insert_result N b key value cmp with hI | ⟨pos, hI⟩
    · simp only [applyOp, hI]; exact h
    · simp only [applyOp, hI]; exact subset_stored b pos key value h
  | remove key value =>
    rcases Remove_result N b key value cmp with hR | ⟨m, hR⟩
    · simp only [applyOp, hR]; exact h
    · simp only [applyOp, hR]; exact subset_SetUnreadable b m h
  | removeAt i => exact subset_SetUnreadable b i h

theorem exampleOps_removeAt_lt : ∀ idx, BucketOp.removeAt idx ∈ exampleOps → idx < 4 := by
  intro idx h
  simp only [exampleOps, List.mem_cons, BucketOp.removeAt.injEq, reduceCtorEq, false_or,
    List.mem_singleton, or_false, List.not_mem_nil] at h
  omega

theorem examplePage_readable_occupied :
    ∀ i, IsReadable examplePage i = true → IsOccupied examplePage i = true := by
  intro i hr
  by_cases hi : i < 8
  · revert hr
    interval_cases i <;> decide
  · have hdiv : i / 8 ≠ 0 := by omega
    simp [IsReadable, examplePage, hdiv] at hr

/-- C19: each of `Insert`, `Remove` and `RemoveAt` (on a slot index below `N`) preserves
"readable implies occupied" (at every bit position, so at every slot), the all-zero
page satisfies it, and so does every page reached from an all-zero page by any sequence
of these calls, the `RemoveAt` calls being on slot indexes below `N`. -/
theorem C19_readable_implies_occupied_is_invariant [DecidableEq V] (N : Nat)
    (cmp : K → K → Int) :
    (∀ (b : HashTableBucketPage K V) (k : K) (v : V),
      (∀ i, IsReadable b i = true → IsOccupied b i = true) →
      ∀ i, IsReadable (Insert N b k v cmp).2 i = true →
        IsOccupied (Insert N b k v cmp).2 i = true) ∧
    (∀ (b : HashTableBucketPage K V) (k : K) (v : V),
      (∀ i, IsReadable b i = true → IsOccupied b i = true) →
      ∀ i, IsReadable (Remove N b k v cmp).2 i = true →
        IsOccupied (Remove N b k v cmp).2 i = true) ∧
    (∀ (b : HashTableBucketPage K V) (idx : Nat), idx < N →
      (∀ i, IsReadable b i = true → IsOccupied b i = true) →
      ∀ i, IsReadable (RemoveAt b idx) i = true → IsOccupied (RemoveAt b idx) i = true) ∧
    (∀ (a : Nat → K × V) (ops : List (BucketOp K V)),
      (∀ idx, BucketOp.removeAt idx ∈ ops → idx < N) →
      ∀ i, IsReadable (applyOps N cmp (zeroPage a) ops) i = true →
        IsOccupied (applyOps N cmp (zeroPage a) ops) i = true) := by
  refine ⟨fun b k v h => subset_applyOp N cmp b (BucketOp.insert k v) h,
    fun b k v h => subset_applyOp N cmp b (BucketOp.remove k v) h,
    fun b idx _ h => subset_applyOp N cmp b (BucketOp.removeAt idx) h, ?_⟩
  intro a ops _
  have gen : ∀ (ops : List (BucketOp K V)) (b : HashTableBucketPage K V),
      (∀ i, IsReadable b i = true → IsOccupied b i = true) →
      ∀ i, IsReadable (applyOps N cmp b ops) i = true →
        IsOccupied (applyOps N cmp b ops) i = true := by
    intro ops
    induction ops with
    | nil => intro b h; exact h
    | cons op ops ih =>
      intro b h
      exact ih (applyOp N cmp b op) (subset_applyOp N cmp b op h)
  apply gen ops
  intro i hi
  rw [IsReadable_zeroPage] at hi; cases hi

theorem C19_readable_implies_occupied_is_invariant_witness :
    (1 < 4 ∧ (∀ i, IsReadable examplePage i = true → IsOccupied examplePage i = true) ∧
      ∀ idx, BucketOp.removeAt idx ∈ exampleOps → idx < 4) ∧
    ((∀ i, IsReadable (RemoveAt examplePage 1) i = true →
        IsOccupied (RemoveAt examplePage 1) i = true) ∧
     (∀ i, IsReadable (applyOps 4 intCmp exampleZero exampleOps) i = true →
        IsOccupied (applyOps 4 intCmp exampleZero exampleOps) i = true)) :=
  ⟨⟨by decide, examplePage_readable_occupied, exampleOps_removeAt_lt⟩,
   (C19_readable_implies_occupied_is_invariant 4 intCmp).2.2.1 examplePage 1 (by decide)
     examplePage_readable_occupied,
   (C19_readable_implies_occupied_is_invariant 4 intCmp).2.2.2 (fun _ => (0, 0)) exampleOps
     exampleOps_removeAt_lt⟩

theorem invariants_SetUnreadable {N : Nat} {b : HashTableBucketPage K V} (m : Nat)
    (h1 : ReadableImpliesOccupied N b) (h2 : OccupiedContiguous N b) :
    ReadableImpliesOccupied N (SetUnreadable b m) ∧ OccupiedContiguous N (SetUnreadable b m) := by
  constructor
  · intro i hi hr
    rw [IsReadable_SetUnreadable] at hr
    rw [IsOccupied_SetUnreadable]
    exact h1 i hi (Bool.and_eq_true_iff.1 hr).1
  · intro i hi j hji ho
    rw [IsOccupied_SetUnreadable] at ho ⊢
    exact h2 i hi j hji ho

theorem invariants_applyOp [DecidableEq V] {N : Nat} (cmp : K → K → Int)
    {b : HashTableBucketPage K V} (op : BucketOp K V)
    (h1 : ReadableImpliesOccupied N b) (h2 : OccupiedContiguous N b) :
    ReadableImpliesOccupied N (applyOp N cmp b op) ∧
      OccupiedContiguous N (applyOp N cmp b op) := by
  cases op with
  | insert key value =>
    rcases Insert_cases key value cmp h1 h2 with ⟨hf, _⟩ | ⟨pos, hpos, _, hall, _, hI⟩
    · simp only [applyOp, hf]; exact ⟨h1, h2⟩
    · simp only [applyOp, hI]; exact stored_invariants key value h1 h2 hpos hall
  | remove key value =>
    rcases Remove_result N b key value cmp with hR | ⟨m, hR⟩
    · simp only [applyOp, hR]; exact ⟨h1, h2⟩
    · simp only [applyOp, hR]; exact invariants_SetUnreadable m h1 h2
  | removeAt i => exact invariants_SetUnreadable i h1 h2

theorem invariants_applyOps [DecidableEq V] {N : Nat} (cmp : K → K → Int)
    (ops : List (BucketOp K V)) :
    ∀ {b : HashTableBucketPage K V}, ReadableImpliesOccupied N b → OccupiedContiguous N b →
      ReadableImpliesOccupied N (applyOps N cmp b ops) ∧
        OccupiedContiguous N (applyOps N cmp b ops) := by
  induction ops with
  | nil => intro b h1 h2; exact ⟨h1, h2⟩
  | cons op ops ih =>
    intro b h1 h2
    obtain ⟨h1', h2'⟩ := invariants_applyOp cmp op h1 h2
    exact ih h1' h2'

theorem invariants_zeroPage (N : Nat) (a : Nat → K × V) :
    ReadableImpliesOccupied N (zeroPage a) ∧ OccupiedContiguous N (zeroPage a) :=
  (filledTo_zeroPage a).invariants N

/-- C18: in every page reached from an all-zero page by a sequence of `Insert`,
`Remove` and `RemoveAt` calls, the `RemoveAt` calls being on slot indexes below `N`,
the occupied slots form a contiguous initial segment of the slot array, and no
readable slot lies at or after a never-occupied slot. -/
theorem C18_occupied_slots_stay_contiguous [DecidableEq V] (N : Nat) (cmp : K → K → Int)
    (a : Nat → K × V) (ops : List (BucketOp K V))
    (_hidx : ∀ idx, BucketOp.removeAt idx ∈ ops → idx < N) :
    (∀ i, i < N → ∀ j, j < i → IsOccupied (applyOps N cmp (zeroPage a) ops) i = true →
      IsOccupied (applyOps N cmp (zeroPage a) ops) j = true) ∧
    (∀ i, i < N → IsOccupied (applyOps N cmp (zeroPage a) ops) i = false →
      ∀ j, i ≤ j → j < N → IsReadable (applyOps N cmp (zeroPage a) ops) j = false) := by
  obtain ⟨h1, h2⟩ := invariants_applyOps cmp ops (invariants_zeroPage N a).1
    (invariants_zeroPage N a).2
  exact ⟨h2, fun i _ hi j hij hj => not_readable_of_not_occupied h1 h2 hij hj hi⟩

theorem C18_occupied_slots_stay_contiguous_witness :
    (∀ idx, BucketOp.removeAt idx ∈ exampleOps → idx < 4) ∧
    ((∀ i, i < 4 → ∀ j, j < i →
        IsOccupied (applyOps 4 intCmp exampleZero exampleOps) i = true →
        IsOccupied (applyOps 4 intCmp exampleZero exampleOps) j = true) ∧
     (∀ i, i < 4 → IsOccupied (applyOps 4 intCmp exampleZero exampleOps) i = false →
        ∀ j, i ≤ j → j < 4 →
          IsReadable (applyOps 4 intCmp exampleZero exampleOps) j = false)) :=
  ⟨by
    intro idx h
    simp only [exampleOps, List.mem_cons, BucketOp.removeAt.injEq, reduceCtorEq, false_or,
      List.mem_singleton, or_false, List.not_mem_nil] at h
    omega,
   C18_occupied_slots_stay_contiguous 4 intCmp (fun _ => (0, 0)) exampleOps (by
    intro idx h
    simp only [exampleOps, List.mem_cons, BucketOp.removeAt.injEq, reduceCtorEq, false_or,
      List.mem_singleton, or_false, List.not_mem_nil] at h
    omega)⟩

/-- C20: whenever `Insert(k,v,cmp)` returns true on a page that satisfies the
data-model invariants, the pair is stored in the lowest slot that was not readable
before the call, which is at or before every never-occupied slot; that slot's occupied
and readable bits are 1 afterwards; and the key, value, occupied bit and readable bit
of every other slot are as before. -/
theorem C20_insert_uses_lowest_free_slot [DecidableEq V] (N : Nat)
    (b : HashTableBucketPage K V) (k : K) (v : V) (cmp : K → K → Int)
    (h1 : ReadableImpliesOccupied N b) (h2 : OccupiedContiguous N b)
    (hins : (Insert N b k v cmp).1 = true) :
    ∃ pos, pos < N ∧ IsReadable b pos = false ∧
      (∀ j, j < pos → IsReadable b j = true) ∧
      (∀ j, j < N → IsOccupied b j = false → pos ≤ j) ∧
      (Insert N b k v cmp).2.array_ pos = (k, v) ∧
      IsOccupied (Insert N b k v cmp).2 pos = true ∧
      IsReadable (Insert N b k v cmp).2 pos = true ∧
      ∀ j, j ≠ pos →
        (Insert N b k v cmp).2.array_ j = b.array_ j ∧
        IsOccupied (Insert N b k v cmp).2 j = IsOccupied b j ∧
        IsReadable (Insert N b k v cmp).2 j = IsReadable b j := by
  rcases Insert_cases k v cmp h1 h2 with ⟨hf, _⟩ | ⟨pos, hpos, hfree, hall, _, hI⟩
  · rw [hf] at hins; cases hins
  · rw [hI]
    refine ⟨pos, hpos, hfree, hall, ?_, ?_, ?_, ?_, ?_⟩
    · intro j hj ho
      by_contra hlt
      have hr := hall j (by omega)
      have := h1 j hj hr
      rw [ho] at this; cases this
    · rw [array_stored]; simp
    · rw [IsOccupied_stored]; simp
    · rw [IsReadable_stored]; simp
    · intro j hj
      refine ⟨?_, ?_, ?_⟩
      · rw [array_stored, Function.update_noteq hj]
      · rw [IsOccupied_stored]; simp [hj]
      · rw [IsReadable_stored]; simp [hj]

theorem C20_insert_uses_lowest_free_slot_witness :
    (ReadableImpliesOccupied 4 examplePage ∧ OccupiedContiguous 4 examplePage ∧
      (Insert 4 examplePage 12 7 intCmp).1 = true) ∧
    ∃ pos, pos < 4 ∧ IsReadable examplePage pos = false ∧
      (∀ j, j < pos → IsReadable examplePage j = true) ∧
      (∀ j, j < 4 → IsOccupied examplePage j = false → pos ≤ j) ∧
      (Insert 4 examplePage 12 7 intCmp).2.array_ pos = (12, 7) ∧
      IsOccupied (Insert 4 examplePage 12 7 intCmp).2 pos = true ∧
      IsReadable (Insert 4 examplePage 12 7 intCmp).2 pos = true ∧
      ∀ j, j ≠ pos →
        (Insert 4 examplePage 12 7 intCmp).2.array_ j = examplePage.array_ j ∧
        IsOccupied (Insert 4 examplePage 12 7 intCmp).2 j = IsOccupied examplePage j ∧
        IsReadable (Insert 4 examplePage 12 7 intCmp).2 j = IsReadable examplePage j :=
  ⟨⟨examplePage_invariants.1, examplePage_invariants.2, by decide⟩,
   C20_insert_uses_lowest_free_slot 4 examplePage 12 7 intCmp
     examplePage_invariants.1 examplePage_invariants.2 (by decide)⟩

end HashTableBucketPage

namespace LRUReplacer

theorem length_le_of_nodup_of_range (l : List Int) (F : Nat) (hnd : l.Nodup)
    (h : ∀ g ∈ l, 0 ≤ g ∧ g < (F : Int)) : l.length ≤ F := by
  have hsub : l.toFinset ⊆ Finset.Ico (0 : Int) F := by
    intro g hg
    rw [List.mem_toFinset] at hg
    rw [Finset.mem_Ico]
    exact h g hg
  have hcard := Finset.card_le_card hsub
  rw [List.toFinset_card_of_nodup hnd, Int.card_Ico] at hcard
  simpa using hcard

/-- C13, as the code has it: the replacer stores `num_pages` and never looks at it, so
the bound holds through its callers only: when every `Unpin` call is on a frame id of
the pool, `0 ≤ f < F`, every run is defined and ends with `Size() ≤ F`. -/
theorem C13_size_bounded_when_frames_are_of_the_pool (F : Nat) (ops : List Op)
    (hpool : ∀ f, Op.Unpin f ∈ ops → 0 ≤ f ∧ f < (F : Int)) :
    ∃ r log, run F ops = some (r, log) ∧ Size r ≤ F := by
  obtain ⟨r, log, hrun, hA⟩ := run_total F ops
  refine ⟨r, log, hrun, ?_⟩
  have key := runFrom_invariant_of (fun op => ∀ f, op = Op.Unpin f → 0 ≤ f ∧ f < (F : Int))
    (fun r _ => Rep r ∧ ∀ g ∈ candidates r, 0 ≤ g ∧ g < (F : Int))
    ?_ ops (new F) [] r log (fun op hop f hf => hpool f (hf ▸ hop))
    ⟨rep_new F, by simp [candidates, new]⟩ hrun
  · rw [key.1.size_eq]
    exact length_le_of_nodup_of_range _ F key.1.frame_nodup key.2
  · rintro r0 l0 op r1 e hop ⟨hR0, hin⟩ hs
    obtain ⟨hR1, _, hsub⟩ := hR0.step_spec hs
    refine ⟨hR1, ?_⟩
    intro g hg
    rcases hsub g hg with h1 | h1
    · exact hin g h1
    · exact hop g h1

theorem C13_size_bounded_when_frames_are_of_the_pool_witness :
    (∀ f, Op.Unpin f ∈ [Op.Unpin 0, Op.Unpin 1, Op.Unpin 0, Op.Victim, Op.Unpin 1] →
      0 ≤ f ∧ f < ((2 : Nat) : Int)) ∧
    ∃ r log, run 2 [Op.Unpin 0, Op.Unpin 1, Op.Unpin 0, Op.Victim, Op.Unpin 1] = some (r, log) ∧
      Size r ≤ 2 :=
  ⟨by
    intro f h
    simp at h
    omega,
   C13_size_bounded_when_frames_are_of_the_pool 2 _ (by
    intro f h
    simp at h
    omega)⟩

/-- C13 as stated fails: a replacer constructed for one frame tracks two frames after
`Unpin(0); Unpin(1)`. -/
theorem C13_size_exceeds_num_pages_counterexample :
    ∃ r log, run 1 [Op.Unpin 0, Op.Unpin 1] = some (r, log) ∧ ¬ Size r ≤ 1 :=
  ⟨⟨1, [⟨1, 1⟩, ⟨0, 0⟩], [(1, 1), (0, 0)], 2⟩, [Event.unpin 0, Event.unpin 1],
    by decide, by decide⟩

end LRUReplacer

namespace SeqScanExecutor

variable {T R V E : Type}

theorem SchemaEqual_loop_iff :
    ∀ (l1 l2 : List (Column E)), l1.length = l2.length →
      (SchemaEqual.loop l1 l2 = true ↔
        l1.map (fun col => (col.name, col.offset)) = l2.map (fun col => (col.name, col.offset)))
  | [], [], _ => by simp [SchemaEqual.loop]
  | [], _ :: _, h => by simp at h
  | _ :: _, [], h => by simp at h
  | c1 :: l1, c2 :: l2, h => by
    have hlen : l1.length = l2.length := by simpa using h
    have ih := SchemaEqual_loop_iff l1 l2 hlen
    rw [SchemaEqual.loop]
    by_cases hne : c1.name ≠ c2.name ∨ c1.offset ≠ c2.offset
    · rw [if_pos hne]
      constructor
      · intro hf; exact absurd hf (by simp)
      · intro hm
        simp only [List.map_cons, List.cons.injEq, Prod.mk.injEq] at hm
        rcases hne with hn | ho
        · exact absurd hm.1.1 hn
        · exact absurd hm.1.2 ho
    · rw [if_neg hne, ih]
      have hboth : c1.name = c2.name ∧ c1.offset = c2.offset := by
        constructor
        · by_contra hn; exact hne (Or.inl hn)
        · by_contra ho; exact hne (Or.inr ho)
      simp only [List.map_cons, List.cons.injEq, Prod.mk.injEq]
      constructor
      · intro hm; exact ⟨hboth, hm⟩
      · intro hm; exact hm.2

theorem SchemaEqual_eq_true_iff (table_schema output_schema : List (Column E)) :
    SchemaEqual table_schema output_schema = true ↔
      table_schema.map (fun col => (col.name, col.offset))
        = output_schema.map (fun col => (col.name, col.offset)) := by
  unfold SchemaEqual
  by_cases hlen : table_schema.length ≠ output_schema.length
  · rw [if_pos hlen]
    constructor
    · intro hf; exact absurd hf (by simp)
    · intro hm
      have := congrArg List.length hm
      simp only [List.length_map] at this
      exact absurd this hlen
  · rw [if_neg hlen]
    exact SchemaEqual_loop_iff _ _ (by simpa using hlen)

theorem Next_loop_spec (ops : TupleOps T R V E) (e : SeqScanExecutor T E)
    (hsame : e.is_same_schema_ = SchemaEqual e.table_schema e.output_schema) :
    ∀ (l : List T),
      (Next.loop ops e l).1
        = ((l.filter (satisfies ops e.predicate e.table_schema)).map
            (outputOf ops e.table_schema e.output_schema)).head? ∧
      (Next.loop ops e l).2.filter (satisfies ops e.predicate e.table_schema)
        = (l.filter (satisfies ops e.predicate e.table_schema)).tail := by
  intro l
  induction l with
  | nil => simp [Next.loop]
  | cons t rest ih =>
    rw [Next.loop, List.filter_cons]
    by_cases hs : satisfies ops e.predicate e.table_schema t = true
    · have hs' : Next.res ops e t = true := hs
      rw [if_pos hs', if_pos hs]
      refine ⟨?_, rfl⟩
      have hiff := SchemaEqual_eq_true_iff e.table_schema e.output_schema
      rw [← hsame] at hiff
      simp only [List.map_cons, List.head?_cons, outputOf, TupleSchemaTranformUseEvaluate]
      cases hb : e.is_same_schema_ with
      | false =>
        have hno : ¬ (e.table_schema.map (fun col => (col.name, col.offset))
            = e.output_schema.map (fun col => (col.name, col.offset))) := by
          rw [← hiff, hb]; simp
        rw [if_neg hno]
        simp
      | true =>
        have hyes : e.table_schema.map (fun col => (col.name, col.offset))
            = e.output_schema.map (fun col => (col.name, col.offset)) := by
          rw [← hiff, hb]
        rw [if_pos hyes]
        simp
    · have hs' : ¬ Next.res ops e t = true := hs
      rw [if_neg hs', if_neg hs]
      exact ih

theorem getElem?_succ_eq_tail {α : Type} (l : List α) (i : Nat) : l[i + 1]? = l.tail[i]? := by
  cases l with
  | nil => simp
  | cons x xs => simp

theorem seqScan_nextCalls_spec (ops : TupleOps T R V E) (k : Nat) :
    ∀ (e : SeqScanExecutor T E),
      e.is_same_schema_ = SchemaEqual e.table_schema e.output_schema →
      nextCalls ops k e = (List.range k).map (fun i =>
        ((e.table_iter_.filter (satisfies ops e.predicate e.table_schema)).map
          (outputOf ops e.table_schema e.output_schema))[i]?) := by
  induction k with
  | zero => intro e _; simp [nextCalls]
  | succ k ih =>
    intro e hsame
    obtain ⟨h1, h2⟩ := Next_loop_spec ops e hsame e.table_iter_
    have hnext := ih (Next ops e).2 hsame
    rw [nextCalls, hnext, List.range_succ_eq_map, List.map_cons, List.map_map]
    congr 1
    · show (Next.loop ops e e.table_iter_).1 = _
      rw [h1, List.head?_eq_getElem?]
    · apply List.map_congr_left
      intro i _
      simp only [Function.comp_apply, Nat.succ_eq_add_one]
      rw [getElem?_succ_eq_tail, ← List.map_tail, ← h2]
      rfl

/-- C14: with the table the finite sequence of tuples its iterator visits, the
successive calls of `Next` after `Init` return true once for each table tuple that
satisfies the plan's predicate (every tuple when the predicate is null), in table
order, each time with that tuple (copied as it is when the output schema equals the
table schema, that is, when both have as many columns and, column by column, the same
name and the same offset; otherwise built from the output columns' expressions
evaluated on it) and that tuple's record id; every later call returns false. -/
theorem C14_seqscan_next_yields_satisfying_tuples_in_order (ops : TupleOps T R V E)
    (predicate : Option E) (table_schema output_schema : List (Column E)) (table : List T)
    (k : Nat) :
    nextCalls ops k (Init predicate table_schema output_schema table)
      = (List.range k).map (fun i =>
          ((table.filter (fun t =>
              match predicate with
              | none => true
              | some p => ops.GetAsBool (ops.Evaluate p t table_schema))).map
            (fun t =>
              (if table_schema.map (fun col => (col.name, col.offset))
                  = output_schema.map (fun col => (col.name, col.offset)) then t
               else ops.mkTuple
                 (output_schema.map (fun col => ops.Evaluate col.expr t table_schema))
                 output_schema,
               ops.GetRid t)))[i]?) := by
  have := seqScan_nextCalls_spec ops k (Init predicate table_schema output_schema table) rfl
  rw [this]
  rfl

end SeqScanExecutor

namespace LimitExecutor

variable {T : Type}

theorem limit_nextCalls_spec (k : Nat) :
    ∀ (e : LimitExecutor T), e.count_ ≤ e.limit_ →
      (nextCalls k e).1 = (List.range k).map (fun i =>
        (e.child_executor_.remaining.take (e.limit_ - e.count_))[i]?) ∧
      (nextCalls k e).2.child_executor_.calls
        = e.child_executor_.calls + min k (e.limit_ - e.count_) := by
  induction k with
  | zero => intro e _; simp [nextCalls]
  | succ k ih =>
    rintro ⟨⟨remaining, calls⟩, count, lim⟩ hle
    simp only at hle
    rw [nextCalls]
    by_cases hlt : count < lim
    · obtain ⟨d, hd⟩ : ∃ d, lim - count = d + 1 := ⟨lim - count - 1, by omega⟩
      have hd' : lim - (count + 1) = d := by omega
      cases remaining with
      | nil =>
        have hN : Next (⟨⟨[], calls⟩, count, lim⟩ : LimitExecutor T)
            = (none, ⟨⟨[], calls + 1⟩, count + 1, lim⟩) := by
          simp [Next, ChildExecutor.Next, hlt]
        have hih := ih ⟨⟨[], calls + 1⟩, count + 1, lim⟩ (by simp only; omega)
        rw [hN]
        simp only at hih ⊢
        rw [hih.1, hih.2, hd', hd]
        refine ⟨?_, by rw [Nat.succ_min_succ]; omega⟩
        simp [List.replicate_succ]
      | cons t rest =>
        have hN : Next (⟨⟨t :: rest, calls⟩, count, lim⟩ : LimitExecutor T)
            = (some t, ⟨⟨rest, calls + 1⟩, count + 1, lim⟩) := by
          simp [Next, ChildExecutor.Next, hlt]
        have hih := ih ⟨⟨rest, calls + 1⟩, count + 1, lim⟩ (by simp only; omega)
        rw [hN]
        simp only at hih ⊢
        rw [hih.1, hih.2, hd', hd]
        refine ⟨?_, by rw [Nat.succ_min_succ]; omega⟩
        rw [List.range_succ_eq_map, List.map_cons, List.map_map]
        simp [Function.comp_def]
    · have hN : Next (⟨⟨remaining, calls⟩, count, lim⟩ : LimitExecutor T)
          = (none, ⟨⟨remaining, calls⟩, count, lim⟩) := by
        simp [Next, hlt]
      have hz : lim - count = 0 := by omega
      have hih := ih ⟨⟨remaining, calls⟩, count, lim⟩ hle
      rw [hN]
      simp only at hih ⊢
      rw [hih.1, hih.2, hz]
      simp [List.replicate_succ]

/-- C17: with the child executor yielding the finite sequence `tuples` and then false,
the `i`-th call of `LimitExecutor::Next` after `Init` returns the `i`-th of the first
`min(limit, n)` tuples while there is one and false afterwards, and the child's `Next`
is called `min(k, limit)` times, so at most `limit` times, during `k` calls. -/
theorem C17_limit_yields_first_tuples_then_false (limit : Nat) (tuples : List T) (k : Nat) :
    (nextCalls k (Init limit tuples)).1
      = (List.range k).map (fun i => (tuples.take limit)[i]?) ∧
    (tuples.take limit).length = min limit tuples.length ∧
    (nextCalls k (Init limit tuples)).2.child_executor_.calls = min k limit ∧
    (nextCalls k (Init limit tuples)).2.child_executor_.calls ≤ limit := by
  have h := limit_nextCalls_spec k (Init limit tuples) (Nat.zero_le _)
  simp only [Init, ChildExecutor.Init, Nat.sub_zero, Nat.zero_add] at h ⊢
  refine ⟨h.1, List.length_take _ _, h.2, ?_⟩
  rw [h.2]
  exact Nat.min_le_right _ _

end LimitExecutor

namespace TrieNode

variable {Ty : Type} {val : Ty → Type}

theorem find_key_cons {α : Type} (c c' : Char) (x : α) (l : List (Char × α)) :
    ((c, x) :: l).find? (fun e => e.1 == c') = if c = c' then some (c, x)
      else l.find? (fun e => e.1 == c') := by
  by_cases h : c = c'
  · simp [List.find?_cons, h]
  · simp [List.find?_cons, h]

theorem find_key_filter_ne {α : Type} (c c' : Char) (l : List (Char × α)) :
    (l.filter (fun e => e.1 != c)).find? (fun e => e.1 == c')
      = if c' = c then none else l.find? (fun e => e.1 == c') := by
  induction l with
  | nil => simp
  | cons x xs ih =>
    by_cases hx : x.1 = c <;> by_cases hc : c' = c <;> by_cases h1 : x.1 = c' <;>
      simp_all [List.filter_cons, List.find?_cons]

theorem find_key_map_set {α : Type} (c c' : Char) (y : α) (l : List (Char × α)) :
    ((l.map (fun e => if e.1 == c then (e.1, y) else e)).find? (fun e => e.1 == c')).map Prod.snd
      = if c' = c then ((l.find? (fun e => e.1 == c)).map Prod.snd).map (fun _ => y)
        else (l.find? (fun e => e.1 == c')).map Prod.snd := by
  induction l with
  | nil => simp
  | cons x xs ih =>
    by_cases hx : x.1 = c <;> by_cases hc : c' = c <;> by_cases h1 : x.1 = c' <;>
      simp_all [List.find?_cons]

theorem HasChild_eq (n : TrieNode Ty val) (c : Char) :
    n.HasChild c = (n.GetChildNode c).isSome := by
  simp [HasChild, GetChildNode]

theorem GetChildNode_InsertChildNode (n child : TrieNode Ty val) (c c' : Char)
    (hno : n.GetChildNode c = none) (hkey : child.GetKeyChar = c) :
    (n.InsertChildNode c child).GetChildNode c'
      = if c' = c then some child else n.GetChildNode c' := by
  have hh : n.HasChild c = false := by rw [HasChild_eq, hno]; rfl
  unfold InsertChildNode
  rw [if_neg (by simp [hh, hkey])]
  cases n with
  | mk kc ie v ch =>
    simp only [GetChildNode, GetChildren]
    rw [find_key_cons]
    by_cases h : c = c'
    · simp [h]
    · have h' : ¬ c' = c := fun e => h e.symm
      simp [h, h']

theorem GetChildNode_RemoveChildNode (n : TrieNode Ty val) (c c' : Char) :
    (n.RemoveChildNode c).GetChildNode c' = if c' = c then none else n.GetChildNode c' := by
  unfold RemoveChildNode
  by_cases hh : n.HasChild c = false
  · rw [if_pos hh]
    by_cases h : c' = c
    · rw [if_pos h, h]
      rw [HasChild_eq] at hh
      simpa using hh
    · rw [if_neg h]
  · rw [if_neg hh]
    cases n with
    | mk kc ie v ch =>
      simp only [GetChildNode, GetChildren]
      rw [find_key_filter_ne]
      by_cases h : c' = c <;> simp [h]

theorem GetChildNode_setChild (n child : TrieNode Ty val) (c c' : Char) :
    (n.setChild c child).GetChildNode c'
      = if c' = c then (n.GetChildNode c).map (fun _ => child) else n.GetChildNode c' := by
  cases n with
  | mk kc ie v ch =>
    simp only [setChild, GetChildNode, GetChildren]
    exact find_key_map_set c c' child ch

theorem GetKeyChar_InsertChildNode (n child : TrieNode Ty val) (c : Char) :
    (n.InsertChildNode c child).GetKeyChar = n.GetKeyChar := by
  unfold InsertChildNode
  split
  · rfl
  · cases n; rfl

theorem GetKeyChar_RemoveChildNode (n : TrieNode Ty val) (c : Char) :
    (n.RemoveChildNode c).GetKeyChar = n.GetKeyChar := by
  unfold RemoveChildNode
  split
  · rfl
  · cases n; rfl

theorem GetKeyChar_setChild (n child : TrieNode Ty val) (c : Char) :
    (n.setChild c child).GetKeyChar = n.GetKeyChar := by
  cases n; rfl

theorem IsEndNode_InsertChildNode (n child : TrieNode Ty val) (c : Char) :
    (n.InsertChildNode c child).IsEndNode = n.IsEndNode := by
  unfold InsertChildNode
  split
  · rfl
  · cases n; rfl

theorem IsEndNode_RemoveChildNode (n : TrieNode Ty val) (c : Char) :
    (n.RemoveChildNode c).IsEndNode = n.IsEndNode := by
  unfold RemoveChildNode
  split
  · rfl
  · cases n; rfl

theorem IsEndNode_setChild (n child : TrieNode Ty val) (c : Char) :
    (n.setChild c child).IsEndNode = n.IsEndNode := by
  cases n; rfl

theorem GetChildNode_new (c c' : Char) : (new c : TrieNode Ty val).GetChildNode c' = none := rfl

theorem GetChildNode_withValue (n : TrieNode Ty val) (t : Ty) (v : val t) (c : Char) :
    (n.withValue t v).GetChildNode c = n.GetChildNode c := rfl

theorem walk_cons (c : Char) (p : List Char) (n : TrieNode Ty val) :
    walk (c :: p) n = (n.GetChildNode c).bind (walk p) := by
  rw [walk]
  cases n.GetChildNode c <;> rfl

theorem keyOk_iff (n : TrieNode Ty val) :
    KeyOk n ↔ ∀ c ch, n.GetChildNode c = some ch → ch.GetKeyChar = c ∧ KeyOk ch := by
  constructor
  · intro h c ch hc
    constructor
    · apply h [] c ch
      rw [List.nil_append, walk_cons, hc]
      rfl
    · intro p c' m hm
      apply h (c :: p) c' m
      rw [List.cons_append, walk_cons, hc]
      exact hm
  · intro h p c m hm
    cases p with
    | nil =>
      rw [List.nil_append, walk_cons] at hm
      cases hc : n.GetChildNode c with
      | none => rw [hc] at hm; cases hm
      | some ch =>
        rw [hc] at hm
        simp only [Option.some_bind, walk, Option.some.injEq] at hm
        rw [← hm]
        exact (h c ch hc).1
    | cons c0 p' =>
      rw [List.cons_append, walk_cons] at hm
      cases hc : n.GetChildNode c0 with
      | none => rw [hc] at hm; cases hm
      | some ch =>
        rw [hc] at hm
        exact (h c0 ch hc).2 p' c m hm

theorem keyOk_new (c : Char) : KeyOk (new c : TrieNode Ty val) := by
  rw [keyOk_iff]
  intro c' ch h
  rw [GetChildNode_new] at h; cases h

end TrieNode

namespace Trie

open TrieNode

variable {Ty : Type} {val : Ty → Type}

theorem ensureChild_cases (node : TrieNode Ty val) (c : Char) :
    (∃ m, node.GetChildNode c = some m ∧ Insert.ensureChild node c = node) ∨
    (node.GetChildNode c = none ∧
      Insert.ensureChild node c = node.InsertChildNode c (TrieNode.new c)) := by
  unfold Insert.ensureChild
  cases h : node.GetChildNode c with
  | none => right; simp
  | some m => left; exact ⟨m, rfl, by simp⟩

theorem GetKeyChar_new (c : Char) : (TrieNode.new c : TrieNode Ty val).GetKeyChar = c := rfl

theorem ensureChild_get (node : TrieNode Ty val) (c : Char) :
    ∃ m, (Insert.ensureChild node c).GetChildNode c = some m ∧
      (node.GetChildNode c = some m ∨ (node.GetChildNode c = none ∧ m = TrieNode.new c)) := by
  rcases ensureChild_cases node c with ⟨m, hm, he⟩ | ⟨hno, he⟩
  · exact ⟨m, by rw [he, hm], Or.inl hm⟩
  · refine ⟨TrieNode.new c, ?_, Or.inr ⟨hno, rfl⟩⟩
    rw [he, GetChildNode_InsertChildNode _ _ _ _ hno (GetKeyChar_new c)]
    simp

theorem ensureChild_get_ne (node : TrieNode Ty val) {c c' : Char} (h : c' ≠ c) :
    (Insert.ensureChild node c).GetChildNode c' = node.GetChildNode c' := by
  rcases ensureChild_cases node c with ⟨m, _, he⟩ | ⟨hno, he⟩
  · rw [he]
  · rw [he, GetChildNode_InsertChildNode _ _ _ _ hno (GetKeyChar_new c)]
    simp [h]

theorem GetKeyChar_ensureChild (node : TrieNode Ty val) (c : Char) :
    (Insert.ensureChild node c).GetKeyChar = node.GetKeyChar := by
  rcases ensureChild_cases node c with ⟨m, _, he⟩ | ⟨_, he⟩
  · rw [he]
  · rw [he, GetKeyChar_InsertChildNode]

theorem IsEndNode_ensureChild (node : TrieNode Ty val) (c : Char) :
    (Insert.ensureChild node c).IsEndNode = node.IsEndNode := by
  rcases ensureChild_cases node c with ⟨m, _, he⟩ | ⟨_, he⟩
  · rw [he]
  · rw [he, IsEndNode_InsertChildNode]

theorem keyOk_ensureChild {node : TrieNode Ty val} (h : KeyOk node) (c : Char) :
    KeyOk (Insert.ensureChild node c) := by
  rw [keyOk_iff]
  intro c' ch hch
  by_cases hc : c' = c
  · subst hc
    obtain ⟨m, hm, hor⟩ := ensureChild_get node c'
    rw [hm] at hch
    have hmc : m = ch := Option.some.inj hch
    subst hmc
    rcases hor with h1 | ⟨_, h1⟩
    · exact (keyOk_iff node).1 h c' m h1
    · rw [h1]; exact ⟨rfl, keyOk_new c'⟩
  · rw [ensureChild_get_ne node hc] at hch
    exact (keyOk_iff node).1 h c' ch hch

theorem keyOk_of_same_children {n n' : TrieNode Ty val}
    (h : ∀ c, n'.GetChildNode c = n.GetChildNode c) (hn : KeyOk n) : KeyOk n' := by
  rw [keyOk_iff]
  intro c ch hch
  rw [h] at hch
  exact (keyOk_iff n).1 hn c ch hch

theorem endsAt_nil (m : TrieNode Ty val) : EndsAt m [] ↔ m.IsEndNode = true := by
  unfold EndsAt
  simp [walk]

theorem not_endsAt_new (c : Char) (rest : List Char) :
    ¬ EndsAt (TrieNode.new c : TrieNode Ty val) rest := by
  rintro ⟨m, hm, he⟩
  cases rest with
  | nil =>
    simp only [walk, Option.some.injEq] at hm
    rw [← hm] at he
    cases he
  | cons c2 r =>
    rw [walk_cons, GetChildNode_new] at hm
    cases hm

theorem endsAt_cons_iff (node m : TrieNode Ty val) (c : Char) (rest : List Char)
    (hor : node.GetChildNode c = some m ∨ (node.GetChildNode c = none ∧ m = TrieNode.new c)) :
    EndsAt node (c :: rest) ↔ EndsAt m rest := by
  rcases hor with h | ⟨h, hm⟩
  · unfold EndsAt
    rw [walk_cons, h]
    rfl
  · constructor
    · rintro ⟨x, hx, _⟩
      rw [walk_cons, h] at hx
      cases hx
    · intro he
      rw [hm] at he
      exact absurd he (not_endsAt_new c rest)

theorem trie_Insert_loop_spec [DecidableEq Ty] (t : Ty) (v : val t) (key : List Char) :
    ∀ (node : TrieNode Ty val), KeyOk node →
      ∃ res node', Insert.loop t v key node = some (res, node') ∧
        node'.GetKeyChar = node.GetKeyChar ∧ node'.IsEndNode = node.IsEndNode ∧ KeyOk node' ∧
        (key ≠ [] → ¬ EndsAt node key → res = true ∧ GetValue.loop t key node' = some v) ∧
        (key ≠ [] → EndsAt node key → res = false) := by
  induction key with
  | nil =>
    intro node hk
    exact ⟨false, node, rfl, rfl, rfl, hk, fun h => absurd rfl h, fun h => absurd rfl h⟩
  | cons c rest ih =>
    intro node hk
    obtain ⟨m, hget, hor⟩ := ensureChild_get node c
    have hF := keyOk_ensureChild hk c
    obtain ⟨hmkey, hmok⟩ := (keyOk_iff _).1 hF c m hget
    have hends := endsAt_cons_iff node m c rest hor
    cases rest with
    | nil =>
      by_cases he : m.IsEndNode = true
      · refine ⟨false, Insert.ensureChild node c, ?_, GetKeyChar_ensureChild node c,
          IsEndNode_ensureChild node c, hF, ?_, fun _ _ => rfl⟩
        · rw [Insert.loop]
          simp only [hget, he, if_true]
        · intro _ hne
          exact absurd (hends.2 ((endsAt_nil m).2 he)) hne
      · have hrem : ((Insert.ensureChild node c).RemoveChildNode c).GetChildNode c = none := by
          rw [GetChildNode_RemoveChildNode]; simp
        have hwk : (m.withValue t v).GetKeyChar = c := hmkey
        have hchild : ∀ c', (((Insert.ensureChild node c).RemoveChildNode c).InsertChildNode c
            (m.withValue t v)).GetChildNode c'
            = if c' = c then some (m.withValue t v)
              else (Insert.ensureChild node c).GetChildNode c' := by
          intro c'
          rw [GetChildNode_InsertChildNode _ _ _ _ hrem hwk, GetChildNode_RemoveChildNode]
          by_cases hc : c' = c <;> simp [hc]
        refine ⟨true, ((Insert.ensureChild node c).RemoveChildNode c).InsertChildNode c
          (m.withValue t v), ?_, ?_, ?_, ?_, ?_, ?_⟩
        · rw [Insert.loop]
          simp only [hget, he, Bool.false_eq_true, if_false]
        · rw [GetKeyChar_InsertChildNode, GetKeyChar_RemoveChildNode, GetKeyChar_ensureChild]
        · rw [IsEndNode_InsertChildNode, IsEndNode_RemoveChildNode, IsEndNode_ensureChild]
        · rw [keyOk_iff]
          intro c' ch hch
          rw [hchild] at hch
          by_cases hc : c' = c
          · rw [if_pos hc] at hch
            have hmc : m.withValue t v = ch := Option.some.inj hch
            subst hmc
            exact ⟨hc ▸ hwk, keyOk_of_same_children (GetChildNode_withValue m t v) hmok⟩
          · rw [if_neg hc] at hch
            exact (keyOk_iff _).1 hF c' ch hch
        · intro _ _
          refine ⟨rfl, ?_⟩
          rw [GetValue.loop]
          simp only [hchild, if_true]
          simp [TrieNode.withValue, TrieNode.IsEndNode, TrieNode.value_]
        · intro _ hst
          exact absurd ((endsAt_nil m).1 (hends.1 hst)) he
    | cons c2 rest' =>
      obtain ⟨res, m', hloop, hkey', _, hok', hnew, hold⟩ := ih m hmok
      have hchild : ∀ c', ((Insert.ensureChild node c).setChild c m').GetChildNode c'
          = if c' = c then some m' else (Insert.ensureChild node c).GetChildNode c' := by
        intro c'
        rw [GetChildNode_setChild]
        by_cases hc : c' = c
        · simp [hc, hget]
        · simp [hc]
      refine ⟨res, (Insert.ensureChild node c).setChild c m', ?_, ?_, ?_, ?_, ?_, ?_⟩
      · rw [Insert.loop]
        simp only [hget, hloop]
      · rw [GetKeyChar_setChild, GetKeyChar_ensureChild]
      · rw [IsEndNode_setChild, IsEndNode_ensureChild]
      · rw [keyOk_iff]
        intro c' ch hch
        rw [hchild] at hch
        by_cases hc : c' = c
        · rw [if_pos hc] at hch
          have hmc : m' = ch := Option.some.inj hch
          subst hmc
          exact ⟨hc ▸ (hkey'.trans hmkey), hok'⟩
        · rw [if_neg hc] at hch
          exact (keyOk_iff _).1 hF c' ch hch
      · intro _ hne
        have hne' : ¬ EndsAt m (c2 :: rest') := fun h => hne (hends.2 h)
        obtain ⟨hr, hg⟩ := hnew (by simp) hne'
        refine ⟨hr, ?_⟩
        rw [GetValue.loop]
        simp only [hchild, if_true]
        exact hg
      · intro _ hst
        exact hold (by simp) (hends.1 hst)

theorem keyOk_RemoveChildNode {n : TrieNode Ty val} (h : KeyOk n) (c : Char) :
    KeyOk (n.RemoveChildNode c) := by
  rw [keyOk_iff]
  intro c' ch hch
  rw [GetChildNode_RemoveChildNode] at hch
  by_cases hc : c' = c
  · rw [if_pos hc] at hch; cases hch
  · rw [if_neg hc] at hch
    exact (keyOk_iff n).1 h c' ch hch

theorem keyOk_setChild {n m' : TrieNode Ty val} (h : KeyOk n) (c : Char)
    (hkey : m'.GetKeyChar = c) (hok : KeyOk m') : KeyOk (n.setChild c m') := by
  rw [keyOk_iff]
  intro c' ch hch
  rw [GetChildNode_setChild] at hch
  by_cases hc : c' = c
  · rw [if_pos hc] at hch
    cases hn : n.GetChildNode c with
    | none => rw [hn] at hch; cases hch
    | some x =>
      rw [hn] at hch
      have hmc : m' = ch := Option.some.inj hch
      subst hmc
      exact ⟨hc ▸ hkey, hok⟩
  · rw [if_neg hc] at hch
    exact (keyOk_iff n).1 h c' ch hch

theorem trie_Remove_loop_spec (key : List Char) :
    ∀ (node : TrieNode Ty val), KeyOk node →
      (Remove.loop key node).2.2.GetKeyChar = node.GetKeyChar ∧
      (Remove.loop key node).2.2.IsEndNode = node.IsEndNode ∧
      KeyOk (Remove.loop key node).2.2 := by
  induction key with
  | nil => intro node hk; exact ⟨rfl, rfl, hk⟩
  | cons c rest ih =>
    intro node hk
    rw [Remove.loop]
    cases hget : node.GetChildNode c with
    | none => exact ⟨rfl, rfl, hk⟩
    | some m =>
      obtain ⟨hmkey, hmok⟩ := (keyOk_iff node).1 hk c m hget
      cases rest with
      | nil =>
        simp only
        by_cases he : m.IsEndNode = false
        · rw [if_pos he]; exact ⟨rfl, rfl, hk⟩
        · rw [if_neg he]
          by_cases hc : m.HasChildren = true
          · rw [if_pos hc]; exact ⟨rfl, rfl, hk⟩
          · rw [if_neg hc]
            exact ⟨GetKeyChar_RemoveChildNode _ _, IsEndNode_RemoveChildNode _ _,
              keyOk_RemoveChildNode hk c⟩
      | cons c2 rest' =>
        obtain ⟨h1, _, h3⟩ := ih m hmok
        have hset := keyOk_setChild hk c (h1.trans hmkey) h3
        simp only
        by_cases hp : (Remove.loop (c2 :: rest') m).2.1 = true
        · rw [if_pos hp]
          by_cases hx : (Remove.loop (c2 :: rest') m).2.2.HasChildren = true ∨
              (Remove.loop (c2 :: rest') m).2.2.IsEndNode = true
          · rw [if_pos hx]
            exact ⟨GetKeyChar_setChild _ _ _, IsEndNode_setChild _ _ _, hset⟩
          · rw [if_neg hx]
            exact ⟨(GetKeyChar_RemoveChildNode _ _).trans (GetKeyChar_setChild _ _ _),
              (IsEndNode_RemoveChildNode _ _).trans (IsEndNode_setChild _ _ _),
              keyOk_RemoveChildNode hset _⟩
        · rw [if_neg hp]
          exact ⟨GetKeyChar_setChild _ _ _, IsEndNode_setChild _ _ _, hset⟩

theorem keyOk_root_new : KeyOk (Trie.new : Trie Ty val).root_ := keyOk_new _

theorem Insert_keyOk [DecidableEq Ty] (t : Ty) (key : List Char) (v : val t)
    (trie : Trie Ty val) (h : KeyOk trie.root_) :
    ∃ res trie', Insert t key v trie = some (res, trie') ∧ KeyOk trie'.root_ := by
  unfold Insert
  by_cases hk : key.isEmpty = true
  · rw [if_pos hk]; exact ⟨false, trie, rfl, h⟩
  · rw [if_neg hk]
    obtain ⟨res, node', hl, _, _, hok, _, _⟩ := trie_Insert_loop_spec t v key trie.root_ h
    exact ⟨res, ⟨node'⟩, by rw [hl]; rfl, hok⟩

theorem applyOps_keyOk [DecidableEq Ty] (ops : List (TrieOp Ty val)) :
    ∀ (trie : Trie Ty val), KeyOk trie.root_ →
      ∃ trie', applyOps trie ops = some trie' ∧ KeyOk trie'.root_ := by
  induction ops with
  | nil => intro trie h; exact ⟨trie, rfl, h⟩
  | cons op ops ih =>
    intro trie h
    cases op with
    | insert t key v =>
      obtain ⟨res, trie1, h1, hok⟩ := Insert_keyOk t key v trie h
      obtain ⟨trie2, h2, hok2⟩ := ih trie1 hok
      exact ⟨trie2, by simp only [applyOps, h1]; exact h2, hok2⟩
    | remove key =>
      have hok := (trie_Remove_loop_spec key trie.root_ h).2.2
      obtain ⟨trie2, h2, hok2⟩ := ih (Remove key trie).2 hok
      exact ⟨trie2, by simp only [applyOps]; exact h2, hok2⟩

/-- C16: in every trie built from the empty trie by `Insert` and `Remove` calls, for
every value type `t` and value `v`: `Insert(key, v)` of a key that is not empty and not
currently stored returns true, and `GetValue<T>(key)` on the trie after it reports
success and returns `v`; `Insert` with the empty key returns false; and `Insert` with a
key that is currently stored returns false. A key is currently stored when the node it
leads to is an end node. -/
theorem C16_trie_insert_then_getvalue [DecidableEq Ty] (ops : List (TrieOp Ty val)) :
    ∃ trie, applyOps (Trie.new : Trie Ty val) ops = some trie ∧
      ∀ (t : Ty) (key : List Char) (v : val t),
        (key ≠ [] → ¬ Stored trie key →
          ∃ trie', Insert t key v trie = some (true, trie') ∧
            GetValue t key trie' = some v) ∧
        (∃ trie', Insert t [] v trie = some (false, trie')) ∧
        (Stored trie key → ∃ trie', Insert t key v trie = some (false, trie')) := by
  obtain ⟨trie, hrun, hok⟩ := applyOps_keyOk ops (Trie.new : Trie Ty val) keyOk_root_new
  refine ⟨trie, hrun, ?_⟩
  intro t key v
  obtain ⟨res, node', hl, _, _, _, hnew, hold⟩ := trie_Insert_loop_spec t v key trie.root_ hok
  refine ⟨?_, ⟨trie, rfl⟩, ?_⟩
  · intro hne hns
    have hemp : ¬ key.isEmpty = true := by
      rw [List.isEmpty_iff]; exact hne
    obtain ⟨hr, hg⟩ := hnew hne (fun h => hns ⟨hne, h⟩)
    refine ⟨⟨node'⟩, ?_, hg⟩
    unfold Insert
    rw [if_neg hemp, hl, hr]
    rfl
  · rintro ⟨hne, hst⟩
    have hemp : ¬ key.isEmpty = true := by
      rw [List.isEmpty_iff]; exact hne
    refine ⟨⟨node'⟩, ?_⟩
    unfold Insert
    rw [if_neg hemp, hl, hold hne hst]
    rfl

end Trie

namespace Trie

/-- C15 at a key with children: after `Insert("ab", 1); Insert("a", 2)`, `Remove("a")`
returns true, yet `GetValue("a")` on the trie after it still reports success with 2 and
`Insert("a", 3)` returns false; the sibling path, `Remove("ab")` of a key without
children, does make `GetValue("ab")` report failure and `Insert("ab", 3)` return true. -/
theorem C15_remove_of_key_with_children_keeps_it :
    (applyOps Trie.new exampleOps).map (fun trie =>
        ((Remove ['a'] trie).1, GetValue () ['a'] (Remove ['a'] trie).2,
          (Insert () ['a'] 3 (Remove ['a'] trie).2).map Prod.fst))
      = some (true, some 2, some false) ∧
    (applyOps Trie.new exampleOps).map (fun trie =>
        ((Remove ['a', 'b'] trie).1, GetValue () ['a', 'b'] (Remove ['a', 'b'] trie).2,
          (Insert () ['a', 'b'] 3 (Remove ['a', 'b'] trie).2).map Prod.fst))
      = some (true, none, some true) := by
  decide

end Trie

namespace HashTableBucketPage

variable {K V : Type}

theorem IsEmpty_loop_iff (b : HashTableBucketPage K V) (fuel : Nat) :
    ∀ i, IsEmpty.loop b fuel i = true ↔
      ∀ j, i ≤ j → j < i + fuel → b.readable_ j % 256 = 0 := by
  induction fuel with
  | zero =>
    intro i
    simp only [IsEmpty.loop, true_iff]
    intro j h1 h2; omega
  | succ fuel ih =>
    intro i
    rw [IsEmpty.loop]
    by_cases h : b.readable_ i % 256 = 0
    · rw [if_neg (by simpa using h), ih]
      constructor
      · intro hall j h1 h2
        rcases Nat.eq_or_lt_of_le h1 with rfl | hlt
        · exact h
        · exact hall j hlt (by omega)
      · intro hall j h1 h2
        exact hall j (by omega) (by omega)
    · rw [if_pos (by simpa using h)]
      simp only [Bool.false_eq_true, false_iff, not_forall]
      exact ⟨i, le_refl _, by omega, h⟩

theorem byte_zero_iff (b : HashTableBucketPage K V) (i : Nat) :
    b.readable_ i % 256 = 0 ↔ ∀ j, j < 8 → IsReadable b (8 * i + j) = false := by
  have h0 : (0 : Nat) = 0 % 256 := by norm_num
  rw [h0, byte_eq_iff_testBit]
  have key : ∀ j, j < 8 → IsReadable b (8 * i + j) = (b.readable_ i).testBit j := by
    intro j hj
    rw [IsReadable_eq]
    have h1 : (8 * i + j) / 8 = i := by omega
    have h2 : (8 * i + j) % 8 = j := by omega
    rw [h1, h2]
  constructor
  · intro h j hj
    rw [key j hj, h j hj, Nat.zero_testBit]
  · intro h j hj
    rw [← key j hj, h j hj, Nat.zero_testBit]

theorem IsEmpty_iff (N : Nat) (b : HashTableBucketPage K V) :
    IsEmpty N b = true ↔ ∀ i, i < 8 * ((N - 1) / 8 + 1) → IsReadable b i = false := by
  unfold IsEmpty
  rw [IsEmpty_loop_iff]
  constructor
  · intro h i hi
    have := (byte_zero_iff b (i / 8)).1 (h (i / 8) (Nat.zero_le _) (by omega)) (i % 8)
      (Nat.mod_lt _ (by norm_num))
    rwa [Nat.div_add_mod] at this
  · intro h j _ hj
    rw [byte_zero_iff]
    intro x hx
    exact h _ (by omega)

theorem readableCount_eq_zero_iff (b : HashTableBucketPage K V) (M : Nat) :
    readableCount b M = 0 ↔ ∀ i, i < M → IsReadable b i = false := by
  unfold readableCount
  rw [List.length_eq_zero, List.filter_eq_nil_iff]
  constructor
  · intro h i hi
    have := h i (List.mem_range.2 hi)
    simpa using this
  · intro h i hi
    rw [h i (List.mem_range.1 hi)]
    simp

theorem readableCount_eq_self_iff (b : HashTableBucketPage K V) (M : Nat) :
    readableCount b M = M ↔ ∀ i, i < M → IsReadable b i = true := by
  unfold readableCount
  constructor
  · intro h i hi
    have hsub : ((List.range M).filter (IsReadable b)).Sublist (List.range M) :=
      List.filter_sublist _
    have heq := hsub.eq_of_length (by rw [h, List.length_range])
    exact List.filter_eq_self.1 heq i (List.mem_range.2 hi)
  · intro h
    have : (List.range M).filter (IsReadable b) = List.range M := by
      rw [List.filter_eq_self]
      intro i hi
      exact h i (List.mem_range.1 hi)
    rw [this, List.length_range]

/-- C21: for every capacity `N ≥ 1`, a multiple of 8 or not, and every page whose
readable bitmap has no bit set at a position from `N` on, `IsFull()` is true iff
`NumReadable()` is `N`, which is so iff all `N` slots are readable, and `IsEmpty()` is
true iff `NumReadable()` is 0, which is so iff no slot is readable. -/
theorem C21_isfull_isempty_agree_with_numreadable (N : Nat) (b : HashTableBucketPage K V)
    (hN : 0 < N)
    (hclear : ∀ i, N ≤ i → i < 8 * ((N - 1) / 8 + 1) → IsReadable b i = false) :
    (IsFull N b = true ↔ NumReadable N b = some N) ∧
    (NumReadable N b = some N ↔ ∀ i, i < N → IsReadable b i = true) ∧
    (IsEmpty N b = true ↔ NumReadable N b = some 0) ∧
    (NumReadable N b = some 0 ↔ ∀ i, i < N → IsReadable b i = false) := by
  have hle : N ≤ 8 * ((N - 1) / 8 + 1) := by omega
  have hnum : NumReadable N b = some (readableCount b N) := by
    rw [NumReadable_eq, readableCount_eq_of_clear b hle hclear]
  have hfull : IsFull N b = true ↔ ∀ i, i < N → IsReadable b i = true := by
    constructor
    · intro hf i hi
      by_contra hne
      have hfree : IsReadable b i = false := by simpa using hne
      rw [IsFull_eq_false_of_free b hi hfree] at hf
      cases hf
    · intro hall
      exact IsFull_eq_true_of_full b hN hall hclear
  have hcountN : NumReadable N b = some N ↔ ∀ i, i < N → IsReadable b i = true := by
    rw [hnum, Option.some.injEq, readableCount_eq_self_iff]
  have hcount0 : NumReadable N b = some 0 ↔ ∀ i, i < N → IsReadable b i = false := by
    rw [hnum, Option.some.injEq, readableCount_eq_zero_iff]
  refine ⟨hfull.trans hcountN.symm, hcountN, ?_, hcount0⟩
  rw [IsEmpty_iff, hcount0]
  constructor
  · intro h i hi
    exact h i (by omega)
  · intro h i hi
    by_cases hiN : i < N
    · exact h i hiN
    · exact hclear i (by omega) hi

theorem C21_isfull_isempty_agree_with_numreadable_witness :
    (0 < 4 ∧ ∀ i, 4 ≤ i → i < 8 * ((4 - 1) / 8 + 1) → IsReadable examplePage i = false) ∧
    ((IsFull 4 examplePage = true ↔ NumReadable 4 examplePage = some 4) ∧
     (NumReadable 4 examplePage = some 4 ↔ ∀ i, i < 4 → IsReadable examplePage i = true) ∧
     (IsEmpty 4 examplePage = true ↔ NumReadable 4 examplePage = some 0) ∧
     (NumReadable 4 examplePage = some 0 ↔ ∀ i, i < 4 → IsReadable examplePage i = false)) :=
  ⟨⟨by decide, by decide⟩,
   C21_isfull_isempty_agree_with_numreadable 4 examplePage (by decide) (by decide)⟩

end HashTableBucketPage

namespace HashTableBucketPage

variable {K V : Type}

theorem noDuplicatePair_zeroPage (N : Nat) (cmp : K → K → Int) (a : Nat → K × V) :
    NoDuplicatePair N cmp (zeroPage a) := by
  intro i j _ _ _ hi
  rw [IsReadable_zeroPage] at hi
  exact absurd hi (by simp)

theorem noDuplicatePair_SetUnreadable {N : Nat} {cmp : K → K → Int}
    {b : HashTableBucketPage K V} (m : Nat) (h : NoDuplicatePair N cmp b) :
    NoDuplicatePair N cmp (SetUnreadable b m) := by
  intro i j hi hj hij hri hrj
  rw [IsReadable_SetUnreadable] at hri hrj
  simp only [Bool.and_eq_true] at hri hrj
  exact h i j hi hj hij hri.1 hrj.1

theorem noDuplicatePair_stored [DecidableEq V] {N : Nat} {cmp : K → K → Int}
    {b : HashTableBucketPage K V} (pos : Nat) (key : K) (value : V)
    (hsymm : ∀ x y, cmp x y = 0 → cmp y x = 0)
    (hno : ¬ ∃ j, j < N ∧ holdsPair b key value cmp j = true)
    (hfree : IsReadable b pos = false)
    (h : NoDuplicatePair N cmp b) :
    NoDuplicatePair N cmp (stored b pos key value) := by
  intro i j hi hj hij hri hrj
  rw [IsReadable_stored] at hri hrj
  rw [array_stored]
  have hold : ∀ x, x < N → x ≠ pos → IsReadable (stored b pos key value) x = true →
      IsReadable b x = true := by
    intro x _ hx hr
    rw [IsReadable_stored] at hr
    simpa [hx] using hr
  by_cases hip : i = pos
  · have hjp : j ≠ pos := fun e => hij (hip.trans e.symm)
    have hrj' : IsReadable b j = true := by simpa [hjp] using hrj
    subst hip
    rw [Function.update_same, Function.update_noteq hjp]
    rintro ⟨hk, hv⟩
    exact hno ⟨j, hj, (holdsPair_eq_true_iff b key value cmp j).2
      ⟨hrj', hsymm _ _ hk, hv.symm⟩⟩
  · have hri' : IsReadable b i = true := by simpa [hip] using hri
    by_cases hjp : j = pos
    · subst hjp
      rw [Function.update_same, Function.update_noteq hip]
      rintro ⟨hk, hv⟩
      exact hno ⟨i, hi, (holdsPair_eq_true_iff b key value cmp i).2 ⟨hri', hk, hv⟩⟩
    · have hrj' : IsReadable b j = true := by simpa [hjp] using hrj
      rw [Function.update_noteq hip, Function.update_noteq hjp]
      exact h i j hi hj hij hri' hrj'

/-- One call keeps the pairs of the readable slots distinct. -/
theorem noDuplicatePair_applyOp [DecidableEq V] {N : Nat} (cmp : K → K → Int)
    (hsymm : ∀ x y, cmp x y = 0 → cmp y x = 0)
    {b : HashTableBucketPage K V} (op : BucketOp K V)
    (h1 : ReadableImpliesOccupied N b) (h2 : OccupiedContiguous N b)
    (h3 : NoDuplicatePair N cmp b) :
    NoDuplicatePair N cmp (applyOp N cmp b op) := by
  cases op with
  | insert key value =>
    show NoDuplicatePair N cmp (Insert N b key value cmp).2
    rcases Insert_cases key value cmp h1 h2 with ⟨hI, _⟩ | ⟨pos, _, hfree, _, hno, hI⟩
    · rw [hI]; exact h3
    · rw [hI]; exact noDuplicatePair_stored pos key value hsymm hno hfree h3
  | remove key value =>
    show NoDuplicatePair N cmp (Remove N b key value cmp).2
    rcases Remove_result N b key value cmp with hR | ⟨m, hR⟩
    · rw [hR]; exact h3
    · rw [hR]; exact noDuplicatePair_SetUnreadable m h3
  | removeAt idx =>
    exact noDuplicatePair_SetUnreadable idx h3

theorem noDuplicatePair_applyOps [DecidableEq V] {N : Nat} (cmp : K → K → Int)
    (hsymm : ∀ x y, cmp x y = 0 → cmp y x = 0) (ops : List (BucketOp K V)) :
    ∀ {b : HashTableBucketPage K V}, ReadableImpliesOccupied N b → OccupiedContiguous N b →
      NoDuplicatePair N cmp b → NoDuplicatePair N cmp (applyOps N cmp b ops) := by
  induction ops with
  | nil => intro b _ _ h3; exact h3
  | cons op ops ih =>
    intro b h1 h2 h3
    have h12 := invariants_applyOp cmp op h1 h2
    exact ih h12.1 h12.2 (noDuplicatePair_applyOp cmp hsymm op h1 h2 h3)

theorem Remove_true_cases [DecidableEq V] {N : Nat} {b : HashTableBucketPage K V} (key : K)
    (value : V) (cmp : K → K → Int)
    (h1 : ReadableImpliesOccupied N b) (h2 : OccupiedContiguous N b)
    (hrem : (Remove N b key value cmp).1 = true) :
    ∃ m, m < N ∧ holdsPair b key value cmp m = true ∧
      Remove N b key value cmp = (true, SetUnreadable b m) := by
  classical
  have hex : ∃ i, i < N ∧ holdsPair b key value cmp i = true := by
    by_contra hne
    have habs : Remove N b key value cmp = (false, b) := by
      apply Remove_loop_absent b key value cmp N 0
      intro j _ hj
      have hjN : j < N := by omega
      by_contra hp
      exact hne ⟨j, hjN, by simpa using hp⟩
    rw [habs] at hrem
    exact absurd hrem (by simp)
  have hm := Nat.find_spec hex
  have hmin : ∀ j, j < Nat.find hex → holdsPair b key value cmp j = false := by
    intro j hj
    have := Nat.find_min hex hj
    have hjN : j < N := by omega
    simpa [hjN] using this
  exact ⟨Nat.find hex, hm.1, hm.2,
    Remove_loop_present key value cmp h1 h2 hm.1 hm.2 N 0 (by simp) (Nat.zero_le _)
      (fun j _ hj => hmin j hj)⟩

theorem intCmp_eq_zero_iff (a b : Int) : intCmp a b = 0 ↔ a = b := by
  unfold intCmp
  constructor
  · intro h
    by_cases h1 : a < b
    · simp [h1] at h
    · by_cases h2 : b < a
      · simp [h1, h2] at h
      · omega
  · rintro rfl
    simp

theorem intCmp_equivalence : Equivalence (fun a b : Int => intCmp a b = 0) := by
  refine ⟨fun a => (intCmp_eq_zero_iff a a).2 rfl, ?_, ?_⟩
  · intro a b h
    exact (intCmp_eq_zero_iff b a).2 ((intCmp_eq_zero_iff a b).1 h).symm
  · intro a b c h1 h2
    exact (intCmp_eq_zero_iff a c).2
      (((intCmp_eq_zero_iff a b).1 h1).trans ((intCmp_eq_zero_iff b c).1 h2))

/-- C22: in every page reached from an all-zero page by a sequence of `Insert`, `Remove`
and `RemoveAt` calls, the `RemoveAt` calls being on slot indexes below `N` and the
comparator's equality being an equivalence relation on keys, no two readable slots hold the same (key, value) pair; and if `Remove(k,v,cmp)` returns
true on such a page, then on the page it leaves the result of `GetValue(k,cmp)` does not
contain `v` and `Remove(k,v,cmp)` returns false. -/
theorem C22_remove_then_lookup_misses_the_pair [DecidableEq V] (N : Nat) (cmp : K → K → Int)
    (a : Nat → K × V) (ops : List (BucketOp K V))
    (_hidx : ∀ idx, BucketOp.removeAt idx ∈ ops → idx < N)
    (heq : Equivalence (fun x y : K => cmp x y = 0)) :
    NoDuplicatePair N cmp (applyOps N cmp (zeroPage a) ops) ∧
    ∀ k v, (Remove N (applyOps N cmp (zeroPage a) ops) k v cmp).1 = true →
      v ∉ (GetValue N (Remove N (applyOps N cmp (zeroPage a) ops) k v cmp).2 k cmp []).2 ∧
      (Remove N (Remove N (applyOps N cmp (zeroPage a) ops) k v cmp).2 k v cmp).1 = false := by
  have hsymm : ∀ x y, cmp x y = 0 → cmp y x = 0 := fun x y h => heq.symm h
  have h0 := invariants_zeroPage N a
  have h12 := invariants_applyOps cmp ops h0.1 h0.2
  have h3 := noDuplicatePair_applyOps cmp hsymm ops h0.1 h0.2 (noDuplicatePair_zeroPage N cmp a)
  refine ⟨h3, ?_⟩
  intro k v hrem
  generalize applyOps N cmp (zeroPage a) ops = b at h12 h3 hrem ⊢
  obtain ⟨m, hm, hpair, hR⟩ := Remove_true_cases k v cmp h12.1 h12.2 hrem
  rw [hR]
  have hpm := (holdsPair_eq_true_iff b k v cmp m).1 hpair
  have hinv := invariants_SetUnreadable m h12.1 h12.2
  have hother : ∀ i, i < N → IsReadable (SetUnreadable b m) i = true →
      cmp ((SetUnreadable b m).array_ i).1 k = 0 → ((SetUnreadable b m).array_ i).2 ≠ v := by
    intro i hi hr hk hv
    rw [IsReadable_SetUnreadable] at hr
    simp only [Bool.and_eq_true, decide_eq_true_eq] at hr
    have hk' : cmp (b.array_ i).1 k = 0 := hk
    have hv' : (b.array_ i).2 = v := hv
    exact h3 i m hi hm hr.2 hr.1 hpm.1
      ⟨heq.trans hk' (heq.symm hpm.2.1), hv'.trans hpm.2.2.symm⟩
  constructor
  · show v ∉ (GetValue.loop (SetUnreadable b m) k cmp N 0 false []).2
    rw [GetValue_loop_eq k cmp hinv.1 hinv.2 N 0 false [] (by simp)]
    simp only [List.nil_append, List.mem_map, List.mem_filter, List.mem_range', not_exists,
      not_and]
    rintro i ⟨⟨j, hj, rfl⟩, hmk⟩ hv
    have hmk' := (matchesKey_eq_true_iff _ k cmp _).1 hmk
    exact hother _ (by omega) hmk'.1 hmk'.2 hv
  · have habs : Remove N (SetUnreadable b m) k v cmp = (false, SetUnreadable b m) := by
      apply Remove_loop_absent (SetUnreadable b m) k v cmp N 0
      intro j _ hj
      have hjN : j < N := by omega
      by_contra hp
      have hp' : holdsPair (SetUnreadable b m) k v cmp j = true := by simpa using hp
      have := (holdsPair_eq_true_iff _ k v cmp j).1 hp'
      exact hother j hjN this.1 this.2.1 this.2.2
    rw [habs]

theorem C22_remove_then_lookup_misses_the_pair_witness :
    ((∀ idx, BucketOp.removeAt idx ∈ exampleOps → idx < 4) ∧
      Equivalence (fun x y : Int => intCmp x y = 0) ∧
      (Remove 4 (applyOps 4 intCmp exampleZero exampleOps) 3 3 intCmp).1 = true) ∧
    (NoDuplicatePair 4 intCmp (applyOps 4 intCmp exampleZero exampleOps) ∧
      3 ∉ (GetValue 4 (Remove 4 (applyOps 4 intCmp exampleZero exampleOps) 3 3 intCmp).2 3
        intCmp []).2 ∧
      (Remove 4 (Remove 4 (applyOps 4 intCmp exampleZero exampleOps) 3 3 intCmp).2 3 3
        intCmp).1 = false) :=
  ⟨⟨exampleOps_removeAt_lt, intCmp_equivalence, by decide⟩,
   (C22_remove_then_lookup_misses_the_pair 4 intCmp (fun _ => (0, 0)) exampleOps
     exampleOps_removeAt_lt intCmp_equivalence).1,
   (C22_remove_then_lookup_misses_the_pair 4 intCmp (fun _ => (0, 0)) exampleOps
     exampleOps_removeAt_lt intCmp_equivalence).2 3 3 (by decide)⟩

end HashTableBucketPage

namespace TrieNode

variable {Ty : Type} {val : Ty → Type}

theorem value_InsertChildNode (n child : TrieNode Ty val) (c : Char) :
    (n.InsertChildNode c child).value_ = n.value_ := by
  unfold InsertChildNode
  split
  · rfl
  · cases n; rfl

theorem value_RemoveChildNode (n : TrieNode Ty val) (c : Char) :
    (n.RemoveChildNode c).value_ = n.value_ := by
  unfold RemoveChildNode
  split
  · rfl
  · cases n; rfl

theorem value_setChild (n child : TrieNode Ty val) (c : Char) :
    (n.setChild c child).value_ = n.value_ := by
  cases n; rfl

theorem GetChildNode_of_no_children {n : TrieNode Ty val} (h : n.HasChildren = false)
    (c : Char) : n.GetChildNode c = none := by
  unfold HasChildren at h
  unfold GetChildNode
  cases hc : n.GetChildren with
  | nil => rfl
  | cons x xs => rw [hc] at h; simp at h

end TrieNode

namespace Trie

open TrieNode

variable {Ty : Type} {val : Ty → Type}

theorem value_ensureChild (node : TrieNode Ty val) (c : Char) :
    (Insert.ensureChild node c).value_ = node.value_ := by
  rcases ensureChild_cases node c with ⟨m, _, he⟩ | ⟨_, he⟩
  · rw [he]
  · rw [he, value_InsertChildNode]

theorem GetValue_loop_nil [DecidableEq Ty] (t : Ty) (n : TrieNode Ty val) :
    GetValue.loop t [] n = none := by
  rw [GetValue.loop]

theorem GetValue_loop_none [DecidableEq Ty] (t : Ty) {c : Char} (r : List Char)
    {n : TrieNode Ty val} (h : n.GetChildNode c = none) :
    GetValue.loop t (c :: r) n = none := by
  rw [GetValue.loop]
  simp only [h]

theorem GetValue_loop_step [DecidableEq Ty] (t : Ty) {c : Char} (c2 : Char) (r : List Char)
    {n m : TrieNode Ty val} (h : n.GetChildNode c = some m) :
    GetValue.loop t (c :: c2 :: r) n = GetValue.loop t (c2 :: r) m := by
  rw [GetValue.loop]
  simp only [h]

theorem GetValue_loop_congr [DecidableEq Ty] (t : Ty) {c : Char} (r : List Char)
    {n n' : TrieNode Ty val} (h : n'.GetChildNode c = n.GetChildNode c) :
    GetValue.loop t (c :: r) n' = GetValue.loop t (c :: r) n := by
  rw [GetValue.loop, GetValue.loop, h]

theorem GetValue_loop_no_children [DecidableEq Ty] (t : Ty) (k : List Char)
    {n : TrieNode Ty val} (h : n.HasChildren = false) : GetValue.loop t k n = none := by
  cases k with
  | nil => exact GetValue_loop_nil t n
  | cons c r => exact GetValue_loop_none t r (GetChildNode_of_no_children h c)

/-- The lookup of a key through a child that was changed in place: it is as before when
the child is an end node as before with the value as before, and answers the rest of the
key as before. -/
theorem GetValue_loop_via_child [DecidableEq Ty] (t : Ty) {c : Char} (r : List Char)
    {n n' m m' : TrieNode Ty val} (h : n.GetChildNode c = some m)
    (h' : n'.GetChildNode c = some m')
    (hend : r = [] → m'.IsEndNode = m.IsEndNode ∧ m'.value_ = m.value_)
    (hrest : r ≠ [] → GetValue.loop t r m' = GetValue.loop t r m) :
    GetValue.loop t (c :: r) n' = GetValue.loop t (c :: r) n := by
  cases r with
  | nil =>
    obtain ⟨he, hv⟩ := hend rfl
    rw [GetValue.loop, GetValue.loop]
    simp only [h, h', he, hv]
  | cons c2 r2 =>
    rw [GetValue_loop_step t c2 r2 h, GetValue_loop_step t c2 r2 h']
    exact hrest (by simp)

/-- The lookup of a key through a child that was removed: it is as before when the child
was not an end node and answered no key. -/
theorem GetValue_loop_child_gone [DecidableEq Ty] (t : Ty) {c : Char} (r : List Char)
    {n n' m : TrieNode Ty val} (h : n.GetChildNode c = some m)
    (h' : n'.GetChildNode c = none)
    (hend : r = [] → m.IsEndNode = false)
    (hrest : r ≠ [] → GetValue.loop t r m = none) :
    GetValue.loop t (c :: r) n' = GetValue.loop t (c :: r) n := by
  rw [GetValue_loop_none t r h']
  cases r with
  | nil =>
    have he := hend rfl
    rw [GetValue.loop]
    simp only [h, he, Bool.false_eq_true, if_false]
  | cons c2 r2 =>
    rw [GetValue_loop_step t c2 r2 h]
    exact (hrest (by simp)).symm

theorem GetValue_loop_ensureChild [DecidableEq Ty] (t : Ty) (k : List Char)
    (node : TrieNode Ty val) (c : Char) :
    GetValue.loop t k (Insert.ensureChild node c) = GetValue.loop t k node := by
  cases k with
  | nil => rw [GetValue_loop_nil, GetValue_loop_nil]
  | cons c' r =>
    by_cases hc : c' = c
    · subst hc
      rcases ensureChild_cases node c' with ⟨m, _, he⟩ | ⟨hno, he⟩
      · rw [he]
      · obtain ⟨m, hget, hor⟩ := ensureChild_get node c'
        rcases hor with hsome | ⟨_, hm⟩
        · rw [hno] at hsome; exact absurd hsome (by simp)
        · subst hm
          rw [GetValue_loop_none t r hno]
          cases r with
          | nil =>
            rw [GetValue.loop]
            simp only [hget]
            rfl
          | cons c2 r2 =>
            rw [GetValue_loop_step t c2 r2 hget]
            exact GetValue_loop_none t r2 (GetChildNode_new c' c2)
    · exact GetValue_loop_congr t r (ensureChild_get_ne node hc)

theorem trie_Insert_loop_frame [DecidableEq Ty] (t : Ty) (v : val t) (key : List Char) :
    ∀ (node : TrieNode Ty val), KeyOk node →
      ∃ res node', Insert.loop t v key node = some (res, node') ∧
        node'.IsEndNode = node.IsEndNode ∧ node'.value_ = node.value_ ∧
        ∀ (t' : Ty) (k' : List Char), k' ≠ key →
          GetValue.loop t' k' node' = GetValue.loop t' k' node := by
  induction key with
  | nil =>
    intro node _
    exact ⟨false, node, rfl, rfl, rfl, fun _ _ _ => rfl⟩
  | cons c rest ih =>
    intro node hk
    obtain ⟨m, hget, _⟩ := ensureChild_get node c
    have hF := keyOk_ensureChild hk c
    obtain ⟨hmkey, hmok⟩ := (keyOk_iff _).1 hF c m hget
    cases rest with
    | nil =>
      by_cases he : m.IsEndNode = true
      · refine ⟨false, Insert.ensureChild node c, ?_, IsEndNode_ensureChild node c,
          value_ensureChild node c, fun t' k' _ => GetValue_loop_ensureChild t' k' node c⟩
        rw [Insert.loop]
        simp only [hget, he, if_true]
      · have hrem : ((Insert.ensureChild node c).RemoveChildNode c).GetChildNode c = none := by
          rw [GetChildNode_RemoveChildNode]; simp
        have hwk : (m.withValue t v).GetKeyChar = c := hmkey
        have hchild : ∀ c', (((Insert.ensureChild node c).RemoveChildNode c).InsertChildNode c
            (m.withValue t v)).GetChildNode c'
            = if c' = c then some (m.withValue t v)
              else (Insert.ensureChild node c).GetChildNode c' := by
          intro c'
          rw [GetChildNode_InsertChildNode _ _ _ _ hrem hwk, GetChildNode_RemoveChildNode]
          by_cases hc : c' = c <;> simp [hc]
        refine ⟨true, ((Insert.ensureChild node c).RemoveChildNode c).InsertChildNode c
          (m.withValue t v), ?_, ?_, ?_, ?_⟩
        · rw [Insert.loop]
          simp only [hget, he, Bool.false_eq_true, if_false]
        · rw [IsEndNode_InsertChildNode, IsEndNode_RemoveChildNode, IsEndNode_ensureChild]
        · rw [value_InsertChildNode, value_RemoveChildNode, value_ensureChild]
        · intro t' k' hne
          rw [← GetValue_loop_ensureChild t' k' node c]
          cases k' with
          | nil => rw [GetValue_loop_nil, GetValue_loop_nil]
          | cons c' r' =>
            by_cases hc : c' = c
            · subst hc
              have hget' := hchild c'
              rw [if_pos rfl] at hget'
              cases r' with
              | nil => exact absurd rfl hne
              | cons c3 r3 =>
                rw [GetValue_loop_step t' c3 r3 hget', GetValue_loop_step t' c3 r3 hget]
                exact GetValue_loop_congr t' r3 (GetChildNode_withValue m t v c3)
            · apply GetValue_loop_congr
              rw [hchild, if_neg hc]
    | cons c2 rest' =>
      obtain ⟨res, m', hloop, hend', hval', hframe⟩ := ih m hmok
      have hchild : ∀ c', ((Insert.ensureChild node c).setChild c m').GetChildNode c'
          = if c' = c then some m' else (Insert.ensureChild node c).GetChildNode c' := by
        intro c'
        rw [GetChildNode_setChild]
        by_cases hc : c' = c
        · simp [hc, hget]
        · simp [hc]
      refine ⟨res, (Insert.ensureChild node c).setChild c m', ?_, ?_, ?_, ?_⟩
      · rw [Insert.loop]
        simp only [hget, hloop]
      · rw [IsEndNode_setChild, IsEndNode_ensureChild]
      · rw [value_setChild, value_ensureChild]
      · intro t' k' hne
        rw [← GetValue_loop_ensureChild t' k' node c]
        cases k' with
        | nil => rw [GetValue_loop_nil, GetValue_loop_nil]
        | cons c' r' =>
          by_cases hc : c' = c
          · subst hc
            have hget' := hchild c'
            rw [if_pos rfl] at hget'
            refine GetValue_loop_via_child t' r' hget hget' (fun _ => ⟨hend', hval'⟩) ?_
            intro _
            exact hframe t' r' (fun e => hne (by rw [e]))
          · apply GetValue_loop_congr
            rw [hchild, if_neg hc]

theorem trie_Remove_loop_frame [DecidableEq Ty] (key : List Char) :
    ∀ (node : TrieNode Ty val), KeyOk node →
      (Remove.loop key node).2.2.value_ = node.value_ ∧
      ∀ (t' : Ty) (k' : List Char), k' ≠ key →
        GetValue.loop t' k' (Remove.loop key node).2.2 = GetValue.loop t' k' node := by
  induction key with
  | nil => intro node _; exact ⟨rfl, fun _ _ _ => rfl⟩
  | cons c rest ih =>
    intro node hk
    rw [Remove.loop]
    cases hget : node.GetChildNode c with
    | none => exact ⟨rfl, fun _ _ _ => rfl⟩
    | some m =>
      obtain ⟨hmkey, hmok⟩ := (keyOk_iff node).1 hk c m hget
      cases rest with
      | nil =>
        simp only
        by_cases he : m.IsEndNode = false
        · rw [if_pos he]; exact ⟨rfl, fun _ _ _ => rfl⟩
        · rw [if_neg he]
          by_cases hc : m.HasChildren = true
          · rw [if_pos hc]; exact ⟨rfl, fun _ _ _ => rfl⟩
          · rw [if_neg hc]
            have hnc : m.HasChildren = false := by simpa using hc
            refine ⟨value_RemoveChildNode _ _, ?_⟩
            intro t' k' hne
            cases k' with
            | nil => rw [GetValue_loop_nil, GetValue_loop_nil]
            | cons c' r' =>
              by_cases hcc : c' = c
              · subst hcc
                refine GetValue_loop_child_gone t' r' hget ?_ ?_ ?_
                · rw [GetChildNode_RemoveChildNode]; simp
                · intro hr; subst hr; exact absurd rfl hne
                · intro _; exact GetValue_loop_no_children t' r' hnc
              · apply GetValue_loop_congr
                rw [GetChildNode_RemoveChildNode, if_neg hcc]
      | cons c2 rest' =>
        obtain ⟨hval, hframe⟩ := ih m hmok
        obtain ⟨h1, h2, _⟩ := trie_Remove_loop_spec (c2 :: rest') m hmok
        have hchild : ∀ c', (node.setChild c (Remove.loop (c2 :: rest') m).2.2).GetChildNode c'
            = if c' = c then some (Remove.loop (c2 :: rest') m).2.2
              else node.GetChildNode c' := by
          intro c'
          rw [GetChildNode_setChild]
          by_cases hc : c' = c
          · simp [hc, hget]
          · simp [hc]
        have hset : (node.setChild c (Remove.loop (c2 :: rest') m).2.2).value_ = node.value_ ∧
            ∀ (t' : Ty) (k' : List Char), k' ≠ c :: c2 :: rest' →
              GetValue.loop t' k' (node.setChild c (Remove.loop (c2 :: rest') m).2.2)
                = GetValue.loop t' k' node := by
          refine ⟨value_setChild _ _ _, ?_⟩
          intro t' k' hne
          cases k' with
          | nil => rw [GetValue_loop_nil, GetValue_loop_nil]
          | cons c' r' =>
            by_cases hcc : c' = c
            · subst hcc
              have hget' := hchild c'
              rw [if_pos rfl] at hget'
              refine GetValue_loop_via_child t' r' hget hget' (fun _ => ⟨h2, hval⟩) ?_
              intro _
              exact hframe t' r' (fun e => hne (by rw [e]))
            · apply GetValue_loop_congr
              rw [hchild, if_neg hcc]
        simp only
        by_cases hp : (Remove.loop (c2 :: rest') m).2.1 = true
        · rw [if_pos hp]
          by_cases hx : (Remove.loop (c2 :: rest') m).2.2.HasChildren = true ∨
              (Remove.loop (c2 :: rest') m).2.2.IsEndNode = true
          · rw [if_pos hx]
            exact hset
          · rw [if_neg hx]
            have hnc : (Remove.loop (c2 :: rest') m).2.2.HasChildren = false := by
              by_contra hh; exact hx (Or.inl (by simpa using hh))
            have hne' : (Remove.loop (c2 :: rest') m).2.2.IsEndNode = false := by
              by_contra hh; exact hx (Or.inr (by simpa using hh))
            rw [h1.trans hmkey]
            refine ⟨(value_RemoveChildNode _ _).trans (value_setChild _ _ _), ?_⟩
            intro t' k' hne
            cases k' with
            | nil => rw [GetValue_loop_nil, GetValue_loop_nil]
            | cons c' r' =>
              by_cases hcc : c' = c
              · subst hcc
                refine GetValue_loop_child_gone t' r' hget ?_ ?_ ?_
                · rw [GetChildNode_RemoveChildNode]; simp
                · intro _; rw [← h2]; exact hne'
                · intro _
                  rw [← hframe t' r' (fun e => hne (by rw [e]))]
                  exact GetValue_loop_no_children t' r' hnc
              · apply GetValue_loop_congr
                rw [GetChildNode_RemoveChildNode, if_neg hcc, hchild, if_neg hcc]
        · rw [if_neg hp]
          exact hset

/-- C23: in every trie built from the empty trie by `Insert` and `Remove` calls, for any
two distinct keys `key` and `k'`, `Insert(key, v)` is defined and leaves what
`GetValue(k')` answers, success flag and value, for every value type, as it was, and so
does `Remove(key)`. -/
theorem C23_operations_keep_other_keys [DecidableEq Ty] (ops : List (TrieOp Ty val))
    (key k' : List Char) (hne : key ≠ k') :
    ∃ trie, applyOps (Trie.new : Trie Ty val) ops = some trie ∧
      (∀ (t : Ty) (v : val t), ∃ res trie', Insert t key v trie = some (res, trie') ∧
        ∀ t', GetValue t' k' trie' = GetValue t' k' trie) ∧
      (∀ t', GetValue t' k' (Remove key trie).2 = GetValue t' k' trie) := by
  obtain ⟨trie, happ, hok⟩ := applyOps_keyOk ops (Trie.new : Trie Ty val) keyOk_root_new
  refine ⟨trie, happ, ?_, ?_⟩
  · intro t v
    obtain ⟨res, node', hloop, _, _, hframe⟩ := trie_Insert_loop_frame t v key trie.root_ hok
    by_cases hk : key.isEmpty = true
    · refine ⟨false, trie, ?_, fun _ => rfl⟩
      unfold Insert
      rw [if_pos hk]
    · refine ⟨res, { root_ := node' }, ?_, ?_⟩
      · unfold Insert
        rw [if_neg hk, hloop]
        rfl
      · intro t'
        exact hframe t' k' (fun e => hne e.symm)
  · intro t'
    exact (trie_Remove_loop_frame key trie.root_ hok).2 t' k' (fun e => hne e.symm)

theorem C23_operations_keep_other_keys_witness :
    ['a'] ≠ ['a', 'b'] ∧
    ∃ trie, applyOps (Trie.new : Trie Unit (fun _ => Nat)) exampleOps = some trie ∧
      (∀ (t : Unit) (v : Nat), ∃ res trie', Insert t ['a'] v trie = some (res, trie') ∧
        ∀ t', GetValue t' ['a', 'b'] trie' = GetValue t' ['a', 'b'] trie) ∧
      (∀ t', GetValue t' ['a', 'b'] (Remove ['a'] trie).2 = GetValue t' ['a', 'b'] trie) :=
  ⟨by decide, C23_operations_keep_other_keys exampleOps ['a'] ['a', 'b'] (by decide)⟩

end Trie

namespace LRUReplacer

theorem Rep.node_of_entry {r : LRUReplacer} (h : Rep r) {f : Int} {p : Nat}
    (he : (f, p) ∈ r.map_frames_) :
    (⟨p, f⟩ : Node) ∈ r.list_unpinned_ ∧
      ∀ n ∈ r.list_unpinned_, n.addr = p → n.frame = f := by
  have hn := (h.entry_iff f p).1 he
  refine ⟨hn, ?_⟩
  intro n hmem hp
  have := List.inj_on_of_nodup_map h.addr_nodup hmem hn hp
  rw [this]

theorem Rep.frame_mem_iff_key {r : LRUReplacer} (h : Rep r) (f : Int) :
    f ∈ r.list_unpinned_.map Node.frame ↔ f ∈ r.map_frames_.map Prod.fst := by
  constructor
  · intro hf
    obtain ⟨p, hp⟩ := (mem_candidates_iff r f).1 hf
    exact List.mem_map.2 ⟨(f, p), (h.entry_iff f p).2 hp, rfl⟩
  · intro hf
    obtain ⟨⟨g, p⟩, he, hg⟩ := List.mem_map.1 hf
    simp only at hg
    subst hg
    exact (mem_candidates_iff r g).2 ⟨p, (h.entry_iff g p).1 he⟩

theorem Rep.victim_defined {r : LRUReplacer} (h : Rep r) :
    ∃ res r', Victim r = some (res, r') := by
  rcases List.eq_nil_or_concat (candidates r) with hc | ⟨cs, f, hc⟩
  · exact ⟨none, r, Victim_of_nil h hc⟩
  · rw [List.concat_eq_append] at hc
    exact ⟨some f, removeFrame r f, (Victim_of_concat h hc).1⟩

theorem Rep.pin_keeps_other_nodes {r : LRUReplacer} (h : Rep r) (f : Int) :
    ∃ r', Pin r f = some r' ∧
      ∀ n ∈ r.list_unpinned_, n.frame ≠ f → n ∈ r'.list_unpinned_ := by
  by_cases hf : f ∈ candidates r
  · refine ⟨removeFrame r f, Pin_of_mem h hf, ?_⟩
    intro n hn hne
    unfold removeFrame
    simp only [List.mem_filter, bne_iff_ne, ne_eq]
    exact ⟨hn, hne⟩
  · exact ⟨r, Pin_of_not_mem h hf, fun n hn _ => hn⟩

/-- C24: in every state reached from a fresh replacer by Pin, Unpin and Victim calls
(every such run is defined), the recency list holds no frame id twice, its frame ids
are the keys of the frame map, and each map entry designates the node of the list that
holds its own frame id; hence the list is not empty when the map is not, `Victim` is
defined (it never takes the back of an empty list), and `Pin` is defined and leaves in
the list every node that holds another frame id. -/
theorem C24_list_and_map_stay_consistent (F : Nat) (ops : List Op) :
    ∃ r log, run F ops = some (r, log) ∧
      (r.list_unpinned_.map Node.frame).Nodup ∧
      (∀ f, f ∈ r.list_unpinned_.map Node.frame ↔ f ∈ r.map_frames_.map Prod.fst) ∧
      (∀ f p, (f, p) ∈ r.map_frames_ →
        (⟨p, f⟩ : Node) ∈ r.list_unpinned_ ∧
          ∀ n ∈ r.list_unpinned_, n.addr = p → n.frame = f) ∧
      (r.map_frames_ ≠ [] → r.list_unpinned_ ≠ []) ∧
      (r.map_frames_.isEmpty = false → r.list_unpinned_.getLast? ≠ none) ∧
      (∃ res r', Victim r = some (res, r')) ∧
      (∀ f, ∃ r', Pin r f = some r' ∧
        ∀ n ∈ r.list_unpinned_, n.frame ≠ f → n ∈ r'.list_unpinned_) := by
  obtain ⟨r, log, hrun, hA⟩ := run_total F ops
  have h := hA.rep
  have hne : r.map_frames_ ≠ [] → r.list_unpinned_ ≠ [] := by
    intro hm hl
    have := h.map_isEmpty_iff.2 hl
    rw [List.isEmpty_iff] at this
    exact hm this
  refine ⟨r, log, hrun, h.frame_nodup, h.frame_mem_iff_key, fun f p he => h.node_of_entry he,
    hne, ?_, h.victim_defined, h.pin_keeps_other_nodes⟩
  intro hm hl
  rw [List.getLast?_eq_none_iff] at hl
  have := h.map_isEmpty_iff.2 hl
  rw [this] at hm
  cases hm

end LRUReplacer
